import Mathlib

/-!
# Verification of the limit order book engine

A shallow embedding of the C++ limit order book (`include/Order.h`,
`include/OrderBook.h` / `OrderBook.cpp`) and proofs of the specified
properties.

Modelling conventions:
* `double` prices become `ℚ` (exact rationals; the source uses prices only
  through comparison, equality-keyed maps, addition and halving).
* `std::uint64_t` quantities and timestamps become `ℕ` (the engine only
  subtracts `min o.quantity r.quantity`, which never underflows).
* `std::map` becomes a strictly-sorted association list; `rbegin` of a map
  is the last element of the ascending list.
* `std::shared_ptr<Order>` sharing between the id index `orders_` and the
  price-level vectors is modelled by explicitly writing every in-place
  mutation back to both structures; pointer-identity search in
  `removeOrderFromPriceLevel` becomes search by `orderId` (faithful while
  ids are unique, which the book enforces on admission).
* wall-clock reads (`high_resolution_clock`) become explicit `ℕ`
  parameters supplied by the caller; the `Trade` timestamp field, which is
  only ever a clock read, is omitted.
* the trade callback is modelled by returning the list of emitted trades
  in emission order.
-/

set_option maxRecDepth 40000

namespace OrderBookModel

/-- Model of `enum class OrderSide` from `Order.h`. -/
inductive OrderSide where
  | BUY : OrderSide
  | SELL : OrderSide
deriving DecidableEq, Repr

/-- Model of `struct Order` from `Order.h`: id, side, limit price,
mutable remaining quantity, creation timestamp. -/
structure Order where
  orderId : ℕ
  side : OrderSide
  price : ℚ
  quantity : ℕ
  timestamp : ℕ
deriving DecidableEq, Repr

/-- Model of `struct Trade` from `OrderBook.h` (the wall-clock
`timestamp` field is omitted, see the module comment). -/
structure Trade where
  buyOrderId : ℕ
  sellOrderId : ℕ
  price : ℚ
  quantity : ℕ
deriving DecidableEq, Repr

/-! ## The id index `orders_` (a `std::map<uint64_t, OrderPtr>`),
modelled as a list of orders strictly sorted by `orderId`. -/

/-- Model of `orders_.find(id)` on the sorted id index. -/
def lookupId (idx : List Order) (id : ℕ) : Option Order :=
  idx.find? (fun o => o.orderId = id)

/-- Model of `orders_[id] = order` for a fresh id: sorted insertion by
`orderId`. -/
def insertById (o : Order) : List Order → List Order
  | [] => [o]
  | x :: xs =>
    if o.orderId < x.orderId then o :: x :: xs
    else x :: insertById o xs

/-- Model of `orders_.erase(id)`. -/
def eraseId (id : ℕ) (idx : List Order) : List Order :=
  idx.filter (fun o => o.orderId ≠ id)

/-- The effect on `orders_` of mutating the shared `Order` object with id
`o.orderId` to the new record `o` (sharing writes through to the index). -/
def updateById (o : Order) (idx : List Order) : List Order :=
  idx.map (fun x => if x.orderId = o.orderId then o else x)

/-! ## Price-level ledgers (`std::map<double, std::vector<OrderPtr>>`),
modelled as association lists strictly sorted by ascending price key. -/

/-- All price keys of a ledger, in map (ascending) order. -/
def keysOf (ls : List (ℚ × List Order)) : List ℚ :=
  ls.map Prod.fst

/-- Model of `priceMap.find(price)`. -/
def findLevel (p : ℚ) : List (ℚ × List Order) → Option (List Order)
  | [] => none
  | (q, lvl) :: rest => if q = p then some lvl else findLevel p rest

/-- Place an order inside the order vector of one price level.  The source
appends and then sorts the vector by timestamp (`addOrderToPriceLevel`);
since the vector is always timestamp-sorted already, that `push_back` +
`std::sort` is ordered insertion after every order with a timestamp
`≤` the new one. -/
def insertByTimestamp (o : Order) : List Order → List Order
  | [] => [o]
  | x :: xs =>
    if x.timestamp ≤ o.timestamp then x :: insertByTimestamp o xs
    else o :: x :: xs

/-- Model of `addOrderToPriceLevel` restricted to one ledger:
`priceMap[order->price].push_back(order)` (creating the level on first
use, at its sorted key position) followed by the timestamp sort. -/
def addToLevels (o : Order) : List (ℚ × List Order) → List (ℚ × List Order)
  | [] => [(o.price, [o])]
  | (q, lvl) :: rest =>
    if o.price < q then (o.price, [o]) :: (q, lvl) :: rest
    else if o.price = q then (q, insertByTimestamp o lvl) :: rest
    else (q, lvl) :: addToLevels o rest

/-- Model of `removeOrderFromPriceLevel` restricted to one ledger: find
the level keyed by the price of the order, erase the order (searched by
identity, here by id), and destroy the level if it became empty. -/
def removeFromLevels (id : ℕ) (p : ℚ) : List (ℚ × List Order) → List (ℚ × List Order)
  | [] => []
  | (q, lvl) :: rest =>
    if q = p then
      let lvl' := lvl.filter (fun o => o.orderId ≠ id)
      if lvl'.isEmpty then rest else (q, lvl') :: rest
    else (q, lvl) :: removeFromLevels id p rest

/-- The effect on a ledger of mutating the shared `Order` object to the
new record `o` (the record sits in the level keyed by its price). -/
def updateInLevels (o : Order) (ls : List (ℚ × List Order)) : List (ℚ × List Order) :=
  ls.map (fun pl =>
    if pl.1 = o.price then
      (pl.1, pl.2.map (fun x => if x.orderId = o.orderId then o else x))
    else pl)

/-! ## Matching -/

/-- The price test of `matchOrders`: a BUY matches a level priced at or
below its limit, a SELL a level priced at or above. -/
def crosses (o : Order) (oppositePrice : ℚ) : Bool :=
  match o.side with
  | .BUY => oppositePrice ≤ o.price
  | .SELL => o.price ≤ oppositePrice

/-- Model of `executeTrade`: buy/sell oriented by the aggressor side; the execution
price is the arithmetic mean of the two limit prices. -/
def mkTrade (o r : Order) (q : ℕ) : Trade :=
  match o.side with
  | .BUY => ⟨o.orderId, r.orderId, (o.price + r.price) / 2, q⟩
  | .SELL => ⟨r.orderId, o.orderId, (r.price + o.price) / 2, q⟩

/-- Result of draining one price level (the inner `while` of
`matchOrders`): the updated aggressor record, the surviving level
order vector, the emitted trades, the ids erased from `orders_`, and the
at-most-one partially filled survivor (whose shared record was mutated). -/
structure LevelResult where
  next : Order
  lvl : List Order
  trades : List Trade
  removed : List ℕ
  part : Option Order
deriving Repr

/-- The inner loop of `matchOrders`: repeatedly trade the aggressor
against the front (earliest-timestamp) resting order of the level,
erasing fully filled resting orders, until the level or the aggressor is
exhausted. -/
def matchLevel (o : Order) : List Order → LevelResult
  | [] => ⟨o, [], [], [], none⟩
  | r :: rs =>
    if o.quantity = 0 then ⟨o, r :: rs, [], [], none⟩
    else
      let t := min o.quantity r.quantity
      let tr := mkTrade o r t
      let o' : Order := { o with quantity := o.quantity - t }
      let r' : Order := { r with quantity := r.quantity - t }
      if r'.quantity = 0 then
        let res := matchLevel o' rs
        ⟨res.next, res.lvl, tr :: res.trades, r.orderId :: res.removed, res.part⟩
      else
        ⟨o', r' :: rs, [tr], [], some r'⟩

/-- Result of the outer `while` of `matchOrders`, over a ledger listed
best-price-first. -/
structure SweepResult where
  next : Order
  levels : List (ℚ × List Order)
  trades : List Trade
  removed : List ℕ
  part : Option Order
deriving Repr

/-- The outer loop of `matchOrders`: while the aggressor has quantity and
the best opposing level crosses, drain that level, dropping it once empty.
`levels` is the opposing ledger listed best-price-first (asks ascending
for a BUY, bids descending for a SELL). -/
def sweep (o : Order) : List (ℚ × List Order) → SweepResult
  | [] => ⟨o, [], [], [], none⟩
  | (p, lvl) :: rest =>
    if o.quantity = 0 then ⟨o, (p, lvl) :: rest, [], [], none⟩
    else if crosses o p then
      let m := matchLevel o lvl
      if m.lvl.isEmpty then
        let s := sweep m.next rest
        ⟨s.next, s.levels, m.trades ++ s.trades, m.removed ++ s.removed, s.part⟩
      else
        ⟨m.next, (p, m.lvl) :: rest, m.trades, m.removed, m.part⟩
    else ⟨o, (p, lvl) :: rest, [], [], none⟩

/-! ## The book -/

/-- Model of `class OrderBook`: the id index and the two price-level ledgers (the
callback slot is modelled by the returned trade lists). -/
structure Book where
  orders : List Order
  bids : List (ℚ × List Order)
  asks : List (ℚ × List Order)
deriving DecidableEq, Repr

/-- The empty book (default-constructed `OrderBook`). -/
def Book.empty : Book := ⟨[], [], []⟩

/-- Model of `getPriceLevelMap(side)`. -/
def Book.sideLevels (b : Book) (s : OrderSide) : List (ℚ × List Order) :=
  match s with
  | .BUY => b.bids
  | .SELL => b.asks

/-- Model of `addOrderToPriceLevel(order)`: insert into the ledger of
the side of the order. -/
def Book.addToPriceLevel (b : Book) (o : Order) : Book :=
  match o.side with
  | .BUY => { b with bids := addToLevels o b.bids }
  | .SELL => { b with asks := addToLevels o b.asks }

/-- Model of `removeOrderFromPriceLevel(order)`: remove from the ledger
of the side of the order (does not touch `orders_`). -/
def Book.removeFromPriceLevel (b : Book) (o : Order) : Book :=
  match o.side with
  | .BUY => { b with bids := removeFromLevels o.orderId o.price b.bids }
  | .SELL => { b with asks := removeFromLevels o.orderId o.price b.asks }

/-- The opposing ledger of aggressor `o`, listed best-price-first: the
ascending ask map for a BUY (`begin` is best), the reversed bid map for a
SELL (`--end()` is best). -/
def Book.bestFirstLevels (b : Book) (o : Order) : List (ℚ × List Order) :=
  match o.side with
  | .BUY => b.asks
  | .SELL => b.bids.reverse

/-- The state of `orders_` after the matching loop: the ids of fully
filled resting orders have been erased inside the loop, and the in-place
mutations of the two shared records still alive (the partially filled
survivor and the aggressor) have written through to the index. -/
def matchedIndex (s : SweepResult) (idx : List Order) : List Order :=
  updateById s.next
    ((match s.part with
      | some r => updateById r
      | none => id)
     (s.removed.foldl (fun m i => eraseId i m) idx))

/-- Model of `matchOrders(newOrder)` for an order `o` already placed in the index
and the ledger of its side: sweep the opposing ledger best-price-first, write
the mutations of the shared records back into the index and
the own level of the aggressor, and finally remove the aggressor entirely if it
was fully consumed. -/
def Book.matchOrders (b : Book) (o : Order) : Book × List Trade :=
  let s := sweep o (b.bestFirstLevels o)
  let idx := matchedIndex s b.orders
  let b' : Book := match o.side with
    | .BUY => ⟨idx, updateInLevels s.next b.bids, s.levels⟩
    | .SELL => ⟨idx, s.levels.reverse, updateInLevels s.next b.asks⟩
  if s.next.quantity = 0 then
    (Book.removeFromPriceLevel
      { b' with orders := eraseId s.next.orderId b'.orders } s.next, s.trades)
  else (b', s.trades)

/-- Model of `addOrder(order)`: reject a null order, a zero quantity or a duplicate
id; otherwise index the order, place it in its price level and run the
matching algorithm.  Returns the success flag, the new book and the trades
delivered to the callback. -/
def Book.addOrder (b : Book) (o? : Option Order) : Bool × Book × List Trade :=
  match o? with
  | none => (false, b, [])
  | some o =>
    if o.quantity = 0 then (false, b, [])
    else if (lookupId b.orders o.orderId).isSome then (false, b, [])
    else
      let b₁ := { b with orders := insertById o b.orders }
      let b₂ := b₁.addToPriceLevel o
      let (b₃, ts) := b₂.matchOrders o
      (true, b₃, ts)

/-- Model of `cancelOrder(orderId)`: unknown id fails; otherwise remove the order
from its price level and from the index. -/
def Book.cancelOrder (b : Book) (id : ℕ) : Bool × Book :=
  match lookupId b.orders id with
  | none => (false, b)
  | some ord =>
    let b₁ := b.removeFromPriceLevel ord
    (true, { b₁ with orders := eraseId id b₁.orders })

/-- Model of `modifyOrder(orderId, newPrice, newQuantity)` with the wall-clock read
passed as `now`: unknown id fails; otherwise remove from the current
level, mutate price/quantity/timestamp in place (visible in the index via
sharing), reinsert into the right level, and re-run matching. -/
def Book.modifyOrder (b : Book) (id : ℕ) (newPrice : ℚ) (newQuantity : ℕ)
    (now : ℕ) : Bool × Book × List Trade :=
  match lookupId b.orders id with
  | none => (false, b, [])
  | some ord =>
    let b₁ := b.removeFromPriceLevel ord
    let ord' : Order :=
      { ord with price := newPrice, quantity := newQuantity, timestamp := now }
    let b₂ := { b₁ with orders := updateById ord' b₁.orders }
    let b₃ := b₂.addToPriceLevel ord'
    let (b₄, ts) := b₃.matchOrders ord'
    (true, b₄, ts)

/-- Model of `getBestBid`: the highest bid key (`bids_.rbegin()`), absent when the
bid ledger is empty. -/
def Book.getBestBid (b : Book) : Option ℚ :=
  (keysOf b.bids).getLast?

/-- Model of `getBestAsk`: the lowest ask key (`asks_.begin()`), absent when the
ask ledger is empty. -/
def Book.getBestAsk (b : Book) : Option ℚ :=
  (keysOf b.asks).head?

/-- Model of `getSpread`: best ask minus best bid, absent when either side is
empty. -/
def Book.getSpread (b : Book) : Option ℚ :=
  match b.getBestBid, b.getBestAsk with
  | some bb, some ba => some (ba - bb)
  | _, _ => none

/-- Model of `getDepthAtPrice(price, side)`: total resting quantity at exactly that
level, `0` when the level does not exist. -/
def Book.getDepthAtPrice (b : Book) (p : ℚ) (s : OrderSide) : ℕ :=
  match findLevel p (b.sideLevels s) with
  | none => 0
  | some lvl => (lvl.map Order.quantity).sum

/-- Model of `getOrderCount`: size of the id index. -/
def Book.getOrderCount (b : Book) : ℕ :=
  b.orders.length

/-- Model of `clear`: empty all three structures. -/
def Book.clear (_ : Book) : Book := Book.empty

/-! ## Operation sequences (for the reachable-state invariants) -/

/-- One public mutating call, with every wall-clock read made explicit. -/
inductive Op where
  | add (o? : Option Order) : Op
  | cancel (id : ℕ) : Op
  | modify (id : ℕ) (newPrice : ℚ) (newQuantity : ℕ) (now : ℕ) : Op
  | clear : Op

/-- The book state after one public call. -/
def Book.applyOp (b : Book) : Op → Book
  | .add o? => (b.addOrder o?).2.1
  | .cancel id => (b.cancelOrder id).2
  | .modify id p q now => (b.modifyOrder id p q now).2.1
  | .clear => b.clear

/-- The book reached by a sequence of public calls from the empty book. -/
def runOps (ops : List Op) : Book :=
  ops.foldl Book.applyOp Book.empty

/-! ## Specification-side definitions

These formalise the properties the specification states; they are compared
with the embedded code by the theorems below. -/

/-- Strict FIFO greedy fill (specification §4.3): consume the given
priority-ordered resting orders front-first, trading
`min(O.quantity, R.quantity)` each step, until the aggressor is
exhausted. -/
def greedyTrades (o : Order) : List Order → List Trade
  | [] => []
  | r :: rs =>
    if o.quantity = 0 then []
    else mkTrade o r (min o.quantity r.quantity) ::
      greedyTrades { o with quantity := o.quantity - min o.quantity r.quantity } rs

/-- The resting orders the aggressor can reach, in price-time priority
order: concatenate the order queues of the leading run of crossing levels
of the best-first ledger. -/
def crossableOrders (o : Order) (ls : List (ℚ × List Order)) : List Order :=
  ((ls.takeWhile (fun pl => crosses o pl.1)).map Prod.snd).flatten

/-- Number of occurrences of the id `i` in one level queue. -/
def cntLvl (i : ℕ) (lvl : List Order) : ℕ :=
  lvl.countP (fun x => x.orderId = i)

/-- Number of occurrences of the id `i` across a ledger. -/
def cntLs (i : ℕ) (ls : List (ℚ × List Order)) : ℕ :=
  (ls.map (fun pl => cntLvl i pl.2)).sum

/-- Number of occurrences of the id `i` across both ledgers of a book. -/
def cntBook (i : ℕ) (b : Book) : ℕ :=
  cntLs i b.bids + cntLs i b.asks

/-- Total quantity of a list of orders. -/
def sumQty (l : List Order) : ℕ :=
  (l.map Order.quantity).sum

/-- The price keys of a ledger are strictly ascending (the `std::map`
representation invariant). -/
def keysSorted (ls : List (ℚ × List Order)) : Prop :=
  (keysOf ls).Pairwise (· < ·)

/-- The ids of the index are strictly ascending (the `std::map`
representation invariant). -/
def idsSorted (idx : List Order) : Prop :=
  (idx.map Order.orderId).Pairwise (· < ·)

/-- The order record appears in the level keyed by exactly its price, on
the ledger of its own side. -/
def inItsLevel (b : Book) (o : Order) : Prop :=
  o ∈ (findLevel o.price (b.sideLevels o.side)).getD []

/-- A partially filled copy of a resting order: same identity, side,
price and timestamp, smaller but still positive quantity. -/
def Shrunk (x r : Order) : Prop :=
  x.orderId = r.orderId ∧ x.side = r.side ∧ x.price = r.price ∧
  x.timestamp = r.timestamp ∧ 0 < x.quantity ∧ x.quantity ≤ r.quantity

/-- The full book well-formedness invariant (specification §3). -/
def WF (b : Book) : Prop :=
  keysSorted b.bids ∧ keysSorted b.asks ∧
  (∀ pl ∈ b.bids, pl.2 ≠ []) ∧ (∀ pl ∈ b.asks, pl.2 ≠ []) ∧
  idsSorted b.orders ∧
  (∀ x ∈ b.orders, inItsLevel b x ∧ cntBook x.orderId b = 1 ∧ 0 < x.quantity) ∧
  (∀ pl ∈ b.bids, ∀ r ∈ pl.2,
    r.side = OrderSide.BUY ∧ r.price = pl.1 ∧ lookupId b.orders r.orderId = some r) ∧
  (∀ pl ∈ b.asks, ∀ r ∈ pl.2,
    r.side = OrderSide.SELL ∧ r.price = pl.1 ∧ lookupId b.orders r.orderId = some r)

/-- The precondition under which `matchOrders` runs inside `addOrder` and
`modifyOrder`: the book is well formed except that the just-placed
aggressor `o` (present in the index and its level) may have any quantity,
zero included. -/
def PreMatch (b : Book) (o : Order) : Prop :=
  keysSorted b.bids ∧ keysSorted b.asks ∧
  (∀ pl ∈ b.bids, pl.2 ≠ []) ∧ (∀ pl ∈ b.asks, pl.2 ≠ []) ∧
  idsSorted b.orders ∧
  (∀ x ∈ b.orders, inItsLevel b x ∧ cntBook x.orderId b = 1 ∧
    (x.orderId ≠ o.orderId → 0 < x.quantity)) ∧
  (∀ pl ∈ b.bids, ∀ r ∈ pl.2,
    r.side = OrderSide.BUY ∧ r.price = pl.1 ∧ lookupId b.orders r.orderId = some r) ∧
  (∀ pl ∈ b.asks, ∀ r ∈ pl.2,
    r.side = OrderSide.SELL ∧ r.price = pl.1 ∧ lookupId b.orders r.orderId = some r) ∧
  lookupId b.orders o.orderId = some o

/-- The conjuncts of claim C5: no empty level, every indexed order sits in
exactly one level (right side, exact price key), and every resting
quantity is positive. -/
def ClaimInv (b : Book) : Prop :=
  (∀ pl ∈ b.bids, pl.2 ≠ []) ∧ (∀ pl ∈ b.asks, pl.2 ≠ []) ∧
  (∀ x ∈ b.orders, inItsLevel b x ∧ cntBook x.orderId b = 1) ∧
  (∀ x ∈ b.orders, 0 < x.quantity) ∧
  (∀ pl ∈ b.bids, ∀ r ∈ pl.2, 0 < r.quantity) ∧
  (∀ pl ∈ b.asks, ∀ r ∈ pl.2, 0 < r.quantity)

/-- Absence of crossing resting prices: every bid key is at most every
ask key. -/
def NoCross (b : Book) : Prop :=
  ∀ pb ∈ keysOf b.bids, ∀ pa ∈ keysOf b.asks, pb ≤ pa

/-- The four-order book of specification Scenario 4 (two bids at 100.50
and 100.25, two asks at 101.00 and 101.25). -/
def scenario4Base : Book := runOps [
  Op.add (some ⟨1, OrderSide.BUY, 100.50, 100, 1⟩),
  Op.add (some ⟨2, OrderSide.BUY, 100.25, 200, 2⟩),
  Op.add (some ⟨3, OrderSide.SELL, 101.00, 150, 3⟩),
  Op.add (some ⟨4, OrderSide.SELL, 101.25, 100, 4⟩)]

/-- The one-order book of specification Scenario 3 (a resting SELL of 100
at 100.50). -/
def scenario3Base : Book :=
  (Book.empty.addOrder (some ⟨1, OrderSide.SELL, 100.50, 100, 1⟩)).2.1

/-- A small concrete book with two bids and two asks at integer prices
(used to witness the query theorems). -/
def queryWitnessBook : Book := runOps [
  Op.add (some ⟨1, OrderSide.BUY, 100, 10, 1⟩),
  Op.add (some ⟨2, OrderSide.BUY, 99, 5, 2⟩),
  Op.add (some ⟨3, OrderSide.SELL, 103, 7, 3⟩),
  Op.add (some ⟨4, OrderSide.SELL, 105, 2, 4⟩)]

/-- A concrete book with three ask levels (used to witness the matching
priority theorem). -/
def sweepWitnessBook : Book := runOps [
  Op.add (some ⟨1, OrderSide.SELL, 101, 10, 1⟩),
  Op.add (some ⟨2, OrderSide.SELL, 102, 10, 2⟩),
  Op.add (some ⟨3, OrderSide.SELL, 102, 10, 3⟩),
  Op.add (some ⟨4, OrderSide.SELL, 103, 10, 4⟩)]

instance (ls : List (ℚ × List Order)) : Decidable (keysSorted ls) := by
  unfold keysSorted
  exact List.instDecidablePairwise _

instance (idx : List Order) : Decidable (idsSorted idx) := by
  unfold idsSorted
  exact List.instDecidablePairwise _

instance (b : Book) (o : Order) : Decidable (inItsLevel b o) := by
  unfold inItsLevel
  infer_instance

instance (x r : Order) : Decidable (Shrunk x r) := by
  unfold Shrunk
  infer_instance

instance (b : Book) : Decidable (WF b) := by
  unfold WF
  infer_instance

instance (b : Book) (o : Order) : Decidable (PreMatch b o) := by
  unfold PreMatch
  infer_instance

instance (b : Book) : Decidable (ClaimInv b) := by
  unfold ClaimInv
  infer_instance

instance (b : Book) : Decidable (NoCross b) := by
  unfold NoCross
  infer_instance

/-! ## Theorems -/

/-! ### Unfolding equations for the matching loops -/

theorem matchLevel_nil (o : Order) : matchLevel o [] = ⟨o, [], [], [], none⟩ := rfl

theorem matchLevel_cons_zero (o r : Order) (rs : List Order) (h : o.quantity = 0) :
    matchLevel o (r :: rs) = ⟨o, r :: rs, [], [], none⟩ := by
  simp [matchLevel, h]

theorem matchLevel_cons_full (o r : Order) (rs : List Order)
    (h : o.quantity ≠ 0) (h2 : r.quantity ≤ o.quantity) :
    matchLevel o (r :: rs) =
      (let res := matchLevel { o with quantity := o.quantity - r.quantity } rs
       ⟨res.next, res.lvl, mkTrade o r r.quantity :: res.trades,
        r.orderId :: res.removed, res.part⟩) := by
  simp [matchLevel, h, Nat.min_eq_right h2]

theorem matchLevel_cons_shrink (o r : Order) (rs : List Order)
    (h : o.quantity ≠ 0) (h2 : o.quantity < r.quantity) :
    matchLevel o (r :: rs) =
      ⟨{ o with quantity := 0 },
       { r with quantity := r.quantity - o.quantity } :: rs,
       [mkTrade o r o.quantity], [],
       some { r with quantity := r.quantity - o.quantity }⟩ := by
  have hmin : min o.quantity r.quantity = o.quantity := Nat.min_eq_left (le_of_lt h2)
  have hr : r.quantity - o.quantity ≠ 0 := Nat.sub_ne_zero_of_lt h2
  simp [matchLevel, h, hmin, hr]

theorem sweep_nil (o : Order) : sweep o [] = ⟨o, [], [], [], none⟩ := rfl

theorem sweep_cons_zero (o : Order) (p : ℚ) (lvl : List Order)
    (rest : List (ℚ × List Order)) (h : o.quantity = 0) :
    sweep o ((p, lvl) :: rest) = ⟨o, (p, lvl) :: rest, [], [], none⟩ := by
  simp [sweep, h]

theorem sweep_cons_nocross (o : Order) (p : ℚ) (lvl : List Order)
    (rest : List (ℚ × List Order)) (h : o.quantity ≠ 0) (hc : crosses o p = false) :
    sweep o ((p, lvl) :: rest) = ⟨o, (p, lvl) :: rest, [], [], none⟩ := by
  simp [sweep, h, hc]

theorem sweep_cons_drained (o : Order) (p : ℚ) (lvl : List Order)
    (rest : List (ℚ × List Order)) (h : o.quantity ≠ 0) (hc : crosses o p = true)
    (hd : (matchLevel o lvl).lvl = []) :
    sweep o ((p, lvl) :: rest) =
      (let m := matchLevel o lvl
       let s := sweep m.next rest
       ⟨s.next, s.levels, m.trades ++ s.trades, m.removed ++ s.removed, s.part⟩) := by
  simp [sweep, h, hc, hd]

theorem sweep_cons_stuck (o : Order) (p : ℚ) (lvl : List Order)
    (rest : List (ℚ × List Order)) (h : o.quantity ≠ 0) (hc : crosses o p = true)
    (hd : (matchLevel o lvl).lvl ≠ []) :
    sweep o ((p, lvl) :: rest) =
      ⟨(matchLevel o lvl).next, (p, (matchLevel o lvl).lvl) :: rest,
       (matchLevel o lvl).trades, (matchLevel o lvl).removed,
       (matchLevel o lvl).part⟩ := by
  simp [sweep, h, hc, hd]

/-! ### Small facts about trades and sorted key lists -/

theorem mkTrade_quantity (o r : Order) (q : ℕ) : (mkTrade o r q).quantity = q := by
  cases h : o.side <;> simp [mkTrade, h]

theorem sorted_head?_min {l : List ℚ} (h : l.Pairwise (· < ·)) {p : ℚ}
    (hp : l.head? = some p) : p ∈ l ∧ ∀ q ∈ l, p ≤ q := by
  cases l with
  | nil => simp at hp
  | cons x xs =>
    simp only [List.head?_cons, Option.some.injEq] at hp
    subst hp
    refine ⟨List.mem_cons_self _ _, ?_⟩
    intro q hq
    rcases List.mem_cons.mp hq with h1 | h2
    · exact le_of_eq h1.symm
    · exact le_of_lt ((List.pairwise_cons.mp h).1 q h2)

theorem sorted_getLast?_max {l : List ℚ} (h : l.Pairwise (· < ·)) {p : ℚ}
    (hp : l.getLast? = some p) : p ∈ l ∧ ∀ q ∈ l, q ≤ p := by
  induction l with
  | nil => simp at hp
  | cons x xs ih =>
    cases xs with
    | nil =>
      simp only [List.getLast?_singleton, Option.some.injEq] at hp
      subst hp
      simp
    | cons y ys =>
      rw [List.getLast?_cons_cons] at hp
      have h' := List.pairwise_cons.mp h
      obtain ⟨hm, hle⟩ := ih h'.2 (by exact hp)
      refine ⟨List.mem_cons_of_mem _ hm, ?_⟩
      intro q hq
      rcases List.mem_cons.mp hq with rfl | hq2
      · exact le_of_lt (h'.1 p hm)
      · exact hle q hq2

/-- C8: `bestBid` is the maximum bid key and `bestAsk` the minimum ask
key, each absent exactly when its ledger is empty; `spread` is
`bestAsk − bestBid` and is absent exactly when either side is empty. -/
theorem best_prices_extremal (b : Book)
    (hb : keysSorted b.bids) (ha : keysSorted b.asks) :
    (b.getBestBid = none ↔ b.bids = []) ∧
    (∀ p, b.getBestBid = some p → p ∈ keysOf b.bids ∧ ∀ q ∈ keysOf b.bids, q ≤ p) ∧
    (b.getBestAsk = none ↔ b.asks = []) ∧
    (∀ p, b.getBestAsk = some p → p ∈ keysOf b.asks ∧ ∀ q ∈ keysOf b.asks, p ≤ q) ∧
    (∀ pb pa, b.getBestBid = some pb → b.getBestAsk = some pa →
      b.getSpread = some (pa - pb)) ∧
    (b.getSpread = none ↔ b.bids = [] ∨ b.asks = []) := by
  refine ⟨?_, ?_, ?_, ?_, ?_, ?_⟩
  · simp [Book.getBestBid, keysOf]
  · intro p hp
    exact sorted_getLast?_max hb hp
  · simp [Book.getBestAsk, keysOf]
  · intro p hp
    exact sorted_head?_min ha hp
  · intro pb pa hpb hpa
    simp [Book.getSpread, hpb, hpa]
  · cases hB : b.bids with
    | nil => simp [Book.getSpread, Book.getBestBid, keysOf, hB]
    | cons x xs =>
      cases hA : b.asks with
      | nil => simp [Book.getSpread, Book.getBestBid, Book.getBestAsk, keysOf, hA]
      | cons y ys =>
        obtain ⟨pb, hpb⟩ :=
          Option.isSome_iff_exists.mp (by simp [Book.getBestBid, keysOf, hB,
            List.getLast?_isSome] : b.getBestBid.isSome)
        obtain ⟨pa, hpa⟩ :=
          Option.isSome_iff_exists.mp (by simp [Book.getBestAsk, keysOf, hA] :
            b.getBestAsk.isSome)
        simp [Book.getSpread, hpb, hpa, hB, hA]

/-- Witness for `best_prices_extremal` on a concrete four-order book. -/
theorem best_prices_extremal_witness :
    keysSorted queryWitnessBook.bids ∧ keysSorted queryWitnessBook.asks ∧
    ((queryWitnessBook.getBestBid = none ↔ queryWitnessBook.bids = []) ∧
     (∀ p, queryWitnessBook.getBestBid = some p →
        p ∈ keysOf queryWitnessBook.bids ∧ ∀ q ∈ keysOf queryWitnessBook.bids, q ≤ p) ∧
     (queryWitnessBook.getBestAsk = none ↔ queryWitnessBook.asks = []) ∧
     (∀ p, queryWitnessBook.getBestAsk = some p →
        p ∈ keysOf queryWitnessBook.asks ∧ ∀ q ∈ keysOf queryWitnessBook.asks, p ≤ q) ∧
     (∀ pb pa, queryWitnessBook.getBestBid = some pb →
        queryWitnessBook.getBestAsk = some pa →
        queryWitnessBook.getSpread = some (pa - pb)) ∧
     (queryWitnessBook.getSpread = none ↔
        queryWitnessBook.bids = [] ∨ queryWitnessBook.asks = [])) :=
  ⟨by decide, by decide, best_prices_extremal queryWitnessBook (by decide) (by decide)⟩

/-! ### Quantity conservation in the matching loop -/

theorem matchLevel_next_conservation (o : Order) (lvl : List Order) :
    (matchLevel o lvl).next.quantity
      + ((matchLevel o lvl).trades.map Trade.quantity).sum = o.quantity := by
  induction lvl generalizing o with
  | nil => simp [matchLevel_nil]
  | cons r rs ih =>
    by_cases h : o.quantity = 0
    · simp [matchLevel_cons_zero o r rs h, h]
    · by_cases h2 : r.quantity ≤ o.quantity
      · have := ih { o with quantity := o.quantity - r.quantity }
        simp only [matchLevel_cons_full o r rs h h2, List.map_cons, List.sum_cons,
          mkTrade_quantity] at this ⊢
        omega
      · push_neg at h2
        simp only [matchLevel_cons_shrink o r rs h h2, List.map_cons, List.sum_cons,
          mkTrade_quantity, List.map_nil, List.sum_nil]
        omega

theorem matchLevel_lvl_conservation (o : Order) (lvl : List Order) :
    sumQty (matchLevel o lvl).lvl
      + ((matchLevel o lvl).trades.map Trade.quantity).sum = sumQty lvl := by
  induction lvl generalizing o with
  | nil => simp [matchLevel_nil]
  | cons r rs ih =>
    by_cases h : o.quantity = 0
    · simp [matchLevel_cons_zero o r rs h]
    · by_cases h2 : r.quantity ≤ o.quantity
      · have := ih { o with quantity := o.quantity - r.quantity }
        simp only [matchLevel_cons_full o r rs h h2, List.map_cons, List.sum_cons,
          mkTrade_quantity, sumQty] at this ⊢
        omega
      · push_neg at h2
        simp only [matchLevel_cons_shrink o r rs h h2, List.map_cons, List.sum_cons,
          mkTrade_quantity, List.map_nil, List.sum_nil, sumQty]
        omega

theorem matchLevel_trade_count (o : Order) (lvl : List Order) :
    (matchLevel o lvl).trades.length =
      (matchLevel o lvl).removed.length
        + (if (matchLevel o lvl).part.isSome then 1 else 0) := by
  induction lvl generalizing o with
  | nil => simp [matchLevel_nil]
  | cons r rs ih =>
    by_cases h : o.quantity = 0
    · simp [matchLevel_cons_zero o r rs h]
    · by_cases h2 : r.quantity ≤ o.quantity
      · have := ih { o with quantity := o.quantity - r.quantity }
        simp only [matchLevel_cons_full o r rs h h2, List.length_cons] at this ⊢
        omega
      · push_neg at h2
        simp [matchLevel_cons_shrink o r rs h h2]

/-- C2: every match step between the aggressor `O` and the front resting
order `R` trades exactly `min(O.quantity, R.quantity)`: the step emits
exactly one trade carrying that quantity, `R` either survives in place
with its quantity reduced by it or (on reaching zero) is erased, and
summing over the whole level the traded quantities account exactly for
the decrease of `O` and of the resting side (one trade per touched
resting order).  Concretely (Scenario 3): SELL 100@100.50 then BUY
150@100.50 yields one trade of 100, leaving BUY id 2 resting with 50 and
`depthAtPrice(100.50, BUY) = 50`. -/
theorem match_step_conservation :
    (∀ (o r : Order) (rs : List Order), 0 < o.quantity →
      (matchLevel o (r :: rs)).trades.head? =
        some (mkTrade o r (min o.quantity r.quantity)) ∧
      (mkTrade o r (min o.quantity r.quantity)).quantity = min o.quantity r.quantity ∧
      (if min o.quantity r.quantity < r.quantity
       then (matchLevel o (r :: rs)).lvl.head? =
         some { r with quantity := r.quantity - min o.quantity r.quantity }
       else r.orderId ∈ (matchLevel o (r :: rs)).removed)) ∧
    (∀ (o : Order) (lvl : List Order),
      (matchLevel o lvl).next.quantity
        + ((matchLevel o lvl).trades.map Trade.quantity).sum = o.quantity ∧
      sumQty (matchLevel o lvl).lvl
        + ((matchLevel o lvl).trades.map Trade.quantity).sum = sumQty lvl ∧
      (matchLevel o lvl).trades.length =
        (matchLevel o lvl).removed.length
          + (if (matchLevel o lvl).part.isSome then 1 else 0)) ∧
    ((scenario3Base.addOrder (some ⟨2, OrderSide.BUY, 100.50, 150, 2⟩)).2.2 =
      [⟨2, 1, 100.50, 100⟩] ∧
     (scenario3Base.addOrder
        (some ⟨2, OrderSide.BUY, 100.50, 150, 2⟩)).2.1.getDepthAtPrice
        100.50 OrderSide.BUY = 50 ∧
     (lookupId (scenario3Base.addOrder
        (some ⟨2, OrderSide.BUY, 100.50, 150, 2⟩)).2.1.orders 2).map Order.quantity =
        some 50) := by
  refine ⟨?_, fun o lvl => ⟨matchLevel_next_conservation o lvl,
    matchLevel_lvl_conservation o lvl, matchLevel_trade_count o lvl⟩, ?_, ?_, ?_⟩
  · intro o r rs ho
    have h : o.quantity ≠ 0 := Nat.pos_iff_ne_zero.mp ho
    refine ⟨?_, mkTrade_quantity o r _, ?_⟩
    · by_cases h2 : r.quantity ≤ o.quantity
      · simp [matchLevel_cons_full o r rs h h2, Nat.min_eq_right h2]
      · push_neg at h2
        simp [matchLevel_cons_shrink o r rs h h2, Nat.min_eq_left (le_of_lt h2)]
    · by_cases h2 : r.quantity ≤ o.quantity
      · have : ¬ min o.quantity r.quantity < r.quantity := by omega
        simp [this, matchLevel_cons_full o r rs h h2]
      · push_neg at h2
        have : min o.quantity r.quantity < r.quantity := by omega
        simp [this, matchLevel_cons_shrink o r rs h h2,
          Nat.min_eq_left (le_of_lt h2)]
        omega
  all_goals with_unfolding_all decide

/-- Witness for `match_step_conservation`: a step where the aggressor
(BUY 5) outsizes the resting order (SELL 3). -/
theorem match_step_conservation_witness :
    0 < (⟨1, OrderSide.BUY, 100, 5, 1⟩ : Order).quantity ∧
    ((matchLevel ⟨1, OrderSide.BUY, 100, 5, 1⟩
        [⟨2, OrderSide.SELL, 100, 3, 0⟩]).trades.head? =
      some (mkTrade ⟨1, OrderSide.BUY, 100, 5, 1⟩ ⟨2, OrderSide.SELL, 100, 3, 0⟩
        (min (⟨1, OrderSide.BUY, 100, 5, 1⟩ : Order).quantity
          (⟨2, OrderSide.SELL, 100, 3, 0⟩ : Order).quantity)) ∧
     (mkTrade ⟨1, OrderSide.BUY, 100, 5, 1⟩ ⟨2, OrderSide.SELL, 100, 3, 0⟩
        (min (⟨1, OrderSide.BUY, 100, 5, 1⟩ : Order).quantity
          (⟨2, OrderSide.SELL, 100, 3, 0⟩ : Order).quantity)).quantity =
       min (⟨1, OrderSide.BUY, 100, 5, 1⟩ : Order).quantity
         (⟨2, OrderSide.SELL, 100, 3, 0⟩ : Order).quantity ∧
     (if min (⟨1, OrderSide.BUY, 100, 5, 1⟩ : Order).quantity
          (⟨2, OrderSide.SELL, 100, 3, 0⟩ : Order).quantity <
          (⟨2, OrderSide.SELL, 100, 3, 0⟩ : Order).quantity
      then (matchLevel ⟨1, OrderSide.BUY, 100, 5, 1⟩
          [⟨2, OrderSide.SELL, 100, 3, 0⟩]).lvl.head? =
        some { (⟨2, OrderSide.SELL, 100, 3, 0⟩ : Order) with
          quantity := (⟨2, OrderSide.SELL, 100, 3, 0⟩ : Order).quantity -
            min (⟨1, OrderSide.BUY, 100, 5, 1⟩ : Order).quantity
              (⟨2, OrderSide.SELL, 100, 3, 0⟩ : Order).quantity }
      else (⟨2, OrderSide.SELL, 100, 3, 0⟩ : Order).orderId ∈
        (matchLevel ⟨1, OrderSide.BUY, 100, 5, 1⟩
          [⟨2, OrderSide.SELL, 100, 3, 0⟩]).removed)) :=
  ⟨by decide, match_step_conservation.1 ⟨1, OrderSide.BUY, 100, 5, 1⟩
    ⟨2, OrderSide.SELL, 100, 3, 0⟩ [] (by decide)⟩

/-- C9, counterexample: the claim says no order with price ≤ 0 is ever
accepted into or left resting in the index, but `addOrder` performs no
price check: a BUY with price 0 and quantity 5 on the empty book is
accepted (returns true) and rests in the index and the bid ledger. -/
theorem nonpositive_price_accepted_cex :
    ((Book.empty.addOrder (some ⟨1, OrderSide.BUY, 0, 5, 1⟩)).1 = true) ∧
    (lookupId (Book.empty.addOrder (some ⟨1, OrderSide.BUY, 0, 5, 1⟩)).2.1.orders 1 =
      some ⟨1, OrderSide.BUY, 0, 5, 1⟩) ∧
    (findLevel 0 (Book.empty.addOrder (some ⟨1, OrderSide.BUY, 0, 5, 1⟩)).2.1.bids =
      some [⟨1, OrderSide.BUY, 0, 5, 1⟩]) ∧
    ((0 : ℚ) ≤ 0) := by
  with_unfolding_all decide

/-- C9, amended: the book never validates prices.  Any order with positive
quantity and fresh id is accepted by `addOrder` whatever its price — zero
and negative prices included — and, on the empty book, rests in the
index. -/
theorem addOrder_ignores_price (o : Order) (hq : 0 < o.quantity) :
    (Book.empty.addOrder (some o)).1 = true ∧
    (Book.empty.addOrder (some o)).2.1.orders = [o] := by
  have hq0 : o.quantity ≠ 0 := Nat.pos_iff_ne_zero.mp hq
  obtain ⟨i, s, p, q, t⟩ := o
  cases s <;>
    simp [Book.addOrder, Book.empty, lookupId, insertById, Book.addToPriceLevel,
      Book.matchOrders, matchedIndex, Book.bestFirstLevels, sweep, updateById,
      updateInLevels, addToLevels, insertByTimestamp, eraseId, hq0]

/-- Witness for `addOrder_ignores_price` at a negative price. -/
theorem addOrder_ignores_price_witness :
    0 < (5 : ℕ) ∧
    ((Book.empty.addOrder (some ⟨1, OrderSide.BUY, -1, 5, 1⟩)).1 = true ∧
     (Book.empty.addOrder (some ⟨1, OrderSide.BUY, -1, 5, 1⟩)).2.1.orders =
       [⟨1, OrderSide.BUY, -1, 5, 1⟩]) :=
  ⟨by decide, addOrder_ignores_price ⟨1, OrderSide.BUY, -1, 5, 1⟩ (by decide)⟩

/-- C3: the execution price of every emitted trade is the arithmetic mean
of the two limit prices (midpoint execution), and in specification
Scenario 4 the SELL at 100.30 crossing the resting BUY at 100.50 trades
once at 100.40 with quantity 75, leaving depth 25 at 100.50. -/
theorem trade_price_is_midpoint :
    (∀ (o r : Order) (q : ℕ), (mkTrade o r q).price = (o.price + r.price) / 2) ∧
    scenario4Base.getSpread = some 0.50 ∧
    ((scenario4Base.addOrder (some ⟨5, OrderSide.SELL, 100.30, 75, 5⟩)).2.2 =
      [⟨1, 5, 100.40, 75⟩]) ∧
    ((scenario4Base.addOrder
        (some ⟨5, OrderSide.SELL, 100.30, 75, 5⟩)).2.1.getDepthAtPrice
        100.50 OrderSide.BUY = 25) := by
  refine ⟨?_, ?_, ?_, ?_⟩
  · intro o r q
    cases h : o.side <;> simp [mkTrade, h]
    ring
  all_goals with_unfolding_all decide

/-- C4: `addOrder` fails exactly on a null order, a zero quantity or a
duplicate id, and every failure leaves the book unchanged and emits no
trade; every other submission returns success. -/
theorem addOrder_rejection_iff (b : Book) (o : Order) :
    (b.addOrder none = (false, b, [])) ∧
    ((b.addOrder (some o)).1 = false ↔
      o.quantity = 0 ∨ (lookupId b.orders o.orderId).isSome = true) ∧
    (o.quantity = 0 ∨ (lookupId b.orders o.orderId).isSome = true →
      b.addOrder (some o) = (false, b, [])) := by
  refine ⟨rfl, ?_, ?_⟩ <;>
    by_cases hq : o.quantity = 0 <;>
    by_cases hl : (lookupId b.orders o.orderId).isSome = true <;>
    simp [Book.addOrder, hq, hl]

/-- Witness for `addOrder_rejection_iff`: a zero-quantity order is
rejected without touching the empty book. -/
theorem addOrder_rejection_iff_witness :
    Book.addOrder Book.empty (some ⟨1, OrderSide.BUY, 1, 0, 1⟩) =
      (false, Book.empty, []) :=
  (addOrder_rejection_iff Book.empty ⟨1, OrderSide.BUY, 1, 0, 1⟩).2.2 (Or.inl rfl)


/-! ### Matching follows price-time priority (C1) -/

theorem matchLevel_next_fields (o : Order) (lvl : List Order) :
    (matchLevel o lvl).next.orderId = o.orderId ∧
    (matchLevel o lvl).next.side = o.side ∧
    (matchLevel o lvl).next.price = o.price ∧
    (matchLevel o lvl).next.timestamp = o.timestamp := by
  induction lvl generalizing o with
  | nil => simp [matchLevel_nil]
  | cons r rs ih =>
    by_cases h : o.quantity = 0
    · simp [matchLevel_cons_zero o r rs h]
    · by_cases h2 : r.quantity ≤ o.quantity
      · have := ih { o with quantity := o.quantity - r.quantity }
        simpa [matchLevel_cons_full o r rs h h2] using this
      · push_neg at h2
        simp [matchLevel_cons_shrink o r rs h h2]

theorem greedyTrades_of_zero (o : Order) (l : List Order) (h : o.quantity = 0) :
    greedyTrades o l = [] := by
  cases l <;> simp [greedyTrades, h]

theorem matchLevel_trades_greedy (o : Order) (lvl : List Order) :
    (matchLevel o lvl).trades = greedyTrades o lvl := by
  induction lvl generalizing o with
  | nil => simp [matchLevel_nil, greedyTrades]
  | cons r rs ih =>
    by_cases h : o.quantity = 0
    · simp [matchLevel_cons_zero o r rs h, greedyTrades, h]
    · by_cases h2 : r.quantity ≤ o.quantity
      · simp [matchLevel_cons_full o r rs h h2, greedyTrades, h,
          Nat.min_eq_right h2, ih]
      · push_neg at h2
        have hmin : min o.quantity r.quantity = o.quantity :=
          Nat.min_eq_left (le_of_lt h2)
        rw [matchLevel_cons_shrink o r rs h h2]
        conv_rhs => rw [greedyTrades]
        rw [if_neg h, hmin, greedyTrades_of_zero _ _ (by simp)]

theorem matchLevel_lvl_ne_nil_next_zero (o : Order) (lvl : List Order)
    (h : (matchLevel o lvl).lvl ≠ []) : (matchLevel o lvl).next.quantity = 0 := by
  induction lvl generalizing o with
  | nil => simp [matchLevel_nil] at h
  | cons r rs ih =>
    by_cases h0 : o.quantity = 0
    · simpa [matchLevel_cons_zero o r rs h0] using h0
    · by_cases h2 : r.quantity ≤ o.quantity
      · rw [matchLevel_cons_full o r rs h0 h2] at h ⊢
        exact ih _ h
      · push_neg at h2
        simp [matchLevel_cons_shrink o r rs h0 h2]

theorem greedyTrades_append (o : Order) (l1 l2 : List Order) :
    greedyTrades o (l1 ++ l2) =
      greedyTrades o l1 ++ greedyTrades (matchLevel o l1).next l2 := by
  induction l1 generalizing o with
  | nil => simp [matchLevel_nil, greedyTrades]
  | cons r rs ih =>
    by_cases h : o.quantity = 0
    · simp [matchLevel_cons_zero o r rs h, greedyTrades_of_zero _ _ h,
        greedyTrades_of_zero o (r :: rs) h]
    · by_cases h2 : r.quantity ≤ o.quantity
      · simp [greedyTrades, h, Nat.min_eq_right h2,
          matchLevel_cons_full o r rs h h2, ih]
      · push_neg at h2
        have hz : ({ o with quantity := o.quantity - min o.quantity r.quantity } :
            Order).quantity = 0 := by
          simp [Nat.min_eq_left (le_of_lt h2)]
        have hz2 : ({ o with quantity := 0 } : Order).quantity = 0 := rfl
        simp [greedyTrades, h, matchLevel_cons_shrink o r rs h h2,
          greedyTrades_of_zero _ _ hz, greedyTrades_of_zero _ _ hz2]

theorem crosses_congr {a b : Order} (h1 : a.side = b.side) (h2 : a.price = b.price) :
    crosses a = crosses b := by
  funext p
  cases hbs : b.side <;> simp [crosses, h1, h2, hbs]

theorem crossableOrders_congr {a b : Order} (h1 : a.side = b.side)
    (h2 : a.price = b.price) (ls : List (ℚ × List Order)) :
    crossableOrders a ls = crossableOrders b ls := by
  unfold crossableOrders
  rw [show (fun pl : ℚ × List Order => crosses a pl.1) =
    (fun pl : ℚ × List Order => crosses b pl.1) from by
      funext pl
      rw [crosses_congr h1 h2]]

theorem sweep_trades_greedy (o : Order) (ls : List (ℚ × List Order)) :
    (sweep o ls).trades = greedyTrades o (crossableOrders o ls) := by
  induction ls generalizing o with
  | nil => simp [sweep_nil, crossableOrders, greedyTrades]
  | cons pl rest ih =>
    obtain ⟨p, lvl⟩ := pl
    by_cases h : o.quantity = 0
    · simp [sweep_cons_zero o p lvl rest h, greedyTrades_of_zero _ _ h]
    · by_cases hc : crosses o p = true
      · have hcross : crossableOrders o ((p, lvl) :: rest) =
            lvl ++ crossableOrders o rest := by
          simp [crossableOrders, hc]
        by_cases hd : (matchLevel o lvl).lvl = []
        · rw [sweep_cons_drained o p lvl rest h hc hd]
          have hfields := matchLevel_next_fields o lvl
          simp only [hcross, greedyTrades_append, matchLevel_trades_greedy]
          rw [ih (matchLevel o lvl).next,
            crossableOrders_congr hfields.2.1 hfields.2.2.1 rest]
        · rw [sweep_cons_stuck o p lvl rest h hc hd]
          have hz := matchLevel_lvl_ne_nil_next_zero o lvl hd
          rw [hcross, greedyTrades_append, matchLevel_trades_greedy,
            greedyTrades_of_zero _ _ hz, List.append_nil]
      · have hc2 : crosses o p = false := by
          cases hcp : crosses o p
          · rfl
          · exact absurd hcp hc
        simp [sweep_cons_nocross o p lvl rest h hc2, crossableOrders, hc2,
          greedyTrades]

theorem matchOrders_trades (b : Book) (o : Order) :
    (b.matchOrders o).2 = (sweep o (b.bestFirstLevels o)).trades := by
  cases h : o.side <;>
    simp only [Book.matchOrders, Book.bestFirstLevels, h] <;>
    split <;> rfl

theorem takeWhile_eq_filter_of_closed {P : ℚ → Bool} {ls : List (ℚ × List Order)}
    (h : (keysOf ls).Pairwise (fun p q => P q = true → P p = true)) :
    ls.takeWhile (fun pl => P pl.1) = ls.filter (fun pl => P pl.1) := by
  induction ls with
  | nil => rfl
  | cons pl rest ih =>
    obtain ⟨p, lvl⟩ := pl
    simp only [keysOf, List.map_cons, List.pairwise_cons] at h
    by_cases hp : P p = true
    · simp only [List.takeWhile_cons, List.filter_cons, hp]
      simp only [if_true, cond_true]
      rw [ih (by simpa [keysOf] using h.2)]
    · have hp2 : P p = false := by
        cases hpc : P p
        · rfl
        · exact absurd hpc hp
      have hrest : rest.filter (fun pl => P pl.1) = [] := by
        apply List.filter_eq_nil_iff.mpr
        intro x hx
        simp only [Bool.not_eq_true]
        cases hxc : P x.1
        · rfl
        · exact absurd (h.1 x.1 (List.mem_map_of_mem Prod.fst hx) hxc) (by simp [hp2])
      simp [List.takeWhile_cons, List.filter_cons, hp2, hrest]

/-- C1: the matching loop consumes resting orders in exact price-time
priority: the emitted trade sequence equals the strict-FIFO greedy fill
of the concatenation, best price first, of the crossing levels of the
opposing ledger (`asks` ascending for a BUY, `bids` descending for a
SELL), and on sorted ledgers that crossing prefix contains every crossing
level — a level is never skipped, partially or wholly, in favor of a
worse-priced one, and a single aggressor sweeps as many levels as its
quantity reaches. -/
theorem matching_consumes_best_first (b : Book) (o : Order)
    (hb : keysSorted b.bids) (ha : keysSorted b.asks) :
    (b.matchOrders o).2 = greedyTrades o (crossableOrders o (b.bestFirstLevels o)) ∧
    crossableOrders o (b.bestFirstLevels o) =
      (((b.bestFirstLevels o).filter (fun pl => crosses o pl.1)).map Prod.snd).flatten := by
  constructor
  · rw [matchOrders_trades, sweep_trades_greedy]
  · unfold crossableOrders
    rw [takeWhile_eq_filter_of_closed]
    cases hs : o.side with
    | BUY =>
      have hbf : b.bestFirstLevels o = b.asks := by
        simp [Book.bestFirstLevels, hs]
      rw [hbf]
      refine ha.imp ?_
      intro p q hpq hq
      simp only [crosses, hs] at hq ⊢
      simp only [decide_eq_true_eq] at hq ⊢
      exact le_trans (le_of_lt hpq) hq
    | SELL =>
      have hbf : b.bestFirstLevels o = b.bids.reverse := by
        simp [Book.bestFirstLevels, hs]
      rw [hbf]
      have : keysOf b.bids.reverse = (keysOf b.bids).reverse := by
        simp [keysOf]
      rw [this, List.pairwise_reverse]
      refine hb.imp ?_
      intro p q hpq hq
      simp only [crosses, hs] at hq ⊢
      simp only [decide_eq_true_eq] at hq ⊢
      exact le_trans hq (le_of_lt hpq)

/-- Witness for `matching_consumes_best_first`: a BUY for 25 at 102
sweeping the ask levels 101 and 102 of a concrete book. -/
theorem matching_consumes_best_first_witness :
    keysSorted sweepWitnessBook.bids ∧ keysSorted sweepWitnessBook.asks ∧
    (let o : Order := ⟨5, OrderSide.BUY, 102, 25, 5⟩
     (sweepWitnessBook.matchOrders o).2 =
       greedyTrades o (crossableOrders o (sweepWitnessBook.bestFirstLevels o)) ∧
     crossableOrders o (sweepWitnessBook.bestFirstLevels o) =
       (((sweepWitnessBook.bestFirstLevels o).filter
          (fun pl => crosses o pl.1)).map Prod.snd).flatten) :=
  ⟨by decide, by decide,
    matching_consumes_best_first sweepWitnessBook ⟨5, OrderSide.BUY, 102, 25, 5⟩
      (by decide) (by decide)⟩


/-! ### The id index under erase, update and insert -/

theorem lookupId_cons_eq {x : Order} {xs : List Order} {j : ℕ} (h : x.orderId = j) :
    lookupId (x :: xs) j = some x := by
  simp [lookupId, List.find?_cons, h]

theorem lookupId_cons_ne {x : Order} {xs : List Order} {j : ℕ} (h : x.orderId ≠ j) :
    lookupId (x :: xs) j = lookupId xs j := by
  simp [lookupId, List.find?_cons, h]

theorem eraseId_cons_eq {x : Order} {xs : List Order} {id : ℕ} (h : x.orderId = id) :
    eraseId id (x :: xs) = eraseId id xs := by
  simp [eraseId, h]

theorem eraseId_cons_ne {x : Order} {xs : List Order} {id : ℕ} (h : x.orderId ≠ id) :
    eraseId id (x :: xs) = x :: eraseId id xs := by
  simp [eraseId, h]

theorem insertById_cons_lt {o x : Order} {xs : List Order}
    (h : o.orderId < x.orderId) : insertById o (x :: xs) = o :: x :: xs := by
  simp [insertById, h]

theorem insertById_cons_ge {o x : Order} {xs : List Order}
    (h : ¬ o.orderId < x.orderId) : insertById o (x :: xs) = x :: insertById o xs := by
  simp [insertById, h]

theorem updateById_cons_eq {o x : Order} {xs : List Order}
    (h : x.orderId = o.orderId) : updateById o (x :: xs) = o :: updateById o xs := by
  simp [updateById, h]

theorem updateById_cons_ne {o x : Order} {xs : List Order}
    (h : x.orderId ≠ o.orderId) : updateById o (x :: xs) = x :: updateById o xs := by
  simp [updateById, h]

theorem lookupId_eq_some {idx : List Order} {id : ℕ} {ord : Order}
    (h : lookupId idx id = some ord) : ord.orderId = id ∧ ord ∈ idx := by
  have h1 := List.find?_some h
  have h2 := List.mem_of_find?_eq_some h
  simp only [decide_eq_true_eq] at h1
  exact ⟨h1, h2⟩

theorem lookupId_eraseId_self (idx : List Order) (id : ℕ) :
    lookupId (eraseId id idx) id = none := by
  apply List.find?_eq_none.mpr
  intro x hx
  have := (List.mem_filter.mp hx).2
  simp only [ne_eq, decide_not, Bool.not_eq_true, decide_eq_false_iff_not] at this ⊢
  simpa using this

theorem lookupId_eraseId_ne (idx : List Order) {id j : ℕ} (h : j ≠ id) :
    lookupId (eraseId id idx) j = lookupId idx j := by
  induction idx with
  | nil => rfl
  | cons x xs ih =>
    by_cases hxi : x.orderId = id
    · have hxj : x.orderId ≠ j := by omega
      rw [eraseId_cons_eq hxi, ih, lookupId_cons_ne hxj]
    · by_cases hxj : x.orderId = j
      · rw [eraseId_cons_ne hxi, lookupId_cons_eq hxj, lookupId_cons_eq hxj]
      · rw [eraseId_cons_ne hxi, lookupId_cons_ne hxj, lookupId_cons_ne hxj, ih]

theorem eraseId_of_not_mem {id : ℕ} {xs : List Order}
    (h : ∀ y ∈ xs, y.orderId ≠ id) : eraseId id xs = xs := by
  apply List.filter_eq_self.mpr
  intro y hy
  simpa using h y hy

theorem updateById_of_not_mem {o : Order} {idx : List Order}
    (h : ∀ y ∈ idx, y.orderId ≠ o.orderId) : updateById o idx = idx := by
  induction idx with
  | nil => rfl
  | cons x xs ih =>
    rw [updateById_cons_ne (h x (List.mem_cons_self x xs)),
      ih fun y hy => h y (List.mem_cons_of_mem x hy)]

theorem updateById_eq_insertById_eraseId {idx : List Order} (hs : idsSorted idx)
    {o ord : Order} (hl : lookupId idx o.orderId = some ord) :
    updateById o idx = insertById o (eraseId o.orderId idx) := by
  induction idx with
  | nil => simp [lookupId] at hl
  | cons x xs ih =>
    have hpair := hs
    simp only [idsSorted, List.map_cons, List.pairwise_cons] at hpair
    by_cases hx : x.orderId = o.orderId
    · have hxs : ∀ y ∈ xs, y.orderId ≠ o.orderId := by
        intro y hy
        have := hpair.1 y.orderId (List.mem_map_of_mem Order.orderId hy)
        omega
      rw [updateById_cons_eq hx, updateById_of_not_mem hxs,
        eraseId_cons_eq hx, eraseId_of_not_mem hxs]
      cases xs with
      | nil => rfl
      | cons z zs =>
        have hz : o.orderId < z.orderId := by
          have := hpair.1 z.orderId (by simp)
          omega
        rw [insertById_cons_lt hz]
    · have hl2 : lookupId xs o.orderId = some ord := by
        rw [lookupId_cons_ne hx] at hl
        exact hl
      have hlt : x.orderId < o.orderId := by
        obtain ⟨heq, hmem⟩ := lookupId_eq_some hl2
        have := hpair.1 ord.orderId (List.mem_map_of_mem Order.orderId hmem)
        omega
      have hns : idsSorted xs := by
        simpa [idsSorted, List.pairwise_cons] using hpair.2
      rw [updateById_cons_ne hx, eraseId_cons_ne (by omega),
        insertById_cons_ge (by omega), ih hns hl2]

theorem removeFromPriceLevel_orders (b : Book) (o : Order) :
    (b.removeFromPriceLevel o).orders = b.orders := by
  cases h : o.side <;> simp [Book.removeFromPriceLevel, h]

/-- C7: `modifyOrder` fails and changes nothing on an unknown id, and on a
known id it behaves exactly as cancel followed by a fresh submission of
the same id with the new price, the new quantity and the new (clock-read)
timestamp — losing all time priority and re-running matching. -/
theorem modifyOrder_is_cancel_plus_fresh_add (b : Book) (id : ℕ) (p : ℚ) (q : ℕ)
    (now : ℕ) :
    (lookupId b.orders id = none → b.modifyOrder id p q now = (false, b, [])) ∧
    (∀ ord, lookupId b.orders id = some ord → idsSorted b.orders → 0 < q →
      b.modifyOrder id p q now =
        (true,
         ((b.cancelOrder id).2.addOrder (some ⟨id, ord.side, p, q, now⟩)).2.1,
         ((b.cancelOrder id).2.addOrder (some ⟨id, ord.side, p, q, now⟩)).2.2)) := by
  constructor
  · intro h
    simp [Book.modifyOrder, h]
  · intro ord hl hs hq
    have hq0 : q ≠ 0 := Nat.pos_iff_ne_zero.mp hq
    have hoid : ord.orderId = id := (lookupId_eq_some hl).1
    have hord' : ({ ord with price := p, quantity := q, timestamp := now } : Order) =
        ⟨id, ord.side, p, q, now⟩ := by
      cases ord
      simp_all
    have hupd : updateById (⟨id, ord.side, p, q, now⟩ : Order) b.orders =
        insertById ⟨id, ord.side, p, q, now⟩ (eraseId id b.orders) := by
      have := updateById_eq_insertById_eraseId (o := ⟨id, ord.side, p, q, now⟩)
        hs (by simpa using hl)
      simpa using this
    have herase : lookupId (eraseId id b.orders) id = none :=
      lookupId_eraseId_self b.orders id
    simp only [Book.modifyOrder, hl, Book.cancelOrder, Book.addOrder,
      removeFromPriceLevel_orders, herase, hord', hupd, hq0]
    simp [removeFromPriceLevel_orders]

/-- Witness for `modifyOrder_is_cancel_plus_fresh_add`: modifying the
resting order of `scenario3Base`. -/
theorem modifyOrder_is_cancel_plus_fresh_add_witness :
    lookupId scenario3Base.orders 1 = some ⟨1, OrderSide.SELL, 100.50, 100, 1⟩ ∧
    idsSorted scenario3Base.orders ∧ 0 < 60 ∧
    scenario3Base.modifyOrder 1 101 60 9 =
      (true,
       ((scenario3Base.cancelOrder 1).2.addOrder
          (some ⟨1, OrderSide.SELL, 101, 60, 9⟩)).2.1,
       ((scenario3Base.cancelOrder 1).2.addOrder
          (some ⟨1, OrderSide.SELL, 101, 60, 9⟩)).2.2) :=
  ⟨by with_unfolding_all decide, by with_unfolding_all decide, by decide,
    (modifyOrder_is_cancel_plus_fresh_add scenario3Base 1 101 60 9).2
      ⟨1, OrderSide.SELL, 100.50, 100, 1⟩ (by with_unfolding_all decide)
      (by with_unfolding_all decide) (by decide)⟩


/-! ### Counting occurrences of an id through the ledger primitives -/

theorem cntLvl_cons (i : ℕ) (x : Order) (l : List Order) :
    cntLvl i (x :: l) = (if x.orderId = i then 1 else 0) + cntLvl i l := by
  by_cases h : x.orderId = i <;>
    simp [cntLvl, List.countP_cons, h, Nat.add_comm]

theorem cntLvl_pos_of_mem {i : ℕ} {x : Order} {l : List Order}
    (hx : x ∈ l) (hi : x.orderId = i) : 0 < cntLvl i l := by
  apply List.countP_pos_iff.mpr
  exact ⟨x, hx, by simp [hi]⟩

theorem mem_of_cntLvl_pos {i : ℕ} {l : List Order} (h : 0 < cntLvl i l) :
    ∃ x ∈ l, x.orderId = i := by
  obtain ⟨x, hx, hp⟩ := List.countP_pos_iff.mp h
  exact ⟨x, hx, by simpa using hp⟩

theorem cntLs_cons (i : ℕ) (pl : ℚ × List Order) (ls : List (ℚ × List Order)) :
    cntLs i (pl :: ls) = cntLvl i pl.2 + cntLs i ls := by
  simp [cntLs]

theorem cntLs_append (i : ℕ) (l1 l2 : List (ℚ × List Order)) :
    cntLs i (l1 ++ l2) = cntLs i l1 + cntLs i l2 := by
  simp [cntLs]

theorem cntLs_reverse (i : ℕ) (ls : List (ℚ × List Order)) :
    cntLs i ls.reverse = cntLs i ls := by
  simp [cntLs, List.sum_reverse]

theorem cntLvl_le_cntLs {i : ℕ} {pl : ℚ × List Order} {ls : List (ℚ × List Order)}
    (h : pl ∈ ls) : cntLvl i pl.2 ≤ cntLs i ls := by
  unfold cntLs
  exact List.single_le_sum (fun _ _ => Nat.zero_le _) _
    (List.mem_map_of_mem (fun pl => cntLvl i pl.2) h)

theorem cntLvl_insertByTimestamp (i : ℕ) (o : Order) (l : List Order) :
    cntLvl i (insertByTimestamp o l) =
      cntLvl i l + (if o.orderId = i then 1 else 0) := by
  induction l with
  | nil => simp [insertByTimestamp, cntLvl, List.countP_cons]
  | cons x xs ih =>
    by_cases h : x.timestamp ≤ o.timestamp
    · simp only [insertByTimestamp, if_pos h, cntLvl_cons, ih]
      omega
    · simp only [insertByTimestamp, if_neg h, cntLvl_cons]
      omega

theorem insertByTimestamp_ne_nil (o : Order) (l : List Order) :
    insertByTimestamp o l ≠ [] := by
  cases l with
  | nil => simp [insertByTimestamp]
  | cons x xs =>
    by_cases h : x.timestamp ≤ o.timestamp <;> simp [insertByTimestamp, h]

theorem mem_insertByTimestamp {x o : Order} {l : List Order} :
    x ∈ insertByTimestamp o l ↔ x = o ∨ x ∈ l := by
  induction l with
  | nil => simp [insertByTimestamp]
  | cons y ys ih =>
    by_cases h : y.timestamp ≤ o.timestamp
    · simp only [insertByTimestamp, if_pos h, List.mem_cons, ih]
      tauto
    · simp [insertByTimestamp, if_neg h]

theorem cntLs_addToLevels (i : ℕ) (o : Order) (ls : List (ℚ × List Order)) :
    cntLs i (addToLevels o ls) =
      cntLs i ls + (if o.orderId = i then 1 else 0) := by
  induction ls with
  | nil =>
    by_cases ho : o.orderId = i <;>
      simp [addToLevels, cntLs, cntLvl, List.countP_cons, ho]
  | cons pl rest ih =>
    obtain ⟨q, lvl⟩ := pl
    by_cases h1 : o.price < q
    · by_cases ho : o.orderId = i <;>
        simp [addToLevels, h1, cntLs_cons, cntLvl, List.countP_cons, ho]
      all_goals omega
    · by_cases h2 : o.price = q
      · simp only [addToLevels, if_neg h1, if_pos h2, cntLs_cons,
          cntLvl_insertByTimestamp]
        omega
      · simp only [addToLevels, if_neg h1, if_neg h2, cntLs_cons, ih]
        omega

theorem cntLs_updateInLevels (i : ℕ) (o : Order) (ls : List (ℚ × List Order)) :
    cntLs i (updateInLevels o ls) = cntLs i ls := by
  unfold updateInLevels cntLs
  rw [List.map_map]
  congr 1
  apply List.map_congr_left
  intro pl _
  by_cases h : pl.1 = o.price
  · simp only [Function.comp_apply, if_pos h]
    unfold cntLvl
    rw [List.countP_map]
    apply List.countP_congr
    intro x _
    by_cases hx : x.orderId = o.orderId <;> simp [Function.comp, hx]
  · simp [Function.comp_apply, if_neg h]

theorem cntLs_removeFromLevels_ne {i id : ℕ} (h : i ≠ id) (p : ℚ)
    (ls : List (ℚ × List Order)) :
    cntLs i (removeFromLevels id p ls) = cntLs i ls := by
  induction ls with
  | nil => rfl
  | cons pl rest ih =>
    obtain ⟨q, lvl⟩ := pl
    by_cases hq : q = p
    · have hcnt : cntLvl i (lvl.filter (fun o => o.orderId ≠ id)) = cntLvl i lvl := by
        unfold cntLvl
        rw [List.countP_filter]
        apply List.countP_congr
        intro x _
        by_cases hx : x.orderId = i
        · have hxd : x.orderId ≠ id := by omega
          simp [hx, hxd]
          omega
        · simp [hx]
      by_cases he : (lvl.filter (fun o => o.orderId ≠ id)).isEmpty
      · have hnil : lvl.filter (fun o => decide (o.orderId ≠ id)) = [] :=
          List.isEmpty_iff.mp he
        have hz : cntLvl i lvl = 0 := by
          rw [← hcnt, hnil]
          rfl
        simp only [removeFromLevels, if_pos hq, if_pos he, cntLs_cons]
        omega
      · simp only [removeFromLevels, if_pos hq, if_neg he, cntLs_cons, hcnt]
    · simp only [removeFromLevels, if_neg hq, cntLs_cons, ih]

theorem cntLs_removeFromLevels_self (id : ℕ) (p : ℚ) (ls : List (ℚ × List Order)) :
    cntLs id (removeFromLevels id p ls) +
      cntLvl id ((findLevel p ls).getD []) = cntLs id ls := by
  induction ls with
  | nil => simp [removeFromLevels, findLevel, cntLs, cntLvl]
  | cons pl rest ih =>
    obtain ⟨q, lvl⟩ := pl
    by_cases hq : q = p
    · have hcnt : cntLvl id (lvl.filter (fun o => o.orderId ≠ id)) = 0 := by
        unfold cntLvl
        simp only [List.countP_filter]
        apply List.countP_eq_zero.mpr
        intro x _
        simp
      by_cases he : (lvl.filter (fun o => o.orderId ≠ id)).isEmpty
      · simp only [removeFromLevels, if_pos hq, if_pos he, findLevel,
          Option.getD_some, cntLs_cons]
        omega
      · simp only [removeFromLevels, if_pos hq, if_neg he, findLevel, if_pos hq,
          Option.getD_some, cntLs_cons, hcnt]
        omega
    · simp only [removeFromLevels, if_neg hq, cntLs_cons, findLevel, if_neg hq]
      omega

/-! ### Keys and level lookup through the ledger primitives -/

theorem keysSorted_nodup {ls : List (ℚ × List Order)} (h : keysSorted ls) :
    (keysOf ls).Nodup :=
  h.imp ne_of_lt

theorem findLevel_eq_none_iff {p : ℚ} {ls : List (ℚ × List Order)} :
    findLevel p ls = none ↔ p ∉ keysOf ls := by
  induction ls with
  | nil => simp [findLevel, keysOf]
  | cons pl rest ih =>
    obtain ⟨q, lvl⟩ := pl
    by_cases hq : q = p
    · simp [findLevel, hq, keysOf]
    · have hpq : ¬ p = q := fun hh => hq hh.symm
      simp only [findLevel, if_neg hq, ih, keysOf, List.map_cons, List.mem_cons]
      tauto

theorem findLevel_mem {p : ℚ} {ls : List (ℚ × List Order)} {lvl : List Order}
    (h : findLevel p ls = some lvl) : (p, lvl) ∈ ls := by
  induction ls with
  | nil => simp [findLevel] at h
  | cons pl rest ih =>
    obtain ⟨q, l0⟩ := pl
    by_cases hq : q = p
    · simp only [findLevel, if_pos hq, Option.some.injEq] at h
      subst hq h
      exact List.mem_cons_self _ _
    · simp only [findLevel, if_neg hq] at h
      exact List.mem_cons_of_mem _ (ih h)

theorem findLevel_of_mem {p : ℚ} {ls : List (ℚ × List Order)} {lvl : List Order}
    (hnd : (keysOf ls).Nodup) (h : (p, lvl) ∈ ls) : findLevel p ls = some lvl := by
  induction ls with
  | nil => simp at h
  | cons pl rest ih =>
    obtain ⟨q, l0⟩ := pl
    simp only [keysOf, List.map_cons, List.nodup_cons] at hnd
    rcases List.mem_cons.mp h with heq | hmem
    · have h1 : p = q := congrArg Prod.fst heq
      have h2 : lvl = l0 := congrArg Prod.snd heq
      subst h1
      subst h2
      simp [findLevel]
    · by_cases hq : q = p
      · exfalso
        apply hnd.1
        rw [hq]
        exact List.mem_map_of_mem Prod.fst hmem
      · simp only [findLevel, if_neg hq]
        exact ih (by simpa [keysOf] using hnd.2) hmem


theorem keysOf_addToLevels_mem {paux : ℚ} (o : Order) (ls : List (ℚ × List Order)) :
    paux ∈ keysOf (addToLevels o ls) ↔ paux = o.price ∨ paux ∈ keysOf ls := by
  induction ls with
  | nil => simp [addToLevels, keysOf]
  | cons pl rest ih =>
    obtain ⟨q, lvl⟩ := pl
    by_cases h1 : o.price < q
    · simp [addToLevels, h1, keysOf]
    · by_cases h2 : o.price = q
      · subst h2
        simp [addToLevels, h1, keysOf]
      · simp only [addToLevels, if_neg h1, if_neg h2, keysOf, List.map_cons,
          List.mem_cons] at ih ⊢
        rw [show List.map Prod.fst (addToLevels o rest) = keysOf (addToLevels o rest)
          from rfl] at ih ⊢
        tauto

theorem keysSorted_addToLevels {ls : List (ℚ × List Order)} (h : keysSorted ls)
    (o : Order) : keysSorted (addToLevels o ls) := by
  induction ls with
  | nil => simp [addToLevels, keysSorted, keysOf]
  | cons pl rest ih =>
    obtain ⟨q, lvl⟩ := pl
    simp only [keysSorted, keysOf, List.map_cons, List.pairwise_cons] at h
    by_cases h1 : o.price < q
    · simp only [addToLevels, if_pos h1, keysSorted, keysOf, List.map_cons,
        List.pairwise_cons]
      refine ⟨?_, ?_⟩
      · intro a ha
        rcases List.mem_cons.mp ha with rfl | ha2
        · exact h1
        · exact lt_trans h1 (h.1 a ha2)
      · exact ⟨h.1, h.2⟩
    · by_cases h2 : o.price = q
      · simp only [addToLevels, if_neg h1, if_pos h2, keysSorted, keysOf,
          List.map_cons, List.pairwise_cons]
        exact h
      · have hgt : q < o.price := by
          rcases lt_trichotomy o.price q with hlt | heq | hgt
          · exact absurd hlt h1
          · exact absurd heq h2
          · exact hgt
        simp only [addToLevels, if_neg h1, if_neg h2, keysSorted, keysOf,
          List.map_cons, List.pairwise_cons]
        constructor
        · intro a ha
          rcases (keysOf_addToLevels_mem o rest).mp ha with rfl | ha2
          · exact hgt
          · exact h.1 a ha2
        · exact ih h.2

theorem keysOf_updateInLevels (o : Order) (ls : List (ℚ × List Order)) :
    keysOf (updateInLevels o ls) = keysOf ls := by
  unfold keysOf updateInLevels
  rw [List.map_map]
  apply List.map_congr_left
  intro pl _
  by_cases h : pl.1 = o.price <;> simp [Function.comp, h]

theorem keysOf_removeFromLevels_sublist (id : ℕ) (p : ℚ)
    (ls : List (ℚ × List Order)) :
    (keysOf (removeFromLevels id p ls)).Sublist (keysOf ls) := by
  induction ls with
  | nil => simp [removeFromLevels, keysOf]
  | cons pl rest ih =>
    obtain ⟨q, lvl⟩ := pl
    by_cases hq : q = p
    · by_cases he : (lvl.filter (fun o => o.orderId ≠ id)).isEmpty
      · simp only [removeFromLevels, if_pos hq, if_pos he]
        exact (List.Sublist.refl _).cons _
      · simp only [removeFromLevels, if_pos hq, if_neg he, keysOf, List.map_cons]
        exact (List.Sublist.refl _).cons₂ _
    · simp only [removeFromLevels, if_neg hq, keysOf, List.map_cons]
      exact ih.cons₂ _

theorem keysSorted_removeFromLevels {ls : List (ℚ × List Order)}
    (h : keysSorted ls) (id : ℕ) (p : ℚ) :
    keysSorted (removeFromLevels id p ls) :=
  List.Pairwise.sublist (keysOf_removeFromLevels_sublist id p ls) h

theorem findLevel_addToLevels_ne {pd : ℚ} (o : Order) (ls : List (ℚ × List Order))
    (h : pd ≠ o.price) :
    findLevel pd (addToLevels o ls) = findLevel pd ls := by
  have hop : ¬ o.price = pd := fun hh => h hh.symm
  induction ls with
  | nil => simp [addToLevels, findLevel, hop]
  | cons pl rest ih =>
    obtain ⟨q, lvl⟩ := pl
    by_cases h1 : o.price < q
    · simp [addToLevels, h1, findLevel, hop]
    · by_cases h2 : o.price = q
      · subst h2
        simp [addToLevels, h1, findLevel, hop]
      · by_cases hq : q = pd
        · subst hq
          simp [addToLevels, h1, h2, findLevel]
        · simp [addToLevels, h1, h2, findLevel, hq, ih]

theorem findLevel_addToLevels_self {ls : List (ℚ × List Order)}
    (hs : keysSorted ls) (o : Order) :
    findLevel o.price (addToLevels o ls) =
      some (insertByTimestamp o ((findLevel o.price ls).getD [])) := by
  induction ls with
  | nil => simp [addToLevels, findLevel, insertByTimestamp]
  | cons pl rest ih =>
    obtain ⟨q, lvl⟩ := pl
    simp only [keysSorted, keysOf, List.map_cons, List.pairwise_cons] at hs
    by_cases h1 : o.price < q
    · have hq : q ≠ o.price := by
        intro hh
        rw [hh] at h1
        exact lt_irrefl _ h1
      have hnone : findLevel o.price rest = none := by
        apply findLevel_eq_none_iff.mpr
        intro hmem
        have := hs.1 o.price hmem
        exact absurd (lt_trans h1 this) (lt_irrefl _)
      simp [addToLevels, h1, findLevel, hq, hnone, insertByTimestamp]
    · by_cases h2 : o.price = q
      · subst h2
        simp [addToLevels, h1, findLevel]
      · have hq : q ≠ o.price := fun hh => h2 hh.symm
        simp only [addToLevels, if_neg h1, if_neg h2, findLevel, if_neg hq]
        exact ih hs.2

theorem updateInLevels_cons (o : Order) (pl : ℚ × List Order)
    (rest : List (ℚ × List Order)) :
    updateInLevels o (pl :: rest) =
      (if pl.1 = o.price then
        (pl.1, pl.2.map (fun x => if x.orderId = o.orderId then o else x))
       else pl) :: updateInLevels o rest := rfl

theorem findLevel_updateInLevels_ne {pd : ℚ} (o : Order)
    (ls : List (ℚ × List Order)) (h : pd ≠ o.price) :
    findLevel pd (updateInLevels o ls) = findLevel pd ls := by
  induction ls with
  | nil => rfl
  | cons pl rest ih =>
    obtain ⟨q, lvl⟩ := pl
    rw [updateInLevels_cons]
    by_cases h1 : q = o.price
    · have hq : ¬ q = pd := by
        rw [h1]
        exact fun hh => h hh.symm
      rw [if_pos h1]
      show (if q = pd then _ else findLevel pd (updateInLevels o rest)) = _
      rw [if_neg hq]
      show findLevel pd (updateInLevels o rest) =
        findLevel pd ((q, lvl) :: rest)
      rw [ih]
      show findLevel pd rest = if q = pd then some lvl else findLevel pd rest
      rw [if_neg hq]
    · rw [if_neg h1]
      by_cases hq : q = pd
      · show (if q = pd then some lvl else _) = _
        rw [if_pos hq]
        show some lvl = if q = pd then some lvl else findLevel pd rest
        rw [if_pos hq]
      · show (if q = pd then some lvl else findLevel pd (updateInLevels o rest)) = _
        rw [if_neg hq, ih]
        show findLevel pd rest = if q = pd then some lvl else findLevel pd rest
        rw [if_neg hq]

theorem findLevel_updateInLevels_self (o : Order) (ls : List (ℚ × List Order)) :
    findLevel o.price (updateInLevels o ls) =
      (findLevel o.price ls).map
        (fun lvl => lvl.map (fun x => if x.orderId = o.orderId then o else x)) := by
  induction ls with
  | nil => rfl
  | cons pl rest ih =>
    obtain ⟨q, lvl⟩ := pl
    rw [updateInLevels_cons]
    by_cases h1 : q = o.price
    · rw [if_pos h1]
      show (if q = o.price then _ else _) = _
      rw [if_pos h1]
      show some _ = Option.map _ (if q = o.price then some lvl else findLevel o.price rest)
      rw [if_pos h1]
      rfl
    · rw [if_neg h1]
      show (if q = o.price then some lvl else findLevel o.price (updateInLevels o rest)) = _
      rw [if_neg h1, ih]
      show _ = Option.map _ (if q = o.price then some lvl else findLevel o.price rest)
      rw [if_neg h1]

theorem findLevel_cons (p q : ℚ) (lvl : List Order)
    (rest : List (ℚ × List Order)) :
    findLevel p ((q, lvl) :: rest) = if q = p then some lvl else findLevel p rest :=
  rfl

theorem removeFromLevels_cons_found_empty {q p : ℚ} {lvl : List Order}
    {id : ℕ} (rest : List (ℚ × List Order)) (hq : q = p)
    (he : (lvl.filter (fun o => o.orderId ≠ id)).isEmpty = true) :
    removeFromLevels id p ((q, lvl) :: rest) = rest := by
  simp only [removeFromLevels, if_pos hq, if_pos he]

theorem removeFromLevels_cons_found_ne {q p : ℚ} {lvl : List Order}
    {id : ℕ} (rest : List (ℚ × List Order)) (hq : q = p)
    (he : ¬ (lvl.filter (fun o => o.orderId ≠ id)).isEmpty = true) :
    removeFromLevels id p ((q, lvl) :: rest) =
      (q, lvl.filter (fun o => o.orderId ≠ id)) :: rest := by
  simp only [removeFromLevels, if_pos hq, if_neg he]

theorem removeFromLevels_cons_notfound {q p : ℚ} {lvl : List Order}
    {id : ℕ} (rest : List (ℚ × List Order)) (hq : ¬ q = p) :
    removeFromLevels id p ((q, lvl) :: rest) =
      (q, lvl) :: removeFromLevels id p rest := by
  simp only [removeFromLevels, if_neg hq]

theorem findLevel_removeFromLevels_ne {pd p : ℚ} (id : ℕ)
    (ls : List (ℚ × List Order)) (h : pd ≠ p) :
    findLevel pd (removeFromLevels id p ls) = findLevel pd ls := by
  induction ls with
  | nil => rfl
  | cons pl rest ih =>
    obtain ⟨q, lvl⟩ := pl
    by_cases hq : q = p
    · have hqd : ¬ q = pd := by
        rw [hq]
        exact fun hh => h hh.symm
      by_cases he : (lvl.filter (fun o => o.orderId ≠ id)).isEmpty = true
      · rw [removeFromLevels_cons_found_empty rest hq he, findLevel_cons,
          if_neg hqd]
      · rw [removeFromLevels_cons_found_ne rest hq he, findLevel_cons,
          findLevel_cons, if_neg hqd, if_neg hqd]
    · by_cases hqd : q = pd
      · rw [removeFromLevels_cons_notfound rest hq, findLevel_cons,
          findLevel_cons, if_pos hqd, if_pos hqd]
      · rw [removeFromLevels_cons_notfound rest hq, findLevel_cons,
          findLevel_cons, if_neg hqd, if_neg hqd, ih]

theorem findLevel_removeFromLevels_self {p : ℚ} (id : ℕ)
    {ls : List (ℚ × List Order)} (hs : (keysOf ls).Nodup) :
    findLevel p (removeFromLevels id p ls) =
      (match findLevel p ls with
       | none => none
       | some lvl =>
         let f := lvl.filter (fun x => x.orderId ≠ id)
         if f.isEmpty then none else some f) := by
  induction ls with
  | nil => rfl
  | cons pl rest ih =>
    obtain ⟨q, lvl⟩ := pl
    simp only [keysOf, List.map_cons, List.nodup_cons] at hs
    by_cases hq : q = p
    · subst hq
      have hnone : findLevel q rest = none := by
        apply findLevel_eq_none_iff.mpr
        intro hmem
        exact hs.1 hmem
      by_cases he : (lvl.filter (fun o => o.orderId ≠ id)).isEmpty = true
      · rw [removeFromLevels_cons_found_empty rest rfl he, findLevel_cons,
          if_pos rfl, hnone]
        simp only []
        rw [if_pos he]
      · rw [removeFromLevels_cons_found_ne rest rfl he, findLevel_cons,
          findLevel_cons, if_pos rfl, if_pos rfl]
        simp only []
        rw [if_neg he]
    · rw [removeFromLevels_cons_notfound rest hq, findLevel_cons, findLevel_cons,
        if_neg hq, if_neg hq]
      exact ih hs.2

theorem addToLevels_nonempty {ls : List (ℚ × List Order)}
    (h : ∀ pl ∈ ls, pl.2 ≠ []) (o : Order) :
    ∀ pl ∈ addToLevels o ls, pl.2 ≠ [] := by
  induction ls with
  | nil =>
    intro pl hpl
    simp only [addToLevels, List.mem_singleton] at hpl
    subst hpl
    simp
  | cons hd rest ih =>
    obtain ⟨q, lvl⟩ := hd
    intro pl hpl
    by_cases h1 : o.price < q
    · simp only [addToLevels, if_pos h1, List.mem_cons] at hpl
      rcases hpl with rfl | rfl | hpl3
      · simp
      · exact h (q, lvl) (List.mem_cons_self _ _)
      · exact h pl (List.mem_cons_of_mem _ hpl3)
    · by_cases h2 : o.price = q
      · simp only [addToLevels, if_neg h1, if_pos h2, List.mem_cons] at hpl
        rcases hpl with rfl | hpl2
        · exact insertByTimestamp_ne_nil o lvl
        · exact h pl (List.mem_cons_of_mem _ hpl2)
      · simp only [addToLevels, if_neg h1, if_neg h2, List.mem_cons] at hpl
        rcases hpl with rfl | hpl2
        · exact h (q, lvl) (List.mem_cons_self _ _)
        · exact ih (fun x hx => h x (List.mem_cons_of_mem _ hx)) pl hpl2

theorem updateInLevels_nonempty {ls : List (ℚ × List Order)}
    (h : ∀ pl ∈ ls, pl.2 ≠ []) (o : Order) :
    ∀ pl ∈ updateInLevels o ls, pl.2 ≠ [] := by
  intro pl hpl
  obtain ⟨pl0, hpl0, heq⟩ := List.mem_map.mp hpl
  by_cases hc : pl0.1 = o.price
  · rw [if_pos hc] at heq
    subst heq
    simp only [ne_eq, List.map_eq_nil_iff]
    exact h pl0 hpl0
  · rw [if_neg hc] at heq
    subst heq
    exact h pl0 hpl0

theorem removeFromLevels_nonempty {ls : List (ℚ × List Order)}
    (h : ∀ pl ∈ ls, pl.2 ≠ []) (id : ℕ) (p : ℚ) :
    ∀ pl ∈ removeFromLevels id p ls, pl.2 ≠ [] := by
  induction ls with
  | nil => simp [removeFromLevels]
  | cons hd rest ih =>
    obtain ⟨q, lvl⟩ := hd
    intro pl hpl
    have hrest := fun x hx => h x (List.mem_cons_of_mem _ hx)
    by_cases hq : q = p
    · by_cases he : (lvl.filter (fun o => o.orderId ≠ id)).isEmpty
      · simp only [removeFromLevels, if_pos hq, if_pos he] at hpl
        exact hrest pl hpl
      · simp only [removeFromLevels, if_pos hq, if_neg he, List.mem_cons] at hpl
        rcases hpl with rfl | hpl2
        · exact fun hnil => he (List.isEmpty_iff.mpr hnil)
        · exact hrest pl hpl2
    · simp only [removeFromLevels, if_neg hq, List.mem_cons] at hpl
      rcases hpl with rfl | hpl2
      · exact h (q, lvl) (List.mem_cons_self _ _)
      · exact ih hrest pl hpl2

theorem mem_updateInLevels {o : Order} {ls : List (ℚ × List Order)}
    {pl : ℚ × List Order} (h : pl ∈ updateInLevels o ls) :
    ∃ pl0 ∈ ls, pl.1 = pl0.1 ∧
      ((pl = pl0 ∧ pl0.1 ≠ o.price) ∨ (pl0.1 = o.price ∧
        pl.2 = pl0.2.map (fun x => if x.orderId = o.orderId then o else x))) := by
  obtain ⟨pl0, hpl0, heq⟩ := List.mem_map.mp h
  by_cases hc : pl0.1 = o.price
  · rw [if_pos hc] at heq
    exact ⟨pl0, hpl0, by rw [← heq], Or.inr ⟨hc, by rw [← heq]⟩⟩
  · rw [if_neg hc] at heq
    exact ⟨pl0, hpl0, by rw [← heq], Or.inl ⟨heq.symm, hc⟩⟩

theorem mem_removeFromLevels {id : ℕ} {p : ℚ} {ls : List (ℚ × List Order)}
    {pl : ℚ × List Order} (h : pl ∈ removeFromLevels id p ls) :
    pl ∈ ls ∨ ∃ lvl0, (pl.1, lvl0) ∈ ls ∧ pl.1 = p ∧
      pl.2 = lvl0.filter (fun x => x.orderId ≠ id) := by
  induction ls with
  | nil => simp [removeFromLevels] at h
  | cons hd rest ih =>
    obtain ⟨q, lvl⟩ := hd
    by_cases hq : q = p
    · by_cases he : (lvl.filter (fun o => o.orderId ≠ id)).isEmpty
      · simp only [removeFromLevels, if_pos hq, if_pos he] at h
        exact Or.inl (List.mem_cons_of_mem _ h)
      · simp only [removeFromLevels, if_pos hq, if_neg he, List.mem_cons] at h
        rcases h with rfl | h2
        · exact Or.inr ⟨lvl, List.mem_cons_self _ _, hq, rfl⟩
        · exact Or.inl (List.mem_cons_of_mem _ h2)
    · simp only [removeFromLevels, if_neg hq, List.mem_cons] at h
      rcases h with rfl | h2
      · exact Or.inl (List.mem_cons_self _ _)
      · rcases ih h2 with h3 | ⟨lvl0, h3, h4, h5⟩
        · exact Or.inl (List.mem_cons_of_mem _ h3)
        · exact Or.inr ⟨lvl0, List.mem_cons_of_mem _ h3, h4, h5⟩

theorem mem_addToLevels {o : Order} {ls : List (ℚ × List Order)}
    {pl : ℚ × List Order} (h : pl ∈ addToLevels o ls) :
    pl ∈ ls ∨ pl = (o.price, [o]) ∨
      ∃ lvl0, (o.price, lvl0) ∈ ls ∧ pl = (o.price, insertByTimestamp o lvl0) := by
  induction ls with
  | nil =>
    simp only [addToLevels, List.mem_singleton] at h
    exact Or.inr (Or.inl h)
  | cons hd rest ih =>
    obtain ⟨q, lvl⟩ := hd
    by_cases h1 : o.price < q
    · simp only [addToLevels, if_pos h1, List.mem_cons] at h
      rcases h with heq | rfl | h3
      · exact Or.inr (Or.inl heq)
      · exact Or.inl (List.mem_cons_self _ _)
      · exact Or.inl (List.mem_cons_of_mem _ h3)
    · by_cases h2 : o.price = q
      · simp only [addToLevels, if_neg h1, if_pos h2, List.mem_cons] at h
        rcases h with heq | h3
        · refine Or.inr (Or.inr ⟨lvl, ?_, ?_⟩)
          · rw [h2]
            exact List.mem_cons_self _ _
          · rw [h2]
            exact heq
        · exact Or.inl (List.mem_cons_of_mem _ h3)
      · simp only [addToLevels, if_neg h1, if_neg h2, List.mem_cons] at h
        rcases h with rfl | h3
        · exact Or.inl (List.mem_cons_self _ _)
        · rcases ih h3 with h4 | h4 | ⟨lvl0, h4, h5⟩
          · exact Or.inl (List.mem_cons_of_mem _ h4)
          · exact Or.inr (Or.inl h4)
          · exact Or.inr (Or.inr ⟨lvl0, List.mem_cons_of_mem _ h4, h5⟩)


/-! ### Structure of the matching loop results -/

theorem matchLevel_cnt (o : Order) (lvl : List Order) (i : ℕ) :
    cntLvl i (matchLevel o lvl).lvl + (matchLevel o lvl).removed.count i =
      cntLvl i lvl := by
  induction lvl generalizing o with
  | nil => simp [matchLevel_nil, cntLvl]
  | cons r rs ih =>
    by_cases h : o.quantity = 0
    · simp [matchLevel_cons_zero o r rs h]
    · by_cases h2 : r.quantity ≤ o.quantity
      · have := ih { o with quantity := o.quantity - r.quantity }
        simp only [matchLevel_cons_full o r rs h h2, List.count_cons,
          cntLvl_cons] at this ⊢
        by_cases hr : r.orderId = i <;> simp [hr] <;> omega
      · push_neg at h2
        simp only [matchLevel_cons_shrink o r rs h h2, cntLvl_cons,
          List.count_nil]
        by_cases hr : r.orderId = i <;> simp [hr]

theorem matchLevel_part_mem {o : Order} {lvl : List Order} {x : Order}
    (h : (matchLevel o lvl).part = some x) : x ∈ (matchLevel o lvl).lvl := by
  induction lvl generalizing o with
  | nil => simp [matchLevel_nil] at h
  | cons r rs ih =>
    by_cases h0 : o.quantity = 0
    · simp [matchLevel_cons_zero o r rs h0] at h
    · by_cases h2 : r.quantity ≤ o.quantity
      · rw [matchLevel_cons_full o r rs h0 h2] at h ⊢
        exact ih h
      · push_neg at h2
        rw [matchLevel_cons_shrink o r rs h0 h2] at h ⊢
        simp only [Option.some.injEq] at h
        subst h
        exact List.mem_cons_self _ _

theorem matchLevel_part_shrunk {o : Order} {lvl : List Order} {x : Order}
    (h : (matchLevel o lvl).part = some x) : ∃ r ∈ lvl, Shrunk x r := by
  induction lvl generalizing o with
  | nil => simp [matchLevel_nil] at h
  | cons r rs ih =>
    by_cases h0 : o.quantity = 0
    · simp [matchLevel_cons_zero o r rs h0] at h
    · by_cases h2 : r.quantity ≤ o.quantity
      · rw [matchLevel_cons_full o r rs h0 h2] at h
        obtain ⟨r0, hr0, hs⟩ := ih h
        exact ⟨r0, List.mem_cons_of_mem _ hr0, hs⟩
      · push_neg at h2
        rw [matchLevel_cons_shrink o r rs h0 h2] at h
        simp only [Option.some.injEq] at h
        subst h
        refine ⟨r, List.mem_cons_self _ _, rfl, rfl, rfl, rfl, ?_, ?_⟩
        · have hmin : min o.quantity r.quantity = o.quantity :=
            Nat.min_eq_left (le_of_lt h2)
          simp only [hmin]
          omega
        · simp only []
          omega

theorem matchLevel_lvl_origin {o : Order} {lvl : List Order} :
    ∀ x ∈ (matchLevel o lvl).lvl, x ∈ lvl ∨
      ((matchLevel o lvl).part = some x ∧ ∃ r ∈ lvl, Shrunk x r) := by
  induction lvl generalizing o with
  | nil => simp [matchLevel_nil]
  | cons r rs ih =>
    intro x hx
    by_cases h0 : o.quantity = 0
    · rw [matchLevel_cons_zero o r rs h0] at hx
      exact Or.inl hx
    · by_cases h2 : r.quantity ≤ o.quantity
      · rw [matchLevel_cons_full o r rs h0 h2] at hx ⊢
        rcases ih x hx with h3 | ⟨h3, r0, h4, h5⟩
        · exact Or.inl (List.mem_cons_of_mem _ h3)
        · exact Or.inr ⟨h3, r0, List.mem_cons_of_mem _ h4, h5⟩
      · push_neg at h2
        rw [matchLevel_cons_shrink o r rs h0 h2] at hx ⊢
        rcases List.mem_cons.mp hx with rfl | h3
        · refine Or.inr ⟨rfl, r, List.mem_cons_self _ _,
            rfl, rfl, rfl, rfl, ?_, ?_⟩
          · have hmin : min o.quantity r.quantity = o.quantity :=
              Nat.min_eq_left (le_of_lt h2)
            simp only [hmin]
            omega
          · simp only []
            omega
        · exact Or.inl (List.mem_cons_of_mem _ h3)

theorem matchLevel_orig_persist {o : Order} {lvl : List Order} :
    ∀ r ∈ lvl, r ∈ (matchLevel o lvl).lvl ∨
      r.orderId ∈ (matchLevel o lvl).removed ∨
      ∃ x, (matchLevel o lvl).part = some x ∧ x.orderId = r.orderId ∧
        x ∈ (matchLevel o lvl).lvl := by
  induction lvl generalizing o with
  | nil => simp
  | cons r0 rs ih =>
    intro r hr
    by_cases h0 : o.quantity = 0
    · rw [matchLevel_cons_zero o r0 rs h0]
      exact Or.inl hr
    · by_cases h2 : r0.quantity ≤ o.quantity
      · rw [matchLevel_cons_full o r0 rs h0 h2]
        rcases List.mem_cons.mp hr with rfl | h3
        · exact Or.inr (Or.inl (List.mem_cons_self _ _))
        · rcases ih r h3 with h4 | h4 | ⟨x, h4, h5, h6⟩
          · exact Or.inl h4
          · exact Or.inr (Or.inl (List.mem_cons_of_mem _ h4))
          · exact Or.inr (Or.inr ⟨x, h4, h5, h6⟩)
      · push_neg at h2
        rw [matchLevel_cons_shrink o r0 rs h0 h2]
        rcases List.mem_cons.mp hr with rfl | h3
        · exact Or.inr (Or.inr ⟨{ r with quantity := r.quantity - o.quantity },
            rfl, rfl, List.mem_cons_self _ _⟩)
        · exact Or.inl (List.mem_cons_of_mem _ h3)

theorem matchLevel_removed_origin {o : Order} {lvl : List Order} :
    ∀ i ∈ (matchLevel o lvl).removed, ∃ r ∈ lvl, r.orderId = i := by
  induction lvl generalizing o with
  | nil => simp [matchLevel_nil]
  | cons r rs ih =>
    intro i hi
    by_cases h0 : o.quantity = 0
    · simp [matchLevel_cons_zero o r rs h0] at hi
    · by_cases h2 : r.quantity ≤ o.quantity
      · rw [matchLevel_cons_full o r rs h0 h2] at hi
        rcases List.mem_cons.mp hi with rfl | h3
        · exact ⟨r, List.mem_cons_self _ _, rfl⟩
        · obtain ⟨r0, h4, h5⟩ := ih i h3
          exact ⟨r0, List.mem_cons_of_mem _ h4, h5⟩
      · push_neg at h2
        simp [matchLevel_cons_shrink o r rs h0 h2] at hi

theorem sweep_cnt (o : Order) (ls : List (ℚ × List Order)) (i : ℕ) :
    cntLs i (sweep o ls).levels + (sweep o ls).removed.count i = cntLs i ls := by
  induction ls generalizing o with
  | nil => simp [sweep_nil, cntLs]
  | cons pl rest ih =>
    obtain ⟨p, lvl⟩ := pl
    by_cases h : o.quantity = 0
    · simp [sweep_cons_zero o p lvl rest h]
    · by_cases hc : crosses o p = true
      · by_cases hd : (matchLevel o lvl).lvl = []
        · rw [sweep_cons_drained o p lvl rest h hc hd]
          have hml := matchLevel_cnt o lvl i
          rw [hd, show cntLvl i ([] : List Order) = 0 from rfl] at hml
          have hsw := ih (matchLevel o lvl).next
          simp only [List.count_append, cntLs_cons]
          omega
        · rw [sweep_cons_stuck o p lvl rest h hc hd]
          have hml := matchLevel_cnt o lvl i
          simp only [cntLs_cons]
          omega
      · have hc2 : crosses o p = false := by
          cases hcp : crosses o p
          · rfl
          · exact absurd hcp hc
        simp [sweep_cons_nocross o p lvl rest h hc2]

theorem sweep_next_fields (o : Order) (ls : List (ℚ × List Order)) :
    (sweep o ls).next.orderId = o.orderId ∧
    (sweep o ls).next.side = o.side ∧
    (sweep o ls).next.price = o.price ∧
    (sweep o ls).next.timestamp = o.timestamp := by
  induction ls generalizing o with
  | nil => simp [sweep_nil]
  | cons pl rest ih =>
    obtain ⟨p, lvl⟩ := pl
    by_cases h : o.quantity = 0
    · simp [sweep_cons_zero o p lvl rest h]
    · by_cases hc : crosses o p = true
      · by_cases hd : (matchLevel o lvl).lvl = []
        · rw [sweep_cons_drained o p lvl rest h hc hd]
          have h1 := matchLevel_next_fields o lvl
          have h2 := ih (matchLevel o lvl).next
          exact ⟨h2.1.trans h1.1, h2.2.1.trans h1.2.1, h2.2.2.1.trans h1.2.2.1,
            h2.2.2.2.trans h1.2.2.2⟩
        · rw [sweep_cons_stuck o p lvl rest h hc hd]
          exact matchLevel_next_fields o lvl
      · have hc2 : crosses o p = false := by
          cases hcp : crosses o p
          · rfl
          · exact absurd hcp hc
        simp [sweep_cons_nocross o p lvl rest h hc2]

theorem sweep_keys_drop (o : Order) (ls : List (ℚ × List Order)) :
    ∃ n, keysOf (sweep o ls).levels = (keysOf ls).drop n := by
  induction ls generalizing o with
  | nil => exact ⟨0, rfl⟩
  | cons pl rest ih =>
    obtain ⟨p, lvl⟩ := pl
    by_cases h : o.quantity = 0
    · exact ⟨0, by rw [sweep_cons_zero o p lvl rest h, List.drop_zero]⟩
    · by_cases hc : crosses o p = true
      · by_cases hd : (matchLevel o lvl).lvl = []
        · obtain ⟨n, hn⟩ := ih (matchLevel o lvl).next
          refine ⟨n + 1, ?_⟩
          rw [sweep_cons_drained o p lvl rest h hc hd]
          simpa [keysOf] using hn
        · refine ⟨0, ?_⟩
          rw [sweep_cons_stuck o p lvl rest h hc hd, List.drop_zero]
          simp [keysOf]
      · have hc2 : crosses o p = false := by
          cases hcp : crosses o p
          · rfl
          · exact absurd hcp hc
        exact ⟨0, by rw [sweep_cons_nocross o p lvl rest h hc2, List.drop_zero]⟩

theorem sweep_keysSorted {ls : List (ℚ × List Order)} (hs : keysSorted ls)
    (o : Order) : keysSorted (sweep o ls).levels := by
  obtain ⟨n, hn⟩ := sweep_keys_drop o ls
  unfold keysSorted at hs ⊢
  rw [hn]
  exact List.Pairwise.sublist (List.drop_sublist n _) hs

theorem sweep_keys_sub {ls : List (ℚ × List Order)} (o : Order) :
    ∀ paux ∈ keysOf (sweep o ls).levels, paux ∈ keysOf ls := by
  obtain ⟨n, hn⟩ := sweep_keys_drop o ls
  rw [hn]
  intro paux hp
  exact List.mem_of_mem_drop hp

theorem sweep_nonempty {ls : List (ℚ × List Order)}
    (hne : ∀ pl ∈ ls, pl.2 ≠ []) (o : Order) :
    ∀ pl ∈ (sweep o ls).levels, pl.2 ≠ [] := by
  induction ls generalizing o with
  | nil => simp [sweep_nil]
  | cons pl0 rest ih =>
    obtain ⟨p, lvl⟩ := pl0
    have hrest : ∀ pl ∈ rest, pl.2 ≠ [] :=
      fun x hx => hne x (List.mem_cons_of_mem _ hx)
    by_cases h : o.quantity = 0
    · rw [sweep_cons_zero o p lvl rest h]
      exact hne
    · by_cases hc : crosses o p = true
      · by_cases hd : (matchLevel o lvl).lvl = []
        · rw [sweep_cons_drained o p lvl rest h hc hd]
          exact ih hrest (matchLevel o lvl).next
        · rw [sweep_cons_stuck o p lvl rest h hc hd]
          intro pl hpl
          rcases List.mem_cons.mp hpl with rfl | h3
          · exact hd
          · exact hrest pl h3
      · have hc2 : crosses o p = false := by
          cases hcp : crosses o p
          · rfl
          · exact absurd hcp hc
        rw [sweep_cons_nocross o p lvl rest h hc2]
        exact hne

theorem sweep_orders_origin {o : Order} {ls : List (ℚ × List Order)} :
    ∀ pl ∈ (sweep o ls).levels, ∀ x ∈ pl.2, ∃ lvl0, (pl.1, lvl0) ∈ ls ∧
      (x ∈ lvl0 ∨ ((sweep o ls).part = some x ∧ ∃ r ∈ lvl0, Shrunk x r)) := by
  induction ls generalizing o with
  | nil => simp [sweep_nil]
  | cons pl0 rest ih =>
    obtain ⟨p, lvl⟩ := pl0
    intro pl hpl x hx
    by_cases h : o.quantity = 0
    · rw [sweep_cons_zero o p lvl rest h] at hpl ⊢
      exact ⟨pl.2, by simpa using hpl, Or.inl hx⟩
    · by_cases hc : crosses o p = true
      · by_cases hd : (matchLevel o lvl).lvl = []
        · rw [sweep_cons_drained o p lvl rest h hc hd] at hpl ⊢
          obtain ⟨lvl0, h1, h2⟩ := ih (o := (matchLevel o lvl).next) pl hpl x hx
          exact ⟨lvl0, List.mem_cons_of_mem _ h1, h2⟩
        · rw [sweep_cons_stuck o p lvl rest h hc hd] at hpl ⊢
          rcases List.mem_cons.mp hpl with rfl | h3
          · rcases matchLevel_lvl_origin x hx with h4 | ⟨h4, r, h5, h6⟩
            · exact ⟨lvl, List.mem_cons_self _ _, Or.inl h4⟩
            · exact ⟨lvl, List.mem_cons_self _ _, Or.inr ⟨h4, r, h5, h6⟩⟩
          · exact ⟨pl.2, List.mem_cons_of_mem _ (by simpa using h3), Or.inl hx⟩
      · have hc2 : crosses o p = false := by
          cases hcp : crosses o p
          · rfl
          · exact absurd hcp hc
        rw [sweep_cons_nocross o p lvl rest h hc2] at hpl ⊢
        exact ⟨pl.2, by simpa using hpl, Or.inl hx⟩

theorem sweep_orig_persist {o : Order} {ls : List (ℚ × List Order)} :
    ∀ pl0 ∈ ls, ∀ r ∈ pl0.2, r.orderId ∈ (sweep o ls).removed ∨
      ∃ lvl1, (pl0.1, lvl1) ∈ (sweep o ls).levels ∧
        (r ∈ lvl1 ∨ ∃ x, (sweep o ls).part = some x ∧ x.orderId = r.orderId ∧
          x ∈ lvl1) := by
  induction ls generalizing o with
  | nil => simp
  | cons plh rest ih =>
    obtain ⟨p, lvl⟩ := plh
    intro pl0 hpl0 r hr
    by_cases h : o.quantity = 0
    · rw [sweep_cons_zero o p lvl rest h]
      exact Or.inr ⟨pl0.2, by simpa using hpl0, Or.inl hr⟩
    · by_cases hc : crosses o p = true
      · by_cases hd : (matchLevel o lvl).lvl = []
        · rw [sweep_cons_drained o p lvl rest h hc hd]
          rcases List.mem_cons.mp hpl0 with rfl | h3
          · rcases matchLevel_orig_persist (o := o) r hr with h4 | h4 |
              ⟨x, h4, h5, h6⟩
            · rw [hd] at h4
              simp at h4
            · exact Or.inl (by simp [List.mem_append, h4])
            · have := matchLevel_part_mem h4
              rw [hd] at this
              simp at this
          · rcases ih (o := (matchLevel o lvl).next) pl0 h3 r hr with h4 |
              ⟨lvl1, h4, h5⟩
            · exact Or.inl (by simp [List.mem_append, h4])
            · exact Or.inr ⟨lvl1, h4, h5⟩
        · rw [sweep_cons_stuck o p lvl rest h hc hd]
          rcases List.mem_cons.mp hpl0 with rfl | h3
          · rcases matchLevel_orig_persist (o := o) r hr with h4 | h4 |
              ⟨x, h4, h5, h6⟩
            · exact Or.inr ⟨(matchLevel o lvl).lvl,
                List.mem_cons_self _ _, Or.inl h4⟩
            · exact Or.inl h4
            · exact Or.inr ⟨(matchLevel o lvl).lvl, List.mem_cons_self _ _,
                Or.inr ⟨x, h4, h5, h6⟩⟩
          · exact Or.inr ⟨pl0.2, List.mem_cons_of_mem _ (by simpa using h3),
              Or.inl hr⟩
      · have hc2 : crosses o p = false := by
          cases hcp : crosses o p
          · rfl
          · exact absurd hcp hc
        rw [sweep_cons_nocross o p lvl rest h hc2]
        exact Or.inr ⟨pl0.2, by simpa using hpl0, Or.inl hr⟩

theorem sweep_part_mem {o : Order} {ls : List (ℚ × List Order)} {x : Order}
    (h : (sweep o ls).part = some x) :
    ∃ pq lvl1, (pq, lvl1) ∈ (sweep o ls).levels ∧ x ∈ lvl1 ∧
      ∃ lvl0 r, (pq, lvl0) ∈ ls ∧ r ∈ lvl0 ∧ Shrunk x r := by
  induction ls generalizing o with
  | nil => simp [sweep_nil] at h
  | cons plh rest ih =>
    obtain ⟨p, lvl⟩ := plh
    by_cases h0 : o.quantity = 0
    · simp [sweep_cons_zero o p lvl rest h0] at h
    · by_cases hc : crosses o p = true
      · by_cases hd : (matchLevel o lvl).lvl = []
        · rw [sweep_cons_drained o p lvl rest h0 hc hd] at h ⊢
          obtain ⟨pq, lvl1, h1, h2, lvl0, r, h3, h4, h5⟩ := ih h
          exact ⟨pq, lvl1, h1, h2, lvl0, r, List.mem_cons_of_mem _ h3, h4, h5⟩
        · rw [sweep_cons_stuck o p lvl rest h0 hc hd] at h ⊢
          obtain ⟨r, hr, hs⟩ := matchLevel_part_shrunk h
          exact ⟨p, (matchLevel o lvl).lvl, List.mem_cons_self _ _,
            matchLevel_part_mem h, lvl, r, List.mem_cons_self _ _, hr, hs⟩
      · have hc2 : crosses o p = false := by
          cases hcp : crosses o p
          · rfl
          · exact absurd hcp hc
        simp [sweep_cons_nocross o p lvl rest h0 hc2] at h

theorem sweep_removed_origin {o : Order} {ls : List (ℚ × List Order)} :
    ∀ i ∈ (sweep o ls).removed, ∃ pl0 ∈ ls, ∃ r ∈ pl0.2, r.orderId = i := by
  induction ls generalizing o with
  | nil => simp [sweep_nil]
  | cons plh rest ih =>
    obtain ⟨p, lvl⟩ := plh
    intro i hi
    by_cases h0 : o.quantity = 0
    · simp [sweep_cons_zero o p lvl rest h0] at hi
    · by_cases hc : crosses o p = true
      · by_cases hd : (matchLevel o lvl).lvl = []
        · rw [sweep_cons_drained o p lvl rest h0 hc hd] at hi
          rcases List.mem_append.mp hi with h1 | h1
          · obtain ⟨r, h2, h3⟩ := matchLevel_removed_origin i h1
            exact ⟨(p, lvl), List.mem_cons_self _ _, r, h2, h3⟩
          · obtain ⟨pl0, h2, r, h3, h4⟩ := ih i h1
            exact ⟨pl0, List.mem_cons_of_mem _ h2, r, h3, h4⟩
        · rw [sweep_cons_stuck o p lvl rest h0 hc hd] at hi
          obtain ⟨r, h2, h3⟩ := matchLevel_removed_origin i hi
          exact ⟨(p, lvl), List.mem_cons_self _ _, r, h2, h3⟩
      · have hc2 : crosses o p = false := by
          cases hcp : crosses o p
          · rfl
          · exact absurd hcp hc
        simp [sweep_cons_nocross o p lvl rest h0 hc2] at hi

theorem sweep_stop {o : Order} {ls : List (ℚ × List Order)}
    (h : (sweep o ls).next.quantity ≠ 0) :
    (sweep o ls).levels = [] ∨
      ∃ pq lvl1 rest1, (sweep o ls).levels = (pq, lvl1) :: rest1 ∧
        crosses o pq = false := by
  induction ls generalizing o with
  | nil => simp [sweep_nil]
  | cons plh rest ih =>
    obtain ⟨p, lvl⟩ := plh
    by_cases h0 : o.quantity = 0
    · rw [sweep_cons_zero o p lvl rest h0] at h
      exact absurd h0 h
    · by_cases hc : crosses o p = true
      · by_cases hd : (matchLevel o lvl).lvl = []
        · rw [sweep_cons_drained o p lvl rest h0 hc hd] at h ⊢
          have hf := matchLevel_next_fields o lvl
          rcases ih (o := (matchLevel o lvl).next) h with h1 | ⟨pq, lvl1, rest1,
            h1, h2⟩
          · exact Or.inl h1
          · refine Or.inr ⟨pq, lvl1, rest1, h1, ?_⟩
            rw [← crosses_congr hf.2.1 hf.2.2.1]
            exact h2
        · rw [sweep_cons_stuck o p lvl rest h0 hc hd] at h
          exact absurd (matchLevel_lvl_ne_nil_next_zero o lvl hd) h
      · have hc2 : crosses o p = false := by
          cases hcp : crosses o p
          · rfl
          · exact absurd hcp hc
        rw [sweep_cons_nocross o p lvl rest h0 hc2]
        exact Or.inr ⟨p, lvl, rest, rfl, hc2⟩


/-! ### The id index under the matchOrders writeback -/

theorem foldl_eraseId_eq_filter (removed : List ℕ) (idx : List Order) :
    removed.foldl (fun m i => eraseId i m) idx =
      idx.filter (fun x => x.orderId ∉ removed) := by
  induction removed generalizing idx with
  | nil => simp
  | cons i is ih =>
    rw [List.foldl_cons, ih (eraseId i idx)]
    unfold eraseId
    rw [List.filter_filter]
    apply List.filter_congr
    intro x _
    by_cases h1 : x.orderId = i <;> by_cases h2 : x.orderId ∈ is <;>
      simp [h1, h2]

theorem lookupId_filter_keeps {P : Order → Bool} {idx : List Order} {j : ℕ}
    (h : ∀ x, x.orderId = j → P x = true) :
    lookupId (idx.filter P) j = lookupId idx j := by
  induction idx with
  | nil => rfl
  | cons x xs ih =>
    by_cases hx : x.orderId = j
    · rw [List.filter_cons, if_pos (h x hx), lookupId_cons_eq hx,
        lookupId_cons_eq hx]
    · by_cases hp : P x = true
      · rw [List.filter_cons, if_pos hp, lookupId_cons_ne hx,
          lookupId_cons_ne hx, ih]
      · rw [List.filter_cons, if_neg hp, lookupId_cons_ne hx, ih]

theorem lookupId_filter_drops {P : Order → Bool} {idx : List Order} {j : ℕ}
    (h : ∀ x, x.orderId = j → P x = false) :
    lookupId (idx.filter P) j = none := by
  apply List.find?_eq_none.mpr
  intro x hx
  have hmem := List.mem_filter.mp hx
  intro hc
  simp only [decide_eq_true_eq] at hc
  rw [h x hc] at hmem
  exact Bool.false_ne_true hmem.2

theorem map_orderId_updateById (o : Order) (idx : List Order) :
    (updateById o idx).map Order.orderId = idx.map Order.orderId := by
  unfold updateById
  rw [List.map_map]
  apply List.map_congr_left
  intro x _
  by_cases h : x.orderId = o.orderId <;> simp [Function.comp, h]

theorem idsSorted_updateById {idx : List Order} (hs : idsSorted idx)
    (o : Order) : idsSorted (updateById o idx) := by
  unfold idsSorted at hs ⊢
  rw [map_orderId_updateById]
  exact hs

theorem idsSorted_filter {idx : List Order} (hs : idsSorted idx)
    (P : Order → Bool) : idsSorted (idx.filter P) := by
  unfold idsSorted at hs ⊢
  exact List.Pairwise.sublist (List.Sublist.map _ (List.filter_sublist idx)) hs

theorem mem_insertById {x o : Order} {idx : List Order} :
    x ∈ insertById o idx ↔ x = o ∨ x ∈ idx := by
  induction idx with
  | nil => simp [insertById]
  | cons y ys ih =>
    by_cases h : o.orderId < y.orderId
    · simp [insertById, h]
    · simp only [insertById, if_neg h, List.mem_cons, ih]
      tauto

theorem idsSorted_insertById {idx : List Order} (hs : idsSorted idx)
    {o : Order} (hfresh : ∀ y ∈ idx, y.orderId ≠ o.orderId) :
    idsSorted (insertById o idx) := by
  induction idx with
  | nil => simp [insertById, idsSorted]
  | cons x xs ih =>
    have hpair := hs
    simp only [idsSorted, List.map_cons, List.pairwise_cons] at hpair
    have hxs : idsSorted xs := hpair.2
    by_cases h : o.orderId < x.orderId
    · simp only [insertById, if_pos h, idsSorted, List.map_cons,
        List.pairwise_cons]
      refine ⟨?_, hpair⟩
      intro a ha
      rcases List.mem_cons.mp ha with rfl | ha2
      · exact h
      · obtain ⟨y, hy, hya⟩ := List.mem_map.mp ha2
        exact lt_trans h (hya ▸ hpair.1 y.orderId (List.mem_map_of_mem _ hy))
    · have hxo : x.orderId < o.orderId := by
        have := hfresh x (List.mem_cons_self _ _)
        omega
      simp only [insertById, if_neg h, idsSorted, List.map_cons,
        List.pairwise_cons]
      constructor
      · intro a ha
        obtain ⟨y, hy, hya⟩ := List.mem_map.mp ha
        rcases mem_insertById.mp hy with rfl | hy2
        · omega
        · exact hya ▸ hpair.1 y.orderId (List.mem_map_of_mem _ hy2)
      · exact ih hxs fun y hy => hfresh y (List.mem_cons_of_mem _ hy)

theorem lookupId_insertById_self {idx : List Order} {o : Order}
    (h : lookupId idx o.orderId = none) :
    lookupId (insertById o idx) o.orderId = some o := by
  induction idx with
  | nil => simp [insertById, lookupId, List.find?_cons]
  | cons x xs ih =>
    have hx : ¬ x.orderId = o.orderId := by
      intro hc
      rw [lookupId_cons_eq hc] at h
      exact Option.some_ne_none x h
    rw [lookupId_cons_ne hx] at h
    by_cases hlt : o.orderId < x.orderId
    · rw [insertById, if_pos hlt, lookupId_cons_eq rfl]
    · rw [insertById, if_neg hlt, lookupId_cons_ne hx, ih h]

theorem lookupId_insertById_ne {idx : List Order} {o : Order} {j : ℕ}
    (h : j ≠ o.orderId) :
    lookupId (insertById o idx) j = lookupId idx j := by
  induction idx with
  | nil =>
    rw [show insertById o [] = [o] from rfl,
      lookupId_cons_ne (fun hc => h hc.symm)]
  | cons x xs ih =>
    by_cases hlt : o.orderId < x.orderId
    · rw [insertById, if_pos hlt, lookupId_cons_ne (fun hc => h hc.symm)]
    · by_cases hx : x.orderId = j
      · rw [insertById, if_neg hlt, lookupId_cons_eq hx, lookupId_cons_eq hx]
      · rw [insertById, if_neg hlt, lookupId_cons_ne hx, lookupId_cons_ne hx, ih]

theorem lookupId_updateById_self {idx : List Order} {o ord : Order}
    (hl : lookupId idx o.orderId = some ord) :
    lookupId (updateById o idx) o.orderId = some o := by
  induction idx with
  | nil => simp [lookupId] at hl
  | cons x xs ih =>
    by_cases hx : x.orderId = o.orderId
    · rw [updateById_cons_eq hx, lookupId_cons_eq rfl]
    · rw [lookupId_cons_ne hx] at hl
      rw [updateById_cons_ne hx, lookupId_cons_ne hx, ih hl]

theorem lookupId_updateById_ne {idx : List Order} {o : Order} {j : ℕ}
    (h : j ≠ o.orderId) :
    lookupId (updateById o idx) j = lookupId idx j := by
  induction idx with
  | nil => rfl
  | cons x xs ih =>
    by_cases hx : x.orderId = o.orderId
    · have hxj : ¬ x.orderId = j := by omega
      have hoj : ¬ o.orderId = j := fun hc => h hc.symm
      rw [updateById_cons_eq hx, lookupId_cons_ne hoj, lookupId_cons_ne hxj, ih]
    · by_cases hxj : x.orderId = j
      · rw [updateById_cons_ne hx, lookupId_cons_eq hxj, lookupId_cons_eq hxj]
      · rw [updateById_cons_ne hx, lookupId_cons_ne hxj, lookupId_cons_ne hxj,
          ih]

theorem mem_lookupId {idx : List Order} (hs : idsSorted idx) {x : Order}
    (hx : x ∈ idx) : lookupId idx x.orderId = some x := by
  induction idx with
  | nil => simp at hx
  | cons y ys ih =>
    have hpair := hs
    simp only [idsSorted, List.map_cons, List.pairwise_cons] at hpair
    rcases List.mem_cons.mp hx with rfl | hx2
    · exact lookupId_cons_eq rfl
    · have hne : ¬ y.orderId = x.orderId := by
        have := hpair.1 x.orderId (List.mem_map_of_mem _ hx2)
        omega
      rw [lookupId_cons_ne hne]
      exact ih hpair.2 hx2

theorem mem_updateById {x o : Order} {idx : List Order}
    (h : x ∈ updateById o idx) :
    (x = o ∧ ∃ y ∈ idx, y.orderId = o.orderId) ∨
      (x ∈ idx ∧ x.orderId ≠ o.orderId) := by
  obtain ⟨y, hy, hyx⟩ := List.mem_map.mp h
  by_cases hc : y.orderId = o.orderId
  · rw [if_pos hc] at hyx
    exact Or.inl ⟨hyx.symm, y, hy, hc⟩
  · rw [if_neg hc] at hyx
    subst hyx
    exact Or.inr ⟨hy, hc⟩


/-! ### Uniqueness of an id occurrence from counts -/

theorem cntLvl_unique {i : ℕ} {l : List Order} (h : cntLvl i l = 1)
    {r1 r2 : Order} (h1 : r1 ∈ l) (hi1 : r1.orderId = i)
    (h2 : r2 ∈ l) (hi2 : r2.orderId = i) : r1 = r2 := by
  induction l with
  | nil => simp at h1
  | cons x xs ih =>
    rw [cntLvl_cons] at h
    by_cases hx : x.orderId = i
    · rw [if_pos hx] at h
      have hz : cntLvl i xs = 0 := by omega
      have hnone : ∀ y ∈ xs, y.orderId ≠ i := by
        intro y hy hc
        exact absurd (cntLvl_pos_of_mem hy hc) (by omega)
      rcases List.mem_cons.mp h1 with rfl | hm1
      · rcases List.mem_cons.mp h2 with rfl | hm2
        · rfl
        · exact absurd hi2 (hnone r2 hm2)
      · exact absurd hi1 (hnone r1 hm1)
    · rw [if_neg hx] at h
      rcases List.mem_cons.mp h1 with rfl | hm1
      · exact absurd hi1 hx
      · rcases List.mem_cons.mp h2 with rfl | hm2
        · exact absurd hi2 hx
        · exact ih (by omega) hm1 hm2

theorem cntLs_unique {i : ℕ} {ls : List (ℚ × List Order)} (h : cntLs i ls = 1)
    {p1 p2 : ℚ × List Order} {r1 r2 : Order}
    (hm1 : p1 ∈ ls) (hr1 : r1 ∈ p1.2) (hi1 : r1.orderId = i)
    (hm2 : p2 ∈ ls) (hr2 : r2 ∈ p2.2) (hi2 : r2.orderId = i) : r1 = r2 := by
  induction ls with
  | nil => simp at hm1
  | cons pl rest ih =>
    rw [cntLs_cons] at h
    have hone1 : 0 < cntLvl i p1.2 := cntLvl_pos_of_mem hr1 hi1
    have hone2 : 0 < cntLvl i p2.2 := cntLvl_pos_of_mem hr2 hi2
    rcases List.mem_cons.mp hm1 with rfl | ht1
    · rcases List.mem_cons.mp hm2 with rfl | ht2
      · exact cntLvl_unique (by omega) hr1 hi1 hr2 hi2
      · have := cntLvl_le_cntLs (i := i) ht2
        omega
    · have hx1 := cntLvl_le_cntLs (i := i) ht1
      rcases List.mem_cons.mp hm2 with rfl | ht2
      · omega
      · have hx2 := cntLvl_le_cntLs (i := i) ht2
        exact ih (by omega) ht1 ht2

theorem mem_removeFromLevels_of_ne_key {q p : ℚ} {lvl : List Order}
    {ls : List (ℚ × List Order)} (id : ℕ)
    (h : (q, lvl) ∈ ls) (hq : q ≠ p) : (q, lvl) ∈ removeFromLevels id p ls := by
  induction ls with
  | nil => simp at h
  | cons pl rest ih =>
    obtain ⟨q0, lvl0⟩ := pl
    by_cases hq0 : q0 = p
    · rcases List.mem_cons.mp h with heq | hmem
      · have : q = q0 := congrArg Prod.fst heq
        exact absurd (this.trans hq0) hq
      · by_cases he : (lvl0.filter (fun o => o.orderId ≠ id)).isEmpty = true
        · rw [removeFromLevels_cons_found_empty rest hq0 he]
          exact hmem
        · rw [removeFromLevels_cons_found_ne rest hq0 he]
          exact List.mem_cons_of_mem _ hmem
    · rw [removeFromLevels_cons_notfound rest hq0]
      rcases List.mem_cons.mp h with heq | hmem
      · rw [heq]
        exact List.mem_cons_self _ _
      · exact List.mem_cons_of_mem _ (ih hmem)

theorem mem_removeFromLevels_self_key {p : ℚ} {lvl : List Order}
    {ls : List (ℚ × List Order)} {id : ℕ} {x : Order}
    (hnd : (keysOf ls).Nodup) (h : (p, lvl) ∈ ls) (hx : x ∈ lvl)
    (hid : x.orderId ≠ id) :
    ∃ lvl1, (p, lvl1) ∈ removeFromLevels id p ls ∧ x ∈ lvl1 := by
  have hfind : findLevel p ls = some lvl := findLevel_of_mem hnd h
  have hx2 : x ∈ lvl.filter (fun y => y.orderId ≠ id) :=
    List.mem_filter.mpr ⟨hx, by simpa using hid⟩
  have hne : ¬ (lvl.filter (fun y => y.orderId ≠ id)).isEmpty = true := by
    intro hc
    rw [List.isEmpty_iff.mp hc] at hx2
    simp at hx2
  have := findLevel_removeFromLevels_self id hnd (p := p)
  rw [hfind] at this
  simp only [if_neg hne] at this
  exact ⟨lvl.filter (fun y => y.orderId ≠ id), findLevel_mem this, hx2⟩


/-! ### The matched index -/

theorem mem_filter_orderId {x : Order} {idx : List Order} {removed : List ℕ}
    (h : x ∈ idx.filter (fun y => y.orderId ∉ removed)) :
    x ∈ idx ∧ x.orderId ∉ removed := by
  have := List.mem_filter.mp h
  exact ⟨this.1, by simpa using this.2⟩

theorem mem_matchedIndex {s : SweepResult} {idx : List Order} {x : Order}
    (h : x ∈ matchedIndex s idx) :
    (x = s.next ∧ ∃ y ∈ idx, y.orderId = s.next.orderId) ∨
    (s.part = some x ∧ x.orderId ≠ s.next.orderId ∧ ∃ y ∈ idx, y.orderId = x.orderId) ∨
    (x ∈ idx ∧ x.orderId ∉ s.removed ∧ x.orderId ≠ s.next.orderId ∧
      ∀ pr, s.part = some pr → x.orderId ≠ pr.orderId) := by
  unfold matchedIndex at h
  rw [foldl_eraseId_eq_filter] at h
  rcases mem_updateById h with ⟨rfl, y2, hy2, hyid⟩ | ⟨h2, hne⟩
  · -- x is the aggressor record; trace an underlying id through the chain
    left
    refine ⟨rfl, ?_⟩
    cases hp : s.part with
    | none =>
      rw [hp] at hy2
      simp only [id] at hy2
      obtain ⟨hy3, _⟩ := mem_filter_orderId hy2
      exact ⟨y2, hy3, hyid⟩
    | some pr =>
      rw [hp] at hy2
      rcases mem_updateById hy2 with ⟨rfl, y3, hy3, hyid3⟩ | ⟨h3, _⟩
      · obtain ⟨hy4, _⟩ := mem_filter_orderId hy3
        exact ⟨y3, hy4, hyid3.trans hyid⟩
      · obtain ⟨hy4, _⟩ := mem_filter_orderId h3
        exact ⟨y2, hy4, hyid⟩
  · cases hp : s.part with
    | none =>
      rw [hp] at h2
      simp only [id] at h2
      obtain ⟨h3, h4⟩ := mem_filter_orderId h2
      exact Or.inr (Or.inr ⟨h3, h4, hne, by simp [hp]⟩)
    | some pr =>
      rw [hp] at h2
      rcases mem_updateById h2 with ⟨rfl, y3, hy3, hyid3⟩ | ⟨h3, hne3⟩
      · obtain ⟨hy4, _⟩ := mem_filter_orderId hy3
        exact Or.inr (Or.inl ⟨rfl, hne, y3, hy4, hyid3⟩)
      · obtain ⟨h4, h5⟩ := mem_filter_orderId h3
        refine Or.inr (Or.inr ⟨h4, h5, hne, ?_⟩)
        intro pr2 hpr2
        have h6 : pr = pr2 := Option.some.inj hpr2
        rw [← h6]
        exact hne3
  
theorem idsSorted_matchedIndex {idx : List Order} (hs : idsSorted idx)
    (s : SweepResult) : idsSorted (matchedIndex s idx) := by
  unfold matchedIndex
  rw [foldl_eraseId_eq_filter]
  apply idsSorted_updateById
  cases hp : s.part with
  | none =>
    simp only [id]
    exact idsSorted_filter hs _
  | some pr => exact idsSorted_updateById (idsSorted_filter hs _) pr

theorem lookupId_matchedIndex_other {s : SweepResult} {idx : List Order} {j : ℕ}
    (hne : j ≠ s.next.orderId) (hnr : j ∉ s.removed)
    (hnp : ∀ pr, s.part = some pr → j ≠ pr.orderId) :
    lookupId (matchedIndex s idx) j = lookupId idx j := by
  unfold matchedIndex
  rw [foldl_eraseId_eq_filter, lookupId_updateById_ne hne]
  have hfilter : lookupId (idx.filter (fun y => y.orderId ∉ s.removed)) j =
      lookupId idx j := by
    apply lookupId_filter_keeps
    intro x hx
    rw [hx]
    simpa using hnr
  cases hp : s.part with
  | none => simpa [id] using hfilter
  | some pr => rw [lookupId_updateById_ne (hnp pr hp), hfilter]

theorem lookupId_matchedIndex_next {s : SweepResult} {idx : List Order} {y : Order}
    (hpresent : lookupId idx s.next.orderId = some y)
    (hnr : s.next.orderId ∉ s.removed)
    (hnp : ∀ pr, s.part = some pr → s.next.orderId ≠ pr.orderId) :
    lookupId (matchedIndex s idx) s.next.orderId = some s.next := by
  unfold matchedIndex
  rw [foldl_eraseId_eq_filter]
  have hfilter : lookupId (idx.filter (fun z => z.orderId ∉ s.removed))
      s.next.orderId = some y := by
    rw [lookupId_filter_keeps, hpresent]
    intro x hx
    rw [hx]
    simpa using hnr
  cases hp : s.part with
  | none =>
    simp only [id]
    exact lookupId_updateById_self hfilter
  | some pr =>
    have hstep : lookupId (updateById pr
        (idx.filter (fun z => z.orderId ∉ s.removed))) s.next.orderId = some y := by
      rw [lookupId_updateById_ne (hnp pr hp), hfilter]
    exact lookupId_updateById_self hstep

theorem lookupId_matchedIndex_part {s : SweepResult} {idx : List Order}
    {pr y : Order} (hp : s.part = some pr)
    (hpresent : lookupId idx pr.orderId = some y)
    (hnr : pr.orderId ∉ s.removed) (hne : pr.orderId ≠ s.next.orderId) :
    lookupId (matchedIndex s idx) pr.orderId = some pr := by
  unfold matchedIndex
  rw [foldl_eraseId_eq_filter, lookupId_updateById_ne hne, hp]
  have hstep : lookupId (idx.filter (fun z => z.orderId ∉ s.removed))
      pr.orderId = some y := by
    rw [lookupId_filter_keeps, hpresent]
    intro x hx
    rw [hx]
    simpa using hnr
  exact lookupId_updateById_self hstep

/-! ### The matching loop preserves the book invariant: core lemma -/

/-- Effect of the whole matching phase, before the final full-fill removal,
on a side-generic book: `own` is the ledger of the aggressor side, `opp`
the opposing ledger listed best-price-first. -/
theorem matchCoreAux
    (o : Order) (idx : List Order) (own opp : List (ℚ × List Order))
    (hids : idsSorted idx)
    (hlo : lookupId idx o.orderId = some o)
    (hq : ∀ x ∈ idx, x.orderId ≠ o.orderId → 0 < x.quantity)
    (hcnt : ∀ x ∈ idx, cntLs x.orderId own + cntLs x.orderId opp = 1)
    (hown : ∀ pl ∈ own, ∀ r ∈ pl.2,
      r.side = o.side ∧ r.price = pl.1 ∧ lookupId idx r.orderId = some r)
    (hopp : ∀ pl ∈ opp, ∀ r ∈ pl.2,
      r.side ≠ o.side ∧ r.price = pl.1 ∧ lookupId idx r.orderId = some r)
    (hplace : ∀ x ∈ idx,
      (x.side = o.side → ∃ lvl1, (x.price, lvl1) ∈ own ∧ x ∈ lvl1) ∧
      (x.side ≠ o.side → ∃ lvl1, (x.price, lvl1) ∈ opp ∧ x ∈ lvl1)) :
    idsSorted (matchedIndex (sweep o opp) idx) ∧
    (∀ x ∈ matchedIndex (sweep o opp) idx,
      x.orderId = o.orderId → x = (sweep o opp).next) ∧
    (∀ x ∈ matchedIndex (sweep o opp) idx,
      x.orderId ≠ o.orderId → 0 < x.quantity) ∧
    (∀ x ∈ matchedIndex (sweep o opp) idx,
      cntLs x.orderId (updateInLevels (sweep o opp).next own) +
        cntLs x.orderId (sweep o opp).levels = 1) ∧
    (∀ x ∈ matchedIndex (sweep o opp) idx,
      (x.side = o.side → ∃ lvl1,
        (x.price, lvl1) ∈ updateInLevels (sweep o opp).next own ∧ x ∈ lvl1) ∧
      (x.side ≠ o.side → ∃ lvl1, (x.price, lvl1) ∈ (sweep o opp).levels ∧ x ∈ lvl1)) ∧
    (∀ pl ∈ updateInLevels (sweep o opp).next own, ∀ r ∈ pl.2,
      r.side = o.side ∧ r.price = pl.1 ∧
        lookupId (matchedIndex (sweep o opp) idx) r.orderId = some r) ∧
    (∀ pl ∈ (sweep o opp).levels, ∀ r ∈ pl.2,
      r.side ≠ o.side ∧ r.price = pl.1 ∧
        lookupId (matchedIndex (sweep o opp) idx) r.orderId = some r) := by
  obtain ⟨hnid, hnside, hnprice, hnts⟩ := sweep_next_fields o opp
  have ho_mem : o ∈ idx := (lookupId_eq_some hlo).2
  obtain ⟨lvlO, hlvlO, hoin⟩ := (hplace o ho_mem).1 rfl
  have hcnt_o := hcnt o ho_mem
  have hown_pos : 0 < cntLs o.orderId own :=
    lt_of_lt_of_le (cntLvl_pos_of_mem hoin rfl) (cntLvl_le_cntLs hlvlO)
  have hopp_o : cntLs o.orderId opp = 0 := by omega
  have hown_o : cntLs o.orderId own = 1 := by omega
  have hswc := sweep_cnt o opp
  have hrem_o : o.orderId ∉ (sweep o opp).removed := by
    have h1 := hswc o.orderId
    rw [hopp_o] at h1
    have h2 : (sweep o opp).removed.count o.orderId = 0 := by omega
    exact List.count_eq_zero.mp h2
  have hoppfact : ∀ pl ∈ opp, ∀ r ∈ pl.2,
      cntLs r.orderId own = 0 ∧ cntLs r.orderId opp = 1 ∧
        r.orderId ≠ o.orderId := by
    intro pl hpl r hr
    have h1 := (hopp pl hpl r hr).2.2
    have hr_mem : r ∈ idx := (lookupId_eq_some h1).2
    have h2 := hcnt r hr_mem
    have h3 : 0 < cntLs r.orderId opp :=
      lt_of_lt_of_le (cntLvl_pos_of_mem hr rfl) (cntLvl_le_cntLs hpl)
    refine ⟨by omega, by omega, fun hc => ?_⟩
    rw [hc, hopp_o] at h3
    exact absurd h3 (lt_irrefl 0)
  have hpartfact : ∀ pr, (sweep o opp).part = some pr →
      pr.orderId ≠ o.orderId ∧ pr.orderId ∉ (sweep o opp).removed ∧
        cntLs pr.orderId own = 0 := by
    intro pr hp
    obtain ⟨pq, lvl1, hlev, hprin, lvl0, r0, hlv0, hr0, hshr⟩ := sweep_part_mem hp
    have hof := hoppfact (pq, lvl0) hlv0 r0 hr0
    have hid : pr.orderId = r0.orderId := hshr.1
    refine ⟨by rw [hid]; exact hof.2.2, ?_, by rw [hid]; exact hof.1⟩
    have hpos : 0 < cntLs pr.orderId (sweep o opp).levels :=
      lt_of_lt_of_le (cntLvl_pos_of_mem hprin rfl) (cntLvl_le_cntLs hlev)
    have h1 := hswc pr.orderId
    rw [hid] at hpos h1 ⊢
    rw [hof.2.1] at h1
    have h2 : (sweep o opp).removed.count r0.orderId = 0 := by omega
    exact List.count_eq_zero.mp h2
  have hownfact : ∀ pl ∈ own, ∀ r ∈ pl.2,
      cntLs r.orderId own = 1 ∧ cntLs r.orderId opp = 0 ∧
      r.orderId ∉ (sweep o opp).removed ∧
      (∀ pr, (sweep o opp).part = some pr → r.orderId ≠ pr.orderId) := by
    intro pl hpl r hr
    have h1 := (hown pl hpl r hr).2.2
    have hr_mem : r ∈ idx := (lookupId_eq_some h1).2
    have h2 := hcnt r hr_mem
    have h3 : 0 < cntLs r.orderId own :=
      lt_of_lt_of_le (cntLvl_pos_of_mem hr rfl) (cntLvl_le_cntLs hpl)
    have hopp0 : cntLs r.orderId opp = 0 := by omega
    have hnrem : r.orderId ∉ (sweep o opp).removed := by
      have h4 := hswc r.orderId
      rw [hopp0] at h4
      have h5 : (sweep o opp).removed.count r.orderId = 0 := by omega
      exact List.count_eq_zero.mp h5
    refine ⟨by omega, hopp0, hnrem, ?_⟩
    intro pr hp hc
    obtain ⟨pq, lvl1, hlev, hprin, lvl0, r0, hlv0, hr0, hshr⟩ := sweep_part_mem hp
    have hof := hoppfact (pq, lvl0) hlv0 r0 hr0
    rw [hc, hshr.1, hof.2.1] at hopp0
    exact absurd hopp0 one_ne_zero
  have huniq_own : ∀ pl ∈ own, ∀ r ∈ pl.2, r.orderId = o.orderId → r = o := by
    intro pl hpl r hr hrid
    exact cntLs_unique hown_o hpl hr hrid hlvlO hoin rfl
  have hlook_keep : ∀ (j : ℕ), j ≠ o.orderId → j ∉ (sweep o opp).removed →
      (∀ pr, (sweep o opp).part = some pr → j ≠ pr.orderId) →
      lookupId (matchedIndex (sweep o opp) idx) j = lookupId idx j := by
    intro j h1 h2 h3
    exact lookupId_matchedIndex_other (by rw [hnid]; exact h1) h2 h3
  refine ⟨idsSorted_matchedIndex hids _, ?_, ?_, ?_, ?_, ?_, ?_⟩
  · intro x hx hxid
    rcases mem_matchedIndex hx with ⟨rfl, _⟩ | ⟨hp, hne, _⟩ | ⟨_, _, hne, _⟩
    · rfl
    · exact absurd (hxid.trans hnid.symm) hne
    · exact absurd (hxid.trans hnid.symm) hne
  · intro x hx hxid
    rcases mem_matchedIndex hx with ⟨rfl, _⟩ | ⟨hp, _, _⟩ | ⟨hmem, _, _, _⟩
    · exact absurd hnid hxid
    · obtain ⟨pq, lvl1, _, _, lvl0, r0, _, _, hshr⟩ := sweep_part_mem hp
      exact hshr.2.2.2.2.1
    · exact hq x hmem hxid
  · intro x hx
    rw [cntLs_updateInLevels]
    rcases mem_matchedIndex hx with ⟨rfl, _⟩ | ⟨hp, hne, _⟩ | ⟨hmem, hnr, hne, hnp⟩
    · have h1 := hswc (sweep o opp).next.orderId
      rw [hnid] at h1 ⊢
      rw [hopp_o] at h1
      rw [hown_o]
      omega
    · have hpf := hpartfact x hp
      obtain ⟨pq, lvl1, hlev, hprin, lvl0, r0, hlv0, hr0, hshr⟩ := sweep_part_mem hp
      have hof := hoppfact (pq, lvl0) hlv0 r0 hr0
      have h1 := hswc x.orderId
      have hc0 : (sweep o opp).removed.count x.orderId = 0 :=
        List.count_eq_zero.mpr hpf.2.1
      have hopp1 : cntLs x.orderId opp = 1 := by
        rw [hshr.1]
        exact hof.2.1
      rw [hpf.2.2]
      omega
    · have h2 := hcnt x hmem
      have h1 := hswc x.orderId
      have hc0 : (sweep o opp).removed.count x.orderId = 0 :=
        List.count_eq_zero.mpr hnr
      omega
  · intro x hx
    rcases mem_matchedIndex hx with ⟨rfl, _⟩ | ⟨hp, hne, _⟩ | ⟨hmem, hnr, hne, hnp⟩
    · constructor
      · intro _
        refine ⟨lvlO.map (fun z => if z.orderId = (sweep o opp).next.orderId
            then (sweep o opp).next else z), ?_, ?_⟩
        · apply List.mem_map.mpr
          refine ⟨(o.price, lvlO), hlvlO, ?_⟩
          rw [if_pos (show ((o.price, lvlO) : ℚ × List Order).1 =
            (sweep o opp).next.price by rw [hnprice]), hnprice]
        · apply List.mem_map.mpr
          refine ⟨o, hoin, ?_⟩
          rw [if_pos (show o.orderId = (sweep o opp).next.orderId by rw [hnid])]
      · intro hside
        exact absurd hnside hside
    · obtain ⟨pq, lvl1, hlev, hprin, lvl0, r0, hlv0, hr0, hshr⟩ := sweep_part_mem hp
      have hof := hopp (pq, lvl0) hlv0 r0 hr0
      constructor
      · intro hside
        exfalso
        apply hof.1
        rw [← hshr.2.1]
        exact hside
      · intro _
        refine ⟨lvl1, ?_, hprin⟩
        have hxp : x.price = pq := by
          rw [hshr.2.2.1]
          exact hof.2.1
        rw [hxp]
        exact hlev
    · have hpl := hplace x hmem
      constructor
      · intro hside
        obtain ⟨lvl1, hl1, hx1⟩ := hpl.1 hside
        by_cases hkey : x.price = o.price
        · refine ⟨lvl1.map (fun z => if z.orderId = (sweep o opp).next.orderId
              then (sweep o opp).next else z), ?_, ?_⟩
          · apply List.mem_map.mpr
            refine ⟨(x.price, lvl1), hl1, ?_⟩
            rw [if_pos (show ((x.price, lvl1) : ℚ × List Order).1 =
              (sweep o opp).next.price by rw [hnprice]; exact hkey)]
          · apply List.mem_map.mpr
            refine ⟨x, hx1, ?_⟩
            rw [if_neg hne]
        · refine ⟨lvl1, ?_, hx1⟩
          apply List.mem_map.mpr
          refine ⟨(x.price, lvl1), hl1, ?_⟩
          rw [if_neg (show ¬ ((x.price, lvl1) : ℚ × List Order).1 =
            (sweep o opp).next.price by rw [hnprice]; exact hkey)]
      · intro hside
        obtain ⟨lvl1, hl1, hx1⟩ := hpl.2 hside
        rcases sweep_orig_persist (x.price, lvl1) hl1 x hx1 with hrm |
          ⟨lvl2, hl2, hc2⟩
        · exact absurd hrm hnr
        · rcases hc2 with hx2 | ⟨x0, hp0, hid0, _⟩
          · exact ⟨lvl2, hl2, hx2⟩
          · exact absurd hid0.symm (hnp x0 hp0)
  · intro pl hpl r hr
    obtain ⟨pl0, hpl0, hkey, hcase⟩ := mem_updateInLevels hpl
    rcases hcase with ⟨rfl, hkne⟩ | ⟨hkeq, hmap⟩
    · have h1 := hown pl hpl0 r hr
      have hrne : r.orderId ≠ o.orderId := by
        intro hc
        have hro : r = o := huniq_own pl hpl0 r hr hc
        apply hkne
        rw [← h1.2.1, hro, hnprice]
      have hof := hownfact pl hpl0 r hr
      refine ⟨h1.1, h1.2.1, ?_⟩
      rw [hlook_keep r.orderId hrne hof.2.2.1 hof.2.2.2]
      exact h1.2.2
    · rw [hmap] at hr
      obtain ⟨z, hz, hzr⟩ := List.mem_map.mp hr
      have h1 := hown pl0 hpl0 z hz
      by_cases hcz : z.orderId = (sweep o opp).next.orderId
      · rw [if_pos hcz] at hzr
        have hzo : z = o := huniq_own pl0 hpl0 z hz (by rw [← hnid]; exact hcz)
        refine ⟨?_, ?_, ?_⟩
        · rw [← hzr]
          exact hnside
        · rw [← hzr, hnprice, hkey, ← h1.2.1, hzo]
        · rw [← hzr]
          apply lookupId_matchedIndex_next
          · rw [hnid]
            exact hlo
          · rw [hnid]
            exact hrem_o
          · intro pr hp
            rw [hnid]
            exact fun hc => (hpartfact pr hp).1 hc.symm
      · rw [if_neg hcz] at hzr
        subst hzr
        have hof := hownfact pl0 hpl0 z hz
        have hrne : z.orderId ≠ o.orderId := by
          rw [← hnid]
          exact hcz
        refine ⟨h1.1, ?_, ?_⟩
        · rw [h1.2.1, ← hkey]
        · rw [hlook_keep z.orderId hrne hof.2.2.1 hof.2.2.2]
          exact h1.2.2
  · intro pl hpl r hr
    obtain ⟨lvl0, hl0, hcase⟩ := sweep_orders_origin pl hpl r hr
    rcases hcase with hrin | ⟨hp, r0, hr0, hshr⟩
    · have h1 := hopp (pl.1, lvl0) hl0 r hrin
      have hof := hoppfact (pl.1, lvl0) hl0 r hrin
      have hpos : 0 < cntLs r.orderId (sweep o opp).levels :=
        lt_of_lt_of_le (cntLvl_pos_of_mem hr rfl) (cntLvl_le_cntLs hpl)
      have h2 := hswc r.orderId
      have hnr : r.orderId ∉ (sweep o opp).removed := by
        rw [hof.2.1] at h2
        have h3 : (sweep o opp).removed.count r.orderId = 0 := by omega
        exact List.count_eq_zero.mp h3
      refine ⟨h1.1, h1.2.1, ?_⟩
      by_cases hpp : ∃ pr, (sweep o opp).part = some pr ∧
          pr.orderId = r.orderId
      · obtain ⟨pr, hp2, hid2⟩ := hpp
        obtain ⟨pq2, lvl2, hl2, hpr2, _, r2, _, _, _⟩ := sweep_part_mem hp2
        have hlev1 : cntLs r.orderId (sweep o opp).levels = 1 := by
          rw [hof.2.1] at h2
          have h4 : (sweep o opp).removed.count r.orderId = 0 :=
            List.count_eq_zero.mpr hnr
          omega
        have hpr_eq : pr = r := cntLs_unique hlev1 hl2 hpr2 hid2 hpl hr rfl
        have hpres : lookupId idx pr.orderId = some r := by
          rw [hid2]
          exact h1.2.2
        have hnr2 : pr.orderId ∉ (sweep o opp).removed := by
          rw [hid2]
          exact hnr
        have hne2 : pr.orderId ≠ (sweep o opp).next.orderId := by
          rw [hid2, hnid]
          exact hof.2.2
        rw [← hpr_eq]
        exact lookupId_matchedIndex_part hp2 hpres hnr2 hne2
      · push_neg at hpp
        rw [hlook_keep r.orderId hof.2.2 hnr
          (fun pr hp2 => (hpp pr hp2).symm)]
        exact h1.2.2
    · have h1 := hopp (pl.1, lvl0) hl0 r0 hr0
      have hpf := hpartfact r hp
      refine ⟨?_, ?_, ?_⟩
      · rw [hshr.2.1]
        exact h1.1
      · rw [hshr.2.2.1]
        exact h1.2.1
      · have hpres : lookupId idx r.orderId = some r0 := by
          rw [hshr.1]
          exact h1.2.2
        have hne2 : r.orderId ≠ (sweep o opp).next.orderId := by
          rw [hnid]
          exact hpf.1
        exact lookupId_matchedIndex_part hp hpres hpf.2.1 hne2

/-- A positive ledger count exhibits a resting record with that id. -/
theorem cntLs_pos_exists {i : ℕ} {ls : List (ℚ × List Order)}
    (h : 0 < cntLs i ls) : ∃ pl ∈ ls, ∃ r ∈ pl.2, r.orderId = i := by
  induction ls with
  | nil => simp [cntLs] at h
  | cons pl rest ih =>
    rw [cntLs_cons] at h
    by_cases h1 : 0 < cntLvl i pl.2
    · obtain ⟨r, hr, hid⟩ := mem_of_cntLvl_pos h1
      exact ⟨pl, List.mem_cons_self _ _, r, hr, hid⟩
    · obtain ⟨pl2, hpl2, r, hr, hid⟩ := ih (by omega)
      exact ⟨pl2, List.mem_cons_of_mem _ hpl2, r, hr, hid⟩

/-- Removing the unique occurrence of an id from its level leaves no
record with that id anywhere in the ledger. -/
theorem remove_no_id {i : ℕ} {p : ℚ} {ls : List (ℚ × List Order)}
    {lvl : List Order} {x : Order}
    (hnd : (keysOf ls).Nodup) (h1 : cntLs i ls = 1)
    (hfl : (p, lvl) ∈ ls) (hx : x ∈ lvl) (hxid : x.orderId = i) :
    ∀ pl ∈ removeFromLevels i p ls, ∀ r ∈ pl.2, r.orderId ≠ i := by
  have hself := cntLs_removeFromLevels_self i p ls
  have hfind : findLevel p ls = some lvl := findLevel_of_mem hnd hfl
  rw [hfind] at hself
  have hlvl_pos : 0 < cntLvl i lvl := cntLvl_pos_of_mem hx hxid
  have hzero : cntLs i (removeFromLevels i p ls) = 0 := by
    simp only [Option.getD_some] at hself
    omega
  intro pl hpl r hr hrid
  have hgt : 0 < cntLs i (removeFromLevels i p ls) :=
    lt_of_lt_of_le (cntLvl_pos_of_mem hr hrid) (cntLvl_le_cntLs hpl)
  omega

theorem mem_eraseId {i : ℕ} {idx : List Order} {x : Order} :
    x ∈ eraseId i idx ↔ x ∈ idx ∧ x.orderId ≠ i := by
  unfold eraseId
  rw [List.mem_filter]
  simp

theorem idsSorted_eraseId {idx : List Order} (hs : idsSorted idx) (i : ℕ) :
    idsSorted (eraseId i idx) :=
  idsSorted_filter hs _

theorem keysOf_reverse (ls : List (ℚ × List Order)) :
    keysOf ls.reverse = (keysOf ls).reverse := by
  simp [keysOf]

/-- The full effect of `matchOrders` on the index and the aggressor-side
ledger, including the final removal of a fully consumed aggressor. -/
theorem matchCoreFinal
    (o : Order) (idx : List Order) (own opp : List (ℚ × List Order))
    (hndown : (keysOf own).Nodup)
    (hids : idsSorted idx)
    (hlo : lookupId idx o.orderId = some o)
    (hq : ∀ x ∈ idx, x.orderId ≠ o.orderId → 0 < x.quantity)
    (hcnt : ∀ x ∈ idx, cntLs x.orderId own + cntLs x.orderId opp = 1)
    (hown : ∀ pl ∈ own, ∀ r ∈ pl.2,
      r.side = o.side ∧ r.price = pl.1 ∧ lookupId idx r.orderId = some r)
    (hopp : ∀ pl ∈ opp, ∀ r ∈ pl.2,
      r.side ≠ o.side ∧ r.price = pl.1 ∧ lookupId idx r.orderId = some r)
    (hplace : ∀ x ∈ idx,
      (x.side = o.side → ∃ lvl1, (x.price, lvl1) ∈ own ∧ x ∈ lvl1) ∧
      (x.side ≠ o.side → ∃ lvl1, (x.price, lvl1) ∈ opp ∧ x ∈ lvl1))
    (hneown : ∀ pl ∈ own, pl.2 ≠ [])
    (idxF : List Order) (ownF : List (ℚ × List Order))
    (hidxF : idxF = if (sweep o opp).next.quantity = 0
      then eraseId o.orderId (matchedIndex (sweep o opp) idx)
      else matchedIndex (sweep o opp) idx)
    (hownF : ownF = if (sweep o opp).next.quantity = 0
      then removeFromLevels o.orderId o.price
        (updateInLevels (sweep o opp).next own)
      else updateInLevels (sweep o opp).next own) :
    idsSorted idxF ∧
    (∀ x ∈ idxF, 0 < x.quantity) ∧
    (∀ x ∈ idxF, cntLs x.orderId ownF + cntLs x.orderId (sweep o opp).levels = 1) ∧
    (∀ x ∈ idxF,
      (x.side = o.side → ∃ lvl1, (x.price, lvl1) ∈ ownF ∧ x ∈ lvl1) ∧
      (x.side ≠ o.side → ∃ lvl1, (x.price, lvl1) ∈ (sweep o opp).levels ∧ x ∈ lvl1)) ∧
    (∀ pl ∈ ownF, ∀ r ∈ pl.2,
      r.side = o.side ∧ r.price = pl.1 ∧ lookupId idxF r.orderId = some r) ∧
    (∀ pl ∈ (sweep o opp).levels, ∀ r ∈ pl.2,
      r.side ≠ o.side ∧ r.price = pl.1 ∧ lookupId idxF r.orderId = some r) ∧
    (∀ pl ∈ ownF, pl.2 ≠ []) ∧
    (keysOf ownF).Sublist (keysOf own) := by
  obtain ⟨ca, cb2, cb3, cc, cd, ce, cf⟩ :=
    matchCoreAux o idx own opp hids hlo hq hcnt hown hopp hplace
  obtain ⟨hnid, hnside, hnprice, hnts⟩ := sweep_next_fields o opp
  have ho_mem : o ∈ idx := (lookupId_eq_some hlo).2
  obtain ⟨lvlO, hlvlO, hoin⟩ := (hplace o ho_mem).1 rfl
  have hcnt_o := hcnt o ho_mem
  have hown_pos : 0 < cntLs o.orderId own :=
    lt_of_lt_of_le (cntLvl_pos_of_mem hoin rfl) (cntLvl_le_cntLs hlvlO)
  have hopp_o : cntLs o.orderId opp = 0 := by omega
  have hown_o : cntLs o.orderId own = 1 := by omega
  have hkeys_eq : keysOf (updateInLevels (sweep o opp).next own) = keysOf own :=
    keysOf_updateInLevels _ _
  have hown1_nodup : (keysOf (updateInLevels (sweep o opp).next own)).Nodup := by
    rw [hkeys_eq]
    exact hndown
  have hown1_ne : ∀ pl ∈ updateInLevels (sweep o opp).next own, pl.2 ≠ [] :=
    updateInLevels_nonempty hneown _
  have hlevels_no_oid : ∀ pl ∈ (sweep o opp).levels, ∀ r ∈ pl.2,
      r.orderId ≠ o.orderId := by
    intro pl hpl r hr hc
    have hpos : 0 < cntLs o.orderId (sweep o opp).levels :=
      lt_of_lt_of_le (cntLvl_pos_of_mem hr hc) (cntLvl_le_cntLs hpl)
    have h1 := sweep_cnt o opp o.orderId
    rw [hopp_o] at h1
    omega
  subst hidxF hownF
  by_cases hq0 : (sweep o opp).next.quantity = 0
  · simp only [if_pos hq0]
    have hcnt1 : cntLs o.orderId (updateInLevels (sweep o opp).next own) = 1 := by
      rw [cntLs_updateInLevels]
      exact hown_o
    have hmem1 : (o.price, lvlO.map (fun z =>
        if z.orderId = (sweep o opp).next.orderId then (sweep o opp).next else z)) ∈
        updateInLevels (sweep o opp).next own := by
      apply List.mem_map.mpr
      refine ⟨(o.price, lvlO), hlvlO, ?_⟩
      rw [if_pos (show ((o.price, lvlO) : ℚ × List Order).1 =
        (sweep o opp).next.price by rw [hnprice])]
    have hnext_in : (sweep o opp).next ∈ lvlO.map (fun z =>
        if z.orderId = (sweep o opp).next.orderId then (sweep o opp).next else z) := by
      apply List.mem_map.mpr
      refine ⟨o, hoin, ?_⟩
      rw [if_pos (show o.orderId = (sweep o opp).next.orderId by rw [hnid])]
    have hno : ∀ pl ∈ removeFromLevels o.orderId o.price
        (updateInLevels (sweep o opp).next own), ∀ r ∈ pl.2,
        r.orderId ≠ o.orderId :=
      remove_no_id hown1_nodup hcnt1 hmem1 hnext_in hnid
    refine ⟨idsSorted_eraseId ca _, ?_, ?_, ?_, ?_, ?_, ?_, ?_⟩
    · intro x hx
      obtain ⟨hx1, hx2⟩ := mem_eraseId.mp hx
      exact cb3 x hx1 hx2
    · intro x hx
      obtain ⟨hx1, hx2⟩ := mem_eraseId.mp hx
      rw [cntLs_removeFromLevels_ne hx2]
      exact cc x hx1
    · intro x hx
      obtain ⟨hx1, hx2⟩ := mem_eraseId.mp hx
      constructor
      · intro hside
        obtain ⟨lvl1, hl1, hin1⟩ := (cd x hx1).1 hside
        by_cases hkey : x.price = o.price
        · rw [hkey] at hl1 ⊢
          exact mem_removeFromLevels_self_key hown1_nodup hl1 hin1 hx2
        · exact ⟨lvl1, mem_removeFromLevels_of_ne_key _ hl1 hkey, hin1⟩
      · intro hside
        exact (cd x hx1).2 hside
    · intro pl hpl r hr
      have hrid : r.orderId ≠ o.orderId := hno pl hpl r hr
      rcases mem_removeFromLevels hpl with hpl1 | ⟨lvl0, hl0, hkeyp, hfil⟩
      · obtain ⟨h1, h2, h3⟩ := ce pl hpl1 r hr
        refine ⟨h1, h2, ?_⟩
        rw [lookupId_eraseId_ne _ hrid]
        exact h3
      · rw [hfil] at hr
        have hr0 : r ∈ lvl0 := (List.mem_filter.mp hr).1
        obtain ⟨h1, h2, h3⟩ := ce (pl.1, lvl0) hl0 r hr0
        refine ⟨h1, h2, ?_⟩
        rw [lookupId_eraseId_ne _ hrid]
        exact h3
    · intro pl hpl r hr
      obtain ⟨h1, h2, h3⟩ := cf pl hpl r hr
      refine ⟨h1, h2, ?_⟩
      rw [lookupId_eraseId_ne _ (hlevels_no_oid pl hpl r hr)]
      exact h3
    · exact removeFromLevels_nonempty hown1_ne _ _
    · have hsub := keysOf_removeFromLevels_sublist o.orderId o.price
        (updateInLevels (sweep o opp).next own)
      rw [hkeys_eq] at hsub
      exact hsub
  · simp only [if_neg hq0]
    refine ⟨ca, ?_, cc, cd, ce, cf, hown1_ne, ?_⟩
    · intro x hx
      by_cases hxid : x.orderId = o.orderId
      · have hxn : x = (sweep o opp).next := cb2 x hx hxid
        rw [hxn]
        exact Nat.pos_of_ne_zero hq0
      · exact cb3 x hx hxid
    · rw [hkeys_eq]

/-- Unfolding of `matchOrders` for a BUY aggressor. -/
theorem matchOrders_fst_buy (b : Book) (o : Order)
    (hside : o.side = OrderSide.BUY) :
    (b.matchOrders o).1 =
      ⟨(if (sweep o b.asks).next.quantity = 0
          then eraseId o.orderId (matchedIndex (sweep o b.asks) b.orders)
          else matchedIndex (sweep o b.asks) b.orders),
        (if (sweep o b.asks).next.quantity = 0
          then removeFromLevels o.orderId o.price
            (updateInLevels (sweep o b.asks).next b.bids)
          else updateInLevels (sweep o b.asks).next b.bids),
        (sweep o b.asks).levels⟩ := by
  obtain ⟨hnid, hnside, hnprice, _⟩ := sweep_next_fields o b.asks
  have hbf : b.bestFirstLevels o = b.asks := by
    unfold Book.bestFirstLevels
    rw [hside]
  have hns : (sweep o b.asks).next.side = OrderSide.BUY := by
    rw [hnside, hside]
  unfold Book.matchOrders Book.removeFromPriceLevel
  rw [hbf, hside]
  simp only [hns, hnid, hnprice]
  by_cases hq0 : (sweep o b.asks).next.quantity = 0
  · simp only [if_pos hq0]
  · simp only [if_neg hq0]

/-- Unfolding of `matchOrders` for a SELL aggressor. -/
theorem matchOrders_fst_sell (b : Book) (o : Order)
    (hside : o.side = OrderSide.SELL) :
    (b.matchOrders o).1 =
      ⟨(if (sweep o b.bids.reverse).next.quantity = 0
          then eraseId o.orderId (matchedIndex (sweep o b.bids.reverse) b.orders)
          else matchedIndex (sweep o b.bids.reverse) b.orders),
        (sweep o b.bids.reverse).levels.reverse,
        (if (sweep o b.bids.reverse).next.quantity = 0
          then removeFromLevels o.orderId o.price
            (updateInLevels (sweep o b.bids.reverse).next b.asks)
          else updateInLevels (sweep o b.bids.reverse).next b.asks)⟩ := by
  obtain ⟨hnid, hnside, hnprice, _⟩ := sweep_next_fields o b.bids.reverse
  have hbf : b.bestFirstLevels o = b.bids.reverse := by
    unfold Book.bestFirstLevels
    rw [hside]
  have hns : (sweep o b.bids.reverse).next.side = OrderSide.SELL := by
    rw [hnside, hside]
  unfold Book.matchOrders Book.removeFromPriceLevel
  rw [hbf, hside]
  simp only [hns, hnid, hnprice]
  by_cases hq0 : (sweep o b.bids.reverse).next.quantity = 0
  · simp only [if_pos hq0]
  · simp only [if_neg hq0]

/-- The matching phase restores full well-formedness from the pre-match
state in which the freshly placed aggressor may have any quantity. -/
theorem matchOrders_WF {b : Book} {o : Order} (h : PreMatch b o) :
    WF (b.matchOrders o).1 := by
  obtain ⟨hkb, hka, hneb, hnea, hids, hmain, hbrec, harec, hlo⟩ := h
  cases hside : o.side with
  | BUY =>
    have hownH : ∀ pl ∈ b.bids, ∀ r ∈ pl.2,
        r.side = o.side ∧ r.price = pl.1 ∧ lookupId b.orders r.orderId = some r := by
      intro pl hpl r hr
      obtain ⟨h1, h2, h3⟩ := hbrec pl hpl r hr
      exact ⟨by rw [h1, hside], h2, h3⟩
    have hoppH : ∀ pl ∈ b.asks, ∀ r ∈ pl.2,
        r.side ≠ o.side ∧ r.price = pl.1 ∧ lookupId b.orders r.orderId = some r := by
      intro pl hpl r hr
      obtain ⟨h1, h2, h3⟩ := harec pl hpl r hr
      refine ⟨?_, h2, h3⟩
      rw [h1, hside]
      exact fun hc => OrderSide.noConfusion hc
    have hplaceH : ∀ x ∈ b.orders,
        (x.side = o.side → ∃ lvl1, (x.price, lvl1) ∈ b.bids ∧ x ∈ lvl1) ∧
        (x.side ≠ o.side → ∃ lvl1, (x.price, lvl1) ∈ b.asks ∧ x ∈ lvl1) := by
      intro x hx
      have hil : x ∈ (findLevel x.price (b.sideLevels x.side)).getD [] :=
        (hmain x hx).1
      constructor
      · intro hxs
        have hxb : x.side = OrderSide.BUY := by rw [hxs, hside]
        rw [hxb] at hil
        have hil2 : x ∈ (findLevel x.price b.bids).getD [] := hil
        cases hf : findLevel x.price b.bids with
        | none =>
          rw [hf] at hil2
          simp at hil2
        | some lvl =>
          rw [hf] at hil2
          exact ⟨lvl, findLevel_mem hf, by simpa using hil2⟩
      · intro hxs
        have hxa : x.side = OrderSide.SELL := by
          cases hcs : x.side
          · rw [hside] at hxs
            exact absurd hcs hxs
          · rfl
        rw [hxa] at hil
        have hil2 : x ∈ (findLevel x.price b.asks).getD [] := hil
        cases hf : findLevel x.price b.asks with
        | none =>
          rw [hf] at hil2
          simp at hil2
        | some lvl =>
          rw [hf] at hil2
          exact ⟨lvl, findLevel_mem hf, by simpa using hil2⟩
    obtain ⟨w1, w2, w3, w4, w5, w6, w7, w8⟩ := matchCoreFinal o b.orders b.bids
      b.asks (keysSorted_nodup hkb) hids hlo
      (fun x hx => (hmain x hx).2.2)
      (fun x hx => (hmain x hx).2.1)
      hownH hoppH hplaceH hneb _ _ rfl rfl
    rw [matchOrders_fst_buy b o hside]
    have hndF : (keysOf (if (sweep o b.asks).next.quantity = 0
        then removeFromLevels o.orderId o.price
          (updateInLevels (sweep o b.asks).next b.bids)
        else updateInLevels (sweep o b.asks).next b.bids)).Nodup :=
      List.Nodup.sublist w8 (keysSorted_nodup hkb)
    have hndL : (keysOf (sweep o b.asks).levels).Nodup :=
      keysSorted_nodup (sweep_keysSorted hka o)
    refine ⟨List.Pairwise.sublist w8 hkb, sweep_keysSorted hka o, w7,
      sweep_nonempty hnea o, w1, ?_, ?_, ?_⟩
    · intro x hx
      refine ⟨?_, w3 x hx, w2 x hx⟩
      have hplF := w4 x hx
      unfold inItsLevel
      cases hcs : x.side with
      | BUY =>
        obtain ⟨lvl1, hm, hin⟩ := hplF.1 (by rw [hcs, hside])
        have hfind := findLevel_of_mem hndF hm
        show x ∈ (findLevel x.price (if (sweep o b.asks).next.quantity = 0
          then removeFromLevels o.orderId o.price
            (updateInLevels (sweep o b.asks).next b.bids)
          else updateInLevels (sweep o b.asks).next b.bids)).getD []
        rw [hfind]
        exact hin
      | SELL =>
        obtain ⟨lvl1, hm, hin⟩ := hplF.2 (by
          rw [hcs, hside]
          exact fun hc => OrderSide.noConfusion hc)
        have hfind := findLevel_of_mem hndL hm
        show x ∈ (findLevel x.price (sweep o b.asks).levels).getD []
        rw [hfind]
        exact hin
    · intro pl hpl r hr
      obtain ⟨h1, h2, h3⟩ := w5 pl hpl r hr
      exact ⟨by rw [h1]; exact hside, h2, h3⟩
    · intro pl hpl r hr
      obtain ⟨h1, h2, h3⟩ := w6 pl hpl r hr
      refine ⟨?_, h2, h3⟩
      cases hcs : r.side
      · exfalso
        apply h1
        rw [hcs, hside]
      · rfl
  | SELL =>
    have hownH : ∀ pl ∈ b.asks, ∀ r ∈ pl.2,
        r.side = o.side ∧ r.price = pl.1 ∧ lookupId b.orders r.orderId = some r := by
      intro pl hpl r hr
      obtain ⟨h1, h2, h3⟩ := harec pl hpl r hr
      exact ⟨by rw [h1, hside], h2, h3⟩
    have hoppH : ∀ pl ∈ b.bids.reverse, ∀ r ∈ pl.2,
        r.side ≠ o.side ∧ r.price = pl.1 ∧ lookupId b.orders r.orderId = some r := by
      intro pl hpl r hr
      obtain ⟨h1, h2, h3⟩ := hbrec pl (List.mem_reverse.mp hpl) r hr
      refine ⟨?_, h2, h3⟩
      rw [h1, hside]
      exact fun hc => OrderSide.noConfusion hc
    have hcntH : ∀ x ∈ b.orders,
        cntLs x.orderId b.asks + cntLs x.orderId b.bids.reverse = 1 := by
      intro x hx
      have h1 : cntLs x.orderId b.bids + cntLs x.orderId b.asks = 1 :=
        (hmain x hx).2.1
      rw [cntLs_reverse]
      omega
    have hplaceH : ∀ x ∈ b.orders,
        (x.side = o.side → ∃ lvl1, (x.price, lvl1) ∈ b.asks ∧ x ∈ lvl1) ∧
        (x.side ≠ o.side → ∃ lvl1, (x.price, lvl1) ∈ b.bids.reverse ∧ x ∈ lvl1) := by
      intro x hx
      have hil : x ∈ (findLevel x.price (b.sideLevels x.side)).getD [] :=
        (hmain x hx).1
      constructor
      · intro hxs
        have hxa : x.side = OrderSide.SELL := by rw [hxs, hside]
        rw [hxa] at hil
        have hil2 : x ∈ (findLevel x.price b.asks).getD [] := hil
        cases hf : findLevel x.price b.asks with
        | none =>
          rw [hf] at hil2
          simp at hil2
        | some lvl =>
          rw [hf] at hil2
          exact ⟨lvl, findLevel_mem hf, by simpa using hil2⟩
      · intro hxs
        have hxb : x.side = OrderSide.BUY := by
          cases hcs : x.side
          · rfl
          · rw [hside] at hxs
            exact absurd hcs hxs
        rw [hxb] at hil
        have hil2 : x ∈ (findLevel x.price b.bids).getD [] := hil
        cases hf : findLevel x.price b.bids with
        | none =>
          rw [hf] at hil2
          simp at hil2
        | some lvl =>
          rw [hf] at hil2
          exact ⟨lvl, List.mem_reverse.mpr (findLevel_mem hf),
            by simpa using hil2⟩
    obtain ⟨w1, w2, w3, w4, w5, w6, w7, w8⟩ := matchCoreFinal o b.orders b.asks
      b.bids.reverse (keysSorted_nodup hka) hids hlo
      (fun x hx => (hmain x hx).2.2) hcntH hownH hoppH hplaceH hnea _ _ rfl rfl
    rw [matchOrders_fst_sell b o hside]
    obtain ⟨n, hn⟩ := sweep_keys_drop o b.bids.reverse
    have hsubB : (keysOf (sweep o b.bids.reverse).levels.reverse).Sublist
        (keysOf b.bids) := by
      rw [keysOf_reverse, hn, keysOf_reverse]
      have h1 := (List.drop_sublist n ((keysOf b.bids).reverse)).reverse
      rwa [List.reverse_reverse] at h1
    have hkbF : keysSorted (sweep o b.bids.reverse).levels.reverse :=
      List.Pairwise.sublist hsubB hkb
    have hndB : (keysOf (sweep o b.bids.reverse).levels.reverse).Nodup :=
      keysSorted_nodup hkbF
    have hndF : (keysOf (if (sweep o b.bids.reverse).next.quantity = 0
        then removeFromLevels o.orderId o.price
          (updateInLevels (sweep o b.bids.reverse).next b.asks)
        else updateInLevels (sweep o b.bids.reverse).next b.asks)).Nodup :=
      List.Nodup.sublist w8 (keysSorted_nodup hka)
    refine ⟨hkbF, List.Pairwise.sublist w8 hka, ?_, w7, w1, ?_, ?_, ?_⟩
    · intro pl hpl
      exact sweep_nonempty (fun q hq2 => hneb q (List.mem_reverse.mp hq2)) o pl
        (List.mem_reverse.mp hpl)
    · intro x hx
      refine ⟨?_, ?_, w2 x hx⟩
      · have hplF := w4 x hx
        unfold inItsLevel
        cases hcs : x.side with
        | BUY =>
          obtain ⟨lvl1, hm, hin⟩ := hplF.2 (by
            rw [hcs, hside]
            exact fun hc => OrderSide.noConfusion hc)
          have hm2 : (x.price, lvl1) ∈ (sweep o b.bids.reverse).levels.reverse :=
            List.mem_reverse.mpr hm
          have hfind := findLevel_of_mem hndB hm2
          show x ∈ (findLevel x.price
            (sweep o b.bids.reverse).levels.reverse).getD []
          rw [hfind]
          exact hin
        | SELL =>
          obtain ⟨lvl1, hm, hin⟩ := hplF.1 (by rw [hcs, hside])
          have hfind := findLevel_of_mem hndF hm
          show x ∈ (findLevel x.price
            (if (sweep o b.bids.reverse).next.quantity = 0
              then removeFromLevels o.orderId o.price
                (updateInLevels (sweep o b.bids.reverse).next b.asks)
              else updateInLevels (sweep o b.bids.reverse).next b.asks)).getD []
          rw [hfind]
          exact hin
      · have h1 := w3 x hx
        have h2 : cntLs x.orderId (sweep o b.bids.reverse).levels.reverse =
            cntLs x.orderId (sweep o b.bids.reverse).levels := cntLs_reverse _ _
        show cntLs x.orderId (sweep o b.bids.reverse).levels.reverse +
          cntLs x.orderId (if (sweep o b.bids.reverse).next.quantity = 0
            then removeFromLevels o.orderId o.price
              (updateInLevels (sweep o b.bids.reverse).next b.asks)
            else updateInLevels (sweep o b.bids.reverse).next b.asks) = 1
        omega
    · intro pl hpl r hr
      obtain ⟨h1, h2, h3⟩ := w6 pl (List.mem_reverse.mp hpl) r hr
      refine ⟨?_, h2, h3⟩
      cases hcs : r.side
      · rfl
      · exfalso
        apply h1
        rw [hcs, hside]
    · intro pl hpl r hr
      obtain ⟨h1, h2, h3⟩ := w5 pl hpl r hr
      exact ⟨by rw [h1]; exact hside, h2, h3⟩

/-! ### Well-formedness of every public operation -/

theorem WF_empty : WF Book.empty := by
  refine ⟨?_, ?_, ?_, ?_, ?_, ?_, ?_, ?_⟩ <;>
    simp [Book.empty, keysSorted, keysOf, idsSorted]

/-- After the index insertion and level placement of a fresh order,
`addOrder` hands `matchOrders` a pre-match state. -/
theorem addOrder_PreMatch {b : Book} {o : Order} (hwf : WF b)
    (hfresh : lookupId b.orders o.orderId = none) :
    PreMatch (({ b with orders := insertById o b.orders } : Book).addToPriceLevel o) o := by
  obtain ⟨hkb, hka, hneb, hnea, hids, hmain, hbrec, harec⟩ := hwf
  have hfresh_all : ∀ y ∈ b.orders, y.orderId ≠ o.orderId := by
    intro y hy
    have h1 := List.find?_eq_none.mp hfresh y hy
    simpa using h1
  have hcnt_bids : cntLs o.orderId b.bids = 0 := by
    by_contra hc
    obtain ⟨pl, hpl, r, hr, hrid⟩ := cntLs_pos_exists (Nat.pos_of_ne_zero hc)
    have h3 := (hbrec pl hpl r hr).2.2
    rw [hrid, hfresh] at h3
    exact Option.noConfusion h3
  have hcnt_asks : cntLs o.orderId b.asks = 0 := by
    by_contra hc
    obtain ⟨pl, hpl, r, hr, hrid⟩ := cntLs_pos_exists (Nat.pos_of_ne_zero hc)
    have h3 := (harec pl hpl r hr).2.2
    rw [hrid, hfresh] at h3
    exact Option.noConfusion h3
  have hlo2 : lookupId (insertById o b.orders) o.orderId = some o :=
    lookupId_insertById_self hfresh
  have hrec_ne : ∀ (r : Order), lookupId b.orders r.orderId = some r →
      r.orderId ≠ o.orderId := by
    intro r h1 hc
    rw [hc, hfresh] at h1
    exact Option.noConfusion h1
  cases hside : o.side with
  | BUY =>
    have hb2 : ({ b with orders := insertById o b.orders } : Book).addToPriceLevel o =
        ⟨insertById o b.orders, addToLevels o b.bids, b.asks⟩ := by
      unfold Book.addToPriceLevel
      rw [hside]
    rw [hb2]
    refine ⟨keysSorted_addToLevels hkb o, hka, addToLevels_nonempty hneb o, hnea,
      idsSorted_insertById hids hfresh_all, ?_, ?_, ?_, hlo2⟩
    · intro x hx
      rcases mem_insertById.mp hx with rfl | hxold
      · refine ⟨?_, ?_, fun hc => absurd rfl hc⟩
        · unfold inItsLevel
          rw [hside]
          show x ∈ (findLevel x.price (addToLevels x b.bids)).getD []
          rw [findLevel_addToLevels_self hkb x]
          exact mem_insertByTimestamp.mpr (Or.inl rfl)
        · show cntLs x.orderId (addToLevels x b.bids) + cntLs x.orderId b.asks = 1
          rw [cntLs_addToLevels, if_pos rfl, hcnt_bids, hcnt_asks]
      · have hm := hmain x hxold
        have hxne : x.orderId ≠ o.orderId := hfresh_all x hxold
        refine ⟨?_, ?_, fun _ => hm.2.2⟩
        · have hil : x ∈ (findLevel x.price (b.sideLevels x.side)).getD [] := hm.1
          unfold inItsLevel
          cases hcs : x.side with
          | BUY =>
            rw [hcs] at hil
            have hil2 : x ∈ (findLevel x.price b.bids).getD [] := hil
            show x ∈ (findLevel x.price (addToLevels o b.bids)).getD []
            by_cases hkey : x.price = o.price
            · rw [hkey, findLevel_addToLevels_self hkb o]
              refine mem_insertByTimestamp.mpr (Or.inr ?_)
              rw [← hkey]
              exact hil2
            · rw [findLevel_addToLevels_ne o b.bids hkey]
              exact hil2
          | SELL =>
            rw [hcs] at hil
            exact hil
        · show cntLs x.orderId (addToLevels o b.bids) + cntLs x.orderId b.asks = 1
          rw [cntLs_addToLevels, if_neg (fun hc => hxne hc.symm)]
          have h2 : cntLs x.orderId b.bids + cntLs x.orderId b.asks = 1 := hm.2.1
          omega
    · intro pl hpl r hr
      rcases mem_addToLevels hpl with hold | hnew | ⟨lvl0, hl0, hnew⟩
      · obtain ⟨h1, h2, h3⟩ := hbrec pl hold r hr
        exact ⟨h1, h2, by rw [lookupId_insertById_ne (hrec_ne r h3)]; exact h3⟩
      · rw [hnew] at hr ⊢
        have hro : r = o := by simpa using hr
        subst hro
        exact ⟨hside, rfl, hlo2⟩
      · rw [hnew] at hr ⊢
        rcases mem_insertByTimestamp.mp hr with rfl | hrold
        · exact ⟨hside, rfl, hlo2⟩
        · obtain ⟨h1, h2, h3⟩ := hbrec (o.price, lvl0) hl0 r hrold
          exact ⟨h1, h2, by rw [lookupId_insertById_ne (hrec_ne r h3)]; exact h3⟩
    · intro pl hpl r hr
      obtain ⟨h1, h2, h3⟩ := harec pl hpl r hr
      exact ⟨h1, h2, by rw [lookupId_insertById_ne (hrec_ne r h3)]; exact h3⟩
  | SELL =>
    have hb2 : ({ b with orders := insertById o b.orders } : Book).addToPriceLevel o =
        ⟨insertById o b.orders, b.bids, addToLevels o b.asks⟩ := by
      unfold Book.addToPriceLevel
      rw [hside]
    rw [hb2]
    refine ⟨hkb, keysSorted_addToLevels hka o, hneb, addToLevels_nonempty hnea o,
      idsSorted_insertById hids hfresh_all, ?_, ?_, ?_, hlo2⟩
    · intro x hx
      rcases mem_insertById.mp hx with rfl | hxold
      · refine ⟨?_, ?_, fun hc => absurd rfl hc⟩
        · unfold inItsLevel
          rw [hside]
          show x ∈ (findLevel x.price (addToLevels x b.asks)).getD []
          rw [findLevel_addToLevels_self hka x]
          exact mem_insertByTimestamp.mpr (Or.inl rfl)
        · show cntLs x.orderId b.bids + cntLs x.orderId (addToLevels x b.asks) = 1
          rw [cntLs_addToLevels, if_pos rfl, hcnt_bids, hcnt_asks]
      · have hm := hmain x hxold
        have hxne : x.orderId ≠ o.orderId := hfresh_all x hxold
        refine ⟨?_, ?_, fun _ => hm.2.2⟩
        · have hil : x ∈ (findLevel x.price (b.sideLevels x.side)).getD [] := hm.1
          unfold inItsLevel
          cases hcs : x.side with
          | BUY =>
            rw [hcs] at hil
            exact hil
          | SELL =>
            rw [hcs] at hil
            have hil2 : x ∈ (findLevel x.price b.asks).getD [] := hil
            show x ∈ (findLevel x.price (addToLevels o b.asks)).getD []
            by_cases hkey : x.price = o.price
            · rw [hkey, findLevel_addToLevels_self hka o]
              refine mem_insertByTimestamp.mpr (Or.inr ?_)
              rw [← hkey]
              exact hil2
            · rw [findLevel_addToLevels_ne o b.asks hkey]
              exact hil2
        · show cntLs x.orderId b.bids + cntLs x.orderId (addToLevels o b.asks) = 1
          rw [cntLs_addToLevels, if_neg (fun hc => hxne hc.symm)]
          have h2 : cntLs x.orderId b.bids + cntLs x.orderId b.asks = 1 := hm.2.1
          omega
    · intro pl hpl r hr
      obtain ⟨h1, h2, h3⟩ := hbrec pl hpl r hr
      exact ⟨h1, h2, by rw [lookupId_insertById_ne (hrec_ne r h3)]; exact h3⟩
    · intro pl hpl r hr
      rcases mem_addToLevels hpl with hold | hnew | ⟨lvl0, hl0, hnew⟩
      · obtain ⟨h1, h2, h3⟩ := harec pl hold r hr
        exact ⟨h1, h2, by rw [lookupId_insertById_ne (hrec_ne r h3)]; exact h3⟩
      · rw [hnew] at hr ⊢
        have hro : r = o := by simpa using hr
        subst hro
        exact ⟨hside, rfl, hlo2⟩
      · rw [hnew] at hr ⊢
        rcases mem_insertByTimestamp.mp hr with rfl | hrold
        · exact ⟨hside, rfl, hlo2⟩
        · obtain ⟨h1, h2, h3⟩ := harec (o.price, lvl0) hl0 r hrold
          exact ⟨h1, h2, by rw [lookupId_insertById_ne (hrec_ne r h3)]; exact h3⟩

theorem addOrder_WF {b : Book} {o? : Option Order} (hwf : WF b) :
    WF (b.addOrder o?).2.1 := by
  match o? with
  | none => exact hwf
  | some o =>
    by_cases h1 : o.quantity = 0
    · simp only [Book.addOrder, if_pos h1]
      exact hwf
    · by_cases h2 : (lookupId b.orders o.orderId).isSome
      · simp only [Book.addOrder, if_neg h1, if_pos h2]
        exact hwf
      · have hfresh : lookupId b.orders o.orderId = none := by
          cases hl : lookupId b.orders o.orderId
          · rfl
          · rw [hl] at h2
            simp at h2
        simp only [Book.addOrder, if_neg h1, if_neg h2]
        exact matchOrders_WF (addOrder_PreMatch hwf hfresh)

theorem cancelOrder_WF {b : Book} {id : ℕ} (hwf : WF b) :
    WF (b.cancelOrder id).2 := by
  obtain ⟨hkb, hka, hneb, hnea, hids, hmain, hbrec, harec⟩ := hwf
  cases hl : lookupId b.orders id with
  | none =>
    simp only [Book.cancelOrder, hl]
    exact ⟨hkb, hka, hneb, hnea, hids, hmain, hbrec, harec⟩
  | some ord =>
    obtain ⟨hoid, hord_mem⟩ := lookupId_eq_some hl
    have hm := hmain ord hord_mem
    have hil : ord ∈ (findLevel ord.price (b.sideLevels ord.side)).getD [] := hm.1
    simp only [Book.cancelOrder, hl]
    cases hos : ord.side with
    | BUY =>
      have hb2 : ({ b.removeFromPriceLevel ord with
          orders := eraseId id (b.removeFromPriceLevel ord).orders } : Book) =
          ⟨eraseId id b.orders, removeFromLevels ord.orderId ord.price b.bids,
            b.asks⟩ := by
        unfold Book.removeFromPriceLevel
        rw [hos]
      rw [hb2]
      have hilb : ord ∈ (findLevel ord.price b.bids).getD [] := by
        rw [hos] at hil
        exact hil
      have hlvlOx : ∃ lvlO, findLevel ord.price b.bids = some lvlO ∧ ord ∈ lvlO := by
        cases hfO : findLevel ord.price b.bids with
        | none =>
          rw [hfO] at hilb
          simp at hilb
        | some lvl =>
          rw [hfO] at hilb
          exact ⟨lvl, rfl, by simpa using hilb⟩
      obtain ⟨lvlO, hfO, hoin⟩ := hlvlOx
      have hlvlO_mem : (ord.price, lvlO) ∈ b.bids := findLevel_mem hfO
      have hcnt2 : cntLs ord.orderId b.bids + cntLs ord.orderId b.asks = 1 := hm.2.1
      have hbpos : 0 < cntLs ord.orderId b.bids :=
        lt_of_lt_of_le (cntLvl_pos_of_mem hoin rfl) (cntLvl_le_cntLs hlvlO_mem)
      have hb1 : cntLs ord.orderId b.bids = 1 := by omega
      have hno : ∀ pl ∈ removeFromLevels ord.orderId ord.price b.bids,
          ∀ r ∈ pl.2, r.orderId ≠ ord.orderId :=
        remove_no_id (keysSorted_nodup hkb) hb1 hlvlO_mem hoin rfl
      have hasks_ne : ∀ pl ∈ b.asks, ∀ r ∈ pl.2, r.orderId ≠ ord.orderId := by
        intro pl hpl r hr hc
        have h3 := (harec pl hpl r hr).2.2
        rw [hc, hoid, hl] at h3
        have h4 : ord = r := Option.some.inj h3
        have h5 := (harec pl hpl r hr).1
        rw [← h4, hos] at h5
        exact OrderSide.noConfusion h5
      refine ⟨keysSorted_removeFromLevels hkb ord.orderId ord.price, hka,
        removeFromLevels_nonempty hneb ord.orderId ord.price, hnea,
        idsSorted_eraseId hids id, ?_, ?_, ?_⟩
      · intro x hx
        obtain ⟨hxold, hxne⟩ := mem_eraseId.mp hx
        have hxm := hmain x hxold
        have hxneo : x.orderId ≠ ord.orderId := by
          rw [hoid]
          exact hxne
        refine ⟨?_, ?_, hxm.2.2⟩
        · have hil2 : x ∈ (findLevel x.price (b.sideLevels x.side)).getD [] :=
            hxm.1
          unfold inItsLevel
          cases hcs : x.side with
          | BUY =>
            rw [hcs] at hil2
            have hil3 : x ∈ (findLevel x.price b.bids).getD [] := hil2
            show x ∈ (findLevel x.price
              (removeFromLevels ord.orderId ord.price b.bids)).getD []
            by_cases hkey : x.price = ord.price
            · rw [hkey,
                findLevel_removeFromLevels_self ord.orderId (keysSorted_nodup hkb),
                hfO]
              rw [hkey, hfO] at hil3
              have hil4 : x ∈ lvlO := by simpa using hil3
              have hxf : x ∈ lvlO.filter (fun y => y.orderId ≠ ord.orderId) :=
                List.mem_filter.mpr ⟨hil4, by simpa using hxneo⟩
              have hne_f : ¬ (lvlO.filter
                  (fun y => y.orderId ≠ ord.orderId)).isEmpty = true := by
                intro hc
                rw [List.isEmpty_iff.mp hc] at hxf
                simp at hxf
              show x ∈ (if (lvlO.filter (fun y => y.orderId ≠ ord.orderId)).isEmpty
                then none
                else some (lvlO.filter (fun y => y.orderId ≠ ord.orderId))).getD []
              rw [if_neg hne_f]
              exact hxf
            · rw [findLevel_removeFromLevels_ne ord.orderId b.bids hkey]
              exact hil3
          | SELL =>
            rw [hcs] at hil2
            exact hil2
        · show cntLs x.orderId (removeFromLevels ord.orderId ord.price b.bids) +
            cntLs x.orderId b.asks = 1
          rw [cntLs_removeFromLevels_ne hxneo]
          exact hxm.2.1
      · intro pl hpl r hr
        rcases mem_removeFromLevels hpl with hold | ⟨lvl0, hlv0, hkeyp, hfil⟩
        · obtain ⟨h1, h2, h3⟩ := hbrec pl hold r hr
          refine ⟨h1, h2, ?_⟩
          rw [lookupId_eraseId_ne _ (by rw [← hoid]; exact hno pl hpl r hr)]
          exact h3
        · have hrne := hno pl hpl r hr
          rw [hfil] at hr
          have hr0 : r ∈ lvl0 := (List.mem_filter.mp hr).1
          obtain ⟨h1, h2, h3⟩ := hbrec (pl.1, lvl0) hlv0 r hr0
          refine ⟨h1, h2, ?_⟩
          rw [lookupId_eraseId_ne _ (by rw [← hoid]; exact hrne)]
          exact h3
      · intro pl hpl r hr
        obtain ⟨h1, h2, h3⟩ := harec pl hpl r hr
        refine ⟨h1, h2, ?_⟩
        rw [lookupId_eraseId_ne _ (by rw [← hoid]; exact hasks_ne pl hpl r hr)]
        exact h3
    | SELL =>
      have hb2 : ({ b.removeFromPriceLevel ord with
          orders := eraseId id (b.removeFromPriceLevel ord).orders } : Book) =
          ⟨eraseId id b.orders, b.bids,
            removeFromLevels ord.orderId ord.price b.asks⟩ := by
        unfold Book.removeFromPriceLevel
        rw [hos]
      rw [hb2]
      have hila : ord ∈ (findLevel ord.price b.asks).getD [] := by
        rw [hos] at hil
        exact hil
      have hlvlOx : ∃ lvlO, findLevel ord.price b.asks = some lvlO ∧ ord ∈ lvlO := by
        cases hfO : findLevel ord.price b.asks with
        | none =>
          rw [hfO] at hila
          simp at hila
        | some lvl =>
          rw [hfO] at hila
          exact ⟨lvl, rfl, by simpa using hila⟩
      obtain ⟨lvlO, hfO, hoin⟩ := hlvlOx
      have hlvlO_mem : (ord.price, lvlO) ∈ b.asks := findLevel_mem hfO
      have hcnt2 : cntLs ord.orderId b.bids + cntLs ord.orderId b.asks = 1 := hm.2.1
      have hapos : 0 < cntLs ord.orderId b.asks :=
        lt_of_lt_of_le (cntLvl_pos_of_mem hoin rfl) (cntLvl_le_cntLs hlvlO_mem)
      have ha1 : cntLs ord.orderId b.asks = 1 := by omega
      have hno : ∀ pl ∈ removeFromLevels ord.orderId ord.price b.asks,
          ∀ r ∈ pl.2, r.orderId ≠ ord.orderId :=
        remove_no_id (keysSorted_nodup hka) ha1 hlvlO_mem hoin rfl
      have hbids_ne : ∀ pl ∈ b.bids, ∀ r ∈ pl.2, r.orderId ≠ ord.orderId := by
        intro pl hpl r hr hc
        have h3 := (hbrec pl hpl r hr).2.2
        rw [hc, hoid, hl] at h3
        have h4 : ord = r := Option.some.inj h3
        have h5 := (hbrec pl hpl r hr).1
        rw [← h4, hos] at h5
        exact OrderSide.noConfusion h5
      refine ⟨hkb, keysSorted_removeFromLevels hka ord.orderId ord.price,
        hneb, removeFromLevels_nonempty hnea ord.orderId ord.price,
        idsSorted_eraseId hids id, ?_, ?_, ?_⟩
      · intro x hx
        obtain ⟨hxold, hxne⟩ := mem_eraseId.mp hx
        have hxm := hmain x hxold
        have hxneo : x.orderId ≠ ord.orderId := by
          rw [hoid]
          exact hxne
        refine ⟨?_, ?_, hxm.2.2⟩
        · have hil2 : x ∈ (findLevel x.price (b.sideLevels x.side)).getD [] :=
            hxm.1
          unfold inItsLevel
          cases hcs : x.side with
          | BUY =>
            rw [hcs] at hil2
            exact hil2
          | SELL =>
            rw [hcs] at hil2
            have hil3 : x ∈ (findLevel x.price b.asks).getD [] := hil2
            show x ∈ (findLevel x.price
              (removeFromLevels ord.orderId ord.price b.asks)).getD []
            by_cases hkey : x.price = ord.price
            · rw [hkey,
                findLevel_removeFromLevels_self ord.orderId (keysSorted_nodup hka),
                hfO]
              rw [hkey, hfO] at hil3
              have hil4 : x ∈ lvlO := by simpa using hil3
              have hxf : x ∈ lvlO.filter (fun y => y.orderId ≠ ord.orderId) :=
                List.mem_filter.mpr ⟨hil4, by simpa using hxneo⟩
              have hne_f : ¬ (lvlO.filter
                  (fun y => y.orderId ≠ ord.orderId)).isEmpty = true := by
                intro hc
                rw [List.isEmpty_iff.mp hc] at hxf
                simp at hxf
              show x ∈ (if (lvlO.filter (fun y => y.orderId ≠ ord.orderId)).isEmpty
                then none
                else some (lvlO.filter (fun y => y.orderId ≠ ord.orderId))).getD []
              rw [if_neg hne_f]
              exact hxf
            · rw [findLevel_removeFromLevels_ne ord.orderId b.asks hkey]
              exact hil3
        · show cntLs x.orderId b.bids +
            cntLs x.orderId (removeFromLevels ord.orderId ord.price b.asks) = 1
          rw [cntLs_removeFromLevels_ne hxneo]
          exact hxm.2.1
      · intro pl hpl r hr
        obtain ⟨h1, h2, h3⟩ := hbrec pl hpl r hr
        refine ⟨h1, h2, ?_⟩
        rw [lookupId_eraseId_ne _ (by rw [← hoid]; exact hbids_ne pl hpl r hr)]
        exact h3
      · intro pl hpl r hr
        rcases mem_removeFromLevels hpl with hold | ⟨lvl0, hlv0, hkeyp, hfil⟩
        · obtain ⟨h1, h2, h3⟩ := harec pl hold r hr
          refine ⟨h1, h2, ?_⟩
          rw [lookupId_eraseId_ne _ (by rw [← hoid]; exact hno pl hpl r hr)]
          exact h3
        · have hrne := hno pl hpl r hr
          rw [hfil] at hr
          have hr0 : r ∈ lvl0 := (List.mem_filter.mp hr).1
          obtain ⟨h1, h2, h3⟩ := harec (pl.1, lvl0) hlv0 r hr0
          refine ⟨h1, h2, ?_⟩
          rw [lookupId_eraseId_ne _ (by rw [← hoid]; exact hrne)]
          exact h3

/-- After removal from the old level, the in-place mutation and the
reinsertion, `modifyOrder` hands `matchOrders` a pre-match state. -/
theorem modifyOrder_PreMatch {b : Book} {id : ℕ} {ord : Order}
    (hwf : WF b) (hl : lookupId b.orders id = some ord)
    (newPrice : ℚ) (newQuantity now : ℕ) :
    PreMatch
      (({ b.removeFromPriceLevel ord with
        orders := updateById
          { ord with price := newPrice, quantity := newQuantity, timestamp := now }
          (b.removeFromPriceLevel ord).orders } : Book).addToPriceLevel
        { ord with price := newPrice, quantity := newQuantity, timestamp := now })
      { ord with price := newPrice, quantity := newQuantity, timestamp := now } := by
  obtain ⟨hkb, hka, hneb, hnea, hids, hmain, hbrec, harec⟩ := hwf
  set o2 : Order :=
    { ord with price := newPrice, quantity := newQuantity, timestamp := now }
    with ho2
  have ho2side : o2.side = ord.side := rfl
  have ho2id : o2.orderId = ord.orderId := rfl
  obtain ⟨hoid, hord_mem⟩ := lookupId_eq_some hl
  have hm := hmain ord hord_mem
  have hil : ord ∈ (findLevel ord.price (b.sideLevels ord.side)).getD [] := hm.1
  have hcnt2 : cntLs ord.orderId b.bids + cntLs ord.orderId b.asks = 1 := hm.2.1
  have hlo2 : lookupId b.orders o2.orderId = some ord := by
    rw [ho2id, hoid]
    exact hl
  have hlo3 : lookupId (updateById o2 b.orders) o2.orderId = some o2 :=
    lookupId_updateById_self hlo2
  cases hos : ord.side with
  | BUY =>
    have ho2s : o2.side = OrderSide.BUY := by
      rw [ho2side]
      exact hos
    have hb1eq : b.removeFromPriceLevel ord =
        ⟨b.orders, removeFromLevels ord.orderId ord.price b.bids, b.asks⟩ := by
      unfold Book.removeFromPriceLevel
      rw [hos]
    have hb3eq : (({ b.removeFromPriceLevel ord with
        orders := updateById o2 (b.removeFromPriceLevel ord).orders } : Book).addToPriceLevel o2) =
        ⟨updateById o2 b.orders,
          addToLevels o2 (removeFromLevels ord.orderId ord.price b.bids),
          b.asks⟩ := by
      rw [hb1eq]
      unfold Book.addToPriceLevel
      rw [ho2s]
    rw [hb3eq]
    have hilb : ord ∈ (findLevel ord.price b.bids).getD [] := by
      rw [hos] at hil
      exact hil
    have hlvlOx : ∃ lvlO, findLevel ord.price b.bids = some lvlO ∧ ord ∈ lvlO := by
      cases hfO : findLevel ord.price b.bids with
      | none =>
        rw [hfO] at hilb
        simp at hilb
      | some lvl =>
        rw [hfO] at hilb
        exact ⟨lvl, rfl, by simpa using hilb⟩
    obtain ⟨lvlO, hfO, hoin⟩ := hlvlOx
    have hlvlO_mem : (ord.price, lvlO) ∈ b.bids := findLevel_mem hfO
    have hbpos : 0 < cntLs ord.orderId b.bids :=
      lt_of_lt_of_le (cntLvl_pos_of_mem hoin rfl) (cntLvl_le_cntLs hlvlO_mem)
    have hb1 : cntLs ord.orderId b.bids = 1 := by omega
    have ha0 : cntLs ord.orderId b.asks = 0 := by omega
    have hno : ∀ pl ∈ removeFromLevels ord.orderId ord.price b.bids,
        ∀ r ∈ pl.2, r.orderId ≠ ord.orderId :=
      remove_no_id (keysSorted_nodup hkb) hb1 hlvlO_mem hoin rfl
    have hcnt00 : cntLs ord.orderId
        (removeFromLevels ord.orderId ord.price b.bids) = 0 := by
      have hs := cntLs_removeFromLevels_self ord.orderId ord.price b.bids
      rw [hfO] at hs
      have hlp : 0 < cntLvl ord.orderId lvlO := cntLvl_pos_of_mem hoin rfl
      simp only [Option.getD_some] at hs
      omega
    have hasks_ne : ∀ pl ∈ b.asks, ∀ r ∈ pl.2, r.orderId ≠ ord.orderId := by
      intro pl hpl r hr hc
      have h3 := (harec pl hpl r hr).2.2
      rw [hc, hoid, hl] at h3
      have h4 : ord = r := Option.some.inj h3
      have h5 := (harec pl hpl r hr).1
      rw [← h4, hos] at h5
      exact OrderSide.noConfusion h5
    have hrec0 : ∀ pl ∈ removeFromLevels ord.orderId ord.price b.bids,
        ∀ r ∈ pl.2, r.side = OrderSide.BUY ∧ r.price = pl.1 ∧
        lookupId b.orders r.orderId = some r := by
      intro pl hpl r hr
      rcases mem_removeFromLevels hpl with hold | ⟨lvl0, hlv0, hkeyp, hfil⟩
      · exact hbrec pl hold r hr
      · have hr0 : r ∈ lvl0 := by
          rw [hfil] at hr
          exact (List.mem_filter.mp hr).1
        obtain ⟨h1, h2, h3⟩ := hbrec (pl.1, lvl0) hlv0 r hr0
        exact ⟨h1, h2, h3⟩
    have hks0 : keysSorted (removeFromLevels ord.orderId ord.price b.bids) :=
      keysSorted_removeFromLevels hkb ord.orderId ord.price
    refine ⟨keysSorted_addToLevels hks0 o2, hka,
      addToLevels_nonempty
        (removeFromLevels_nonempty hneb ord.orderId ord.price) o2, hnea,
      idsSorted_updateById hids o2, ?_, ?_, ?_, hlo3⟩
    · intro x hx
      rcases mem_updateById hx with ⟨rfl, y, hy, hyid⟩ | ⟨hxold, hxne⟩
      · refine ⟨?_, ?_, fun hc => absurd rfl hc⟩
        · unfold inItsLevel
          rw [ho2s]
          show o2 ∈ (findLevel o2.price (addToLevels o2
            (removeFromLevels ord.orderId ord.price b.bids))).getD []
          rw [findLevel_addToLevels_self hks0 o2]
          exact mem_insertByTimestamp.mpr (Or.inl rfl)
        · show cntLs o2.orderId (addToLevels o2
            (removeFromLevels ord.orderId ord.price b.bids)) +
            cntLs o2.orderId b.asks = 1
          rw [cntLs_addToLevels, if_pos rfl, ho2id, hcnt00, ha0]
      · have hm2 := hmain x hxold
        have hxne2 : x.orderId ≠ ord.orderId := by
          rw [← ho2id]
          exact hxne
        refine ⟨?_, ?_, fun _ => hm2.2.2⟩
        · have hil2 : x ∈ (findLevel x.price (b.sideLevels x.side)).getD [] :=
            hm2.1
          unfold inItsLevel
          cases hcs : x.side with
          | BUY =>
            rw [hcs] at hil2
            have hil3 : x ∈ (findLevel x.price b.bids).getD [] := hil2
            show x ∈ (findLevel x.price (addToLevels o2
              (removeFromLevels ord.orderId ord.price b.bids))).getD []
            have hstep1 : x ∈ (findLevel x.price
                (removeFromLevels ord.orderId ord.price b.bids)).getD [] := by
              by_cases hkey : x.price = ord.price
              · rw [hkey, findLevel_removeFromLevels_self ord.orderId
                  (keysSorted_nodup hkb), hfO]
                rw [hkey, hfO] at hil3
                have hil4 : x ∈ lvlO := by simpa using hil3
                have hxf : x ∈ lvlO.filter (fun y => y.orderId ≠ ord.orderId) :=
                  List.mem_filter.mpr ⟨hil4, by simpa using hxne2⟩
                have hne_f : ¬ (lvlO.filter
                    (fun y => y.orderId ≠ ord.orderId)).isEmpty = true := by
                  intro hc
                  rw [List.isEmpty_iff.mp hc] at hxf
                  simp at hxf
                show x ∈ (if (lvlO.filter
                    (fun y => y.orderId ≠ ord.orderId)).isEmpty
                  then none
                  else some (lvlO.filter
                    (fun y => y.orderId ≠ ord.orderId))).getD []
                rw [if_neg hne_f]
                exact hxf
              · rw [findLevel_removeFromLevels_ne ord.orderId b.bids hkey]
                exact hil3
            by_cases hkey2 : x.price = o2.price
            · rw [hkey2, findLevel_addToLevels_self hks0 o2]
              refine mem_insertByTimestamp.mpr (Or.inr ?_)
              rw [← hkey2]
              exact hstep1
            · rw [findLevel_addToLevels_ne o2
                (removeFromLevels ord.orderId ord.price b.bids) hkey2]
              exact hstep1
          | SELL =>
            rw [hcs] at hil2
            exact hil2
        · show cntLs x.orderId (addToLevels o2
            (removeFromLevels ord.orderId ord.price b.bids)) +
            cntLs x.orderId b.asks = 1
          rw [cntLs_addToLevels, if_neg (fun hc => hxne hc.symm),
            cntLs_removeFromLevels_ne hxne2]
          exact hm2.2.1
    · intro pl hpl r hr
      rcases mem_addToLevels hpl with hold | hnew | ⟨lvl0, hl0, hnew⟩
      · obtain ⟨h1, h2, h3⟩ := hrec0 pl hold r hr
        have hrne : r.orderId ≠ o2.orderId := by
          rw [ho2id]
          exact hno pl hold r hr
        exact ⟨h1, h2, by rw [lookupId_updateById_ne hrne]; exact h3⟩
      · rw [hnew] at hr ⊢
        have hro : r = o2 := by simpa using hr
        subst hro
        exact ⟨ho2s, rfl, hlo3⟩
      · rw [hnew] at hr ⊢
        rcases mem_insertByTimestamp.mp hr with rfl | hrold
        · exact ⟨ho2s, rfl, hlo3⟩
        · obtain ⟨h1, h2, h3⟩ := hrec0 (o2.price, lvl0) hl0 r hrold
          have hrne : r.orderId ≠ o2.orderId := by
            rw [ho2id]
            exact hno (o2.price, lvl0) hl0 r hrold
          exact ⟨h1, h2, by rw [lookupId_updateById_ne hrne]; exact h3⟩
    · intro pl hpl r hr
      obtain ⟨h1, h2, h3⟩ := harec pl hpl r hr
      have hrne : r.orderId ≠ o2.orderId := by
        rw [ho2id]
        exact hasks_ne pl hpl r hr
      exact ⟨h1, h2, by rw [lookupId_updateById_ne hrne]; exact h3⟩
  | SELL =>
    have ho2s : o2.side = OrderSide.SELL := by
      rw [ho2side]
      exact hos
    have hb1eq : b.removeFromPriceLevel ord =
        ⟨b.orders, b.bids, removeFromLevels ord.orderId ord.price b.asks⟩ := by
      unfold Book.removeFromPriceLevel
      rw [hos]
    have hb3eq : (({ b.removeFromPriceLevel ord with
        orders := updateById o2 (b.removeFromPriceLevel ord).orders } : Book).addToPriceLevel o2) =
        ⟨updateById o2 b.orders, b.bids,
          addToLevels o2 (removeFromLevels ord.orderId ord.price b.asks)⟩ := by
      rw [hb1eq]
      unfold Book.addToPriceLevel
      rw [ho2s]
    rw [hb3eq]
    have hila : ord ∈ (findLevel ord.price b.asks).getD [] := by
      rw [hos] at hil
      exact hil
    have hlvlOx : ∃ lvlO, findLevel ord.price b.asks = some lvlO ∧ ord ∈ lvlO := by
      cases hfO : findLevel ord.price b.asks with
      | none =>
        rw [hfO] at hila
        simp at hila
      | some lvl =>
        rw [hfO] at hila
        exact ⟨lvl, rfl, by simpa using hila⟩
    obtain ⟨lvlO, hfO, hoin⟩ := hlvlOx
    have hlvlO_mem : (ord.price, lvlO) ∈ b.asks := findLevel_mem hfO
    have hapos : 0 < cntLs ord.orderId b.asks :=
      lt_of_lt_of_le (cntLvl_pos_of_mem hoin rfl) (cntLvl_le_cntLs hlvlO_mem)
    have ha1 : cntLs ord.orderId b.asks = 1 := by omega
    have hb0 : cntLs ord.orderId b.bids = 0 := by omega
    have hno : ∀ pl ∈ removeFromLevels ord.orderId ord.price b.asks,
        ∀ r ∈ pl.2, r.orderId ≠ ord.orderId :=
      remove_no_id (keysSorted_nodup hka) ha1 hlvlO_mem hoin rfl
    have hcnt00 : cntLs ord.orderId
        (removeFromLevels ord.orderId ord.price b.asks) = 0 := by
      have hs := cntLs_removeFromLevels_self ord.orderId ord.price b.asks
      rw [hfO] at hs
      have hlp : 0 < cntLvl ord.orderId lvlO := cntLvl_pos_of_mem hoin rfl
      simp only [Option.getD_some] at hs
      omega
    have hbids_ne : ∀ pl ∈ b.bids, ∀ r ∈ pl.2, r.orderId ≠ ord.orderId := by
      intro pl hpl r hr hc
      have h3 := (hbrec pl hpl r hr).2.2
      rw [hc, hoid, hl] at h3
      have h4 : ord = r := Option.some.inj h3
      have h5 := (hbrec pl hpl r hr).1
      rw [← h4, hos] at h5
      exact OrderSide.noConfusion h5
    have hrec0 : ∀ pl ∈ removeFromLevels ord.orderId ord.price b.asks,
        ∀ r ∈ pl.2, r.side = OrderSide.SELL ∧ r.price = pl.1 ∧
        lookupId b.orders r.orderId = some r := by
      intro pl hpl r hr
      rcases mem_removeFromLevels hpl with hold | ⟨lvl0, hlv0, hkeyp, hfil⟩
      · exact harec pl hold r hr
      · have hr0 : r ∈ lvl0 := by
          rw [hfil] at hr
          exact (List.mem_filter.mp hr).1
        obtain ⟨h1, h2, h3⟩ := harec (pl.1, lvl0) hlv0 r hr0
        exact ⟨h1, h2, h3⟩
    have hks0 : keysSorted (removeFromLevels ord.orderId ord.price b.asks) :=
      keysSorted_removeFromLevels hka ord.orderId ord.price
    refine ⟨hkb, keysSorted_addToLevels hks0 o2, hneb,
      addToLevels_nonempty
        (removeFromLevels_nonempty hnea ord.orderId ord.price) o2,
      idsSorted_updateById hids o2, ?_, ?_, ?_, hlo3⟩
    · intro x hx
      rcases mem_updateById hx with ⟨rfl, y, hy, hyid⟩ | ⟨hxold, hxne⟩
      · refine ⟨?_, ?_, fun hc => absurd rfl hc⟩
        · unfold inItsLevel
          rw [ho2s]
          show o2 ∈ (findLevel o2.price (addToLevels o2
            (removeFromLevels ord.orderId ord.price b.asks))).getD []
          rw [findLevel_addToLevels_self hks0 o2]
          exact mem_insertByTimestamp.mpr (Or.inl rfl)
        · show cntLs o2.orderId b.bids + cntLs o2.orderId (addToLevels o2
            (removeFromLevels ord.orderId ord.price b.asks)) = 1
          rw [cntLs_addToLevels, if_pos rfl, ho2id, hcnt00, hb0]
      · have hm2 := hmain x hxold
        have hxne2 : x.orderId ≠ ord.orderId := by
          rw [← ho2id]
          exact hxne
        refine ⟨?_, ?_, fun _ => hm2.2.2⟩
        · have hil2 : x ∈ (findLevel x.price (b.sideLevels x.side)).getD [] :=
            hm2.1
          unfold inItsLevel
          cases hcs : x.side with
          | BUY =>
            rw [hcs] at hil2
            exact hil2
          | SELL =>
            rw [hcs] at hil2
            have hil3 : x ∈ (findLevel x.price b.asks).getD [] := hil2
            show x ∈ (findLevel x.price (addToLevels o2
              (removeFromLevels ord.orderId ord.price b.asks))).getD []
            have hstep1 : x ∈ (findLevel x.price
                (removeFromLevels ord.orderId ord.price b.asks)).getD [] := by
              by_cases hkey : x.price = ord.price
              · rw [hkey, findLevel_removeFromLevels_self ord.orderId
                  (keysSorted_nodup hka), hfO]
                rw [hkey, hfO] at hil3
                have hil4 : x ∈ lvlO := by simpa using hil3
                have hxf : x ∈ lvlO.filter (fun y => y.orderId ≠ ord.orderId) :=
                  List.mem_filter.mpr ⟨hil4, by simpa using hxne2⟩
                have hne_f : ¬ (lvlO.filter
                    (fun y => y.orderId ≠ ord.orderId)).isEmpty = true := by
                  intro hc
                  rw [List.isEmpty_iff.mp hc] at hxf
                  simp at hxf
                show x ∈ (if (lvlO.filter
                    (fun y => y.orderId ≠ ord.orderId)).isEmpty
                  then none
                  else some (lvlO.filter
                    (fun y => y.orderId ≠ ord.orderId))).getD []
                rw [if_neg hne_f]
                exact hxf
              · rw [findLevel_removeFromLevels_ne ord.orderId b.asks hkey]
                exact hil3
            by_cases hkey2 : x.price = o2.price
            · rw [hkey2, findLevel_addToLevels_self hks0 o2]
              refine mem_insertByTimestamp.mpr (Or.inr ?_)
              rw [← hkey2]
              exact hstep1
            · rw [findLevel_addToLevels_ne o2
                (removeFromLevels ord.orderId ord.price b.asks) hkey2]
              exact hstep1
        · show cntLs x.orderId b.bids + cntLs x.orderId (addToLevels o2
            (removeFromLevels ord.orderId ord.price b.asks)) = 1
          rw [cntLs_addToLevels, if_neg (fun hc => hxne hc.symm),
            cntLs_removeFromLevels_ne hxne2]
          exact hm2.2.1
    · intro pl hpl r hr
      obtain ⟨h1, h2, h3⟩ := hbrec pl hpl r hr
      have hrne : r.orderId ≠ o2.orderId := by
        rw [ho2id]
        exact hbids_ne pl hpl r hr
      exact ⟨h1, h2, by rw [lookupId_updateById_ne hrne]; exact h3⟩
    · intro pl hpl r hr
      rcases mem_addToLevels hpl with hold | hnew | ⟨lvl0, hl0, hnew⟩
      · obtain ⟨h1, h2, h3⟩ := hrec0 pl hold r hr
        have hrne : r.orderId ≠ o2.orderId := by
          rw [ho2id]
          exact hno pl hold r hr
        exact ⟨h1, h2, by rw [lookupId_updateById_ne hrne]; exact h3⟩
      · rw [hnew] at hr ⊢
        have hro : r = o2 := by simpa using hr
        subst hro
        exact ⟨ho2s, rfl, hlo3⟩
      · rw [hnew] at hr ⊢
        rcases mem_insertByTimestamp.mp hr with rfl | hrold
        · exact ⟨ho2s, rfl, hlo3⟩
        · obtain ⟨h1, h2, h3⟩ := hrec0 (o2.price, lvl0) hl0 r hrold
          have hrne : r.orderId ≠ o2.orderId := by
            rw [ho2id]
            exact hno (o2.price, lvl0) hl0 r hrold
          exact ⟨h1, h2, by rw [lookupId_updateById_ne hrne]; exact h3⟩

theorem modifyOrder_WF {b : Book} {id : ℕ} {newPrice : ℚ}
    {newQuantity now : ℕ} (hwf : WF b) :
    WF (b.modifyOrder id newPrice newQuantity now).2.1 := by
  cases hl : lookupId b.orders id with
  | none =>
    simp only [Book.modifyOrder, hl]
    exact hwf
  | some ord =>
    simp only [Book.modifyOrder, hl]
    exact matchOrders_WF (modifyOrder_PreMatch hwf hl newPrice newQuantity now)

theorem clear_WF (b : Book) : WF b.clear :=
  WF_empty

theorem applyOp_WF {b : Book} (hwf : WF b) (op : Op) : WF (b.applyOp op) := by
  cases op with
  | add o? => exact addOrder_WF hwf
  | cancel id => exact cancelOrder_WF hwf
  | modify id p q now => exact modifyOrder_WF hwf
  | clear => exact clear_WF b

theorem foldl_applyOp_WF (l : List Op) :
    ∀ b : Book, WF b → WF (l.foldl Book.applyOp b) := by
  induction l with
  | nil =>
    intro b hb
    exact hb
  | cons op rest ih =>
    intro b hb
    exact ih _ (applyOp_WF hb op)

theorem runOps_WF (ops : List Op) : WF (runOps ops) :=
  foldl_applyOp_WF ops Book.empty WF_empty

theorem WF_ClaimInv {b : Book} (h : WF b) : ClaimInv b := by
  obtain ⟨hkb, hka, hneb, hnea, hids, hmain, hbrec, harec⟩ := h
  refine ⟨hneb, hnea, fun x hx => ⟨(hmain x hx).1, (hmain x hx).2.1⟩,
    fun x hx => (hmain x hx).2.2, ?_, ?_⟩
  · intro pl hpl r hr
    have h3 := (hbrec pl hpl r hr).2.2
    have hr_mem : r ∈ b.orders := (lookupId_eq_some h3).2
    exact (hmain r hr_mem).2.2
  · intro pl hpl r hr
    have h3 := (harec pl hpl r hr).2.2
    have hr_mem : r ∈ b.orders := (lookupId_eq_some h3).2
    exact (hmain r hr_mem).2.2

/-- C5: every public call (`addOrder`, `cancelOrder`, `modifyOrder`, `clear`)
preserves the well-formedness invariant `WF`, and consequently every book
reachable from the empty book satisfies the stated invariant: no price level
is ever empty, every indexed order rests in exactly one price level, on the
ledger of its own side and keyed exactly by its current price, and every
resting order (indexed or in a level) has a strictly positive quantity, so a
fully consumed order is never left dangling. -/
theorem operations_preserve_invariant :
    (∀ (b : Book) (op : Op), WF b → WF (b.applyOp op)) ∧
    (∀ ops : List Op, ClaimInv (runOps ops)) :=
  ⟨fun _ op hwf => applyOp_WF hwf op,
   fun ops => WF_ClaimInv (runOps_WF ops)⟩

/-- Witness for C5 at a concrete book and operation. -/
theorem operations_preserve_invariant_witness :
    WF (runOps [Op.add (some ⟨1, OrderSide.BUY, 99, 10, 1⟩)]) ∧
    WF ((runOps [Op.add (some ⟨1, OrderSide.BUY, 99, 10, 1⟩)]).applyOp
      (Op.add (some ⟨2, OrderSide.SELL, 101, 5, 2⟩))) ∧
    ClaimInv (runOps [Op.add (some ⟨1, OrderSide.BUY, 99, 10, 1⟩),
      Op.add (some ⟨2, OrderSide.SELL, 101, 5, 2⟩)]) :=
  ⟨by decide,
   operations_preserve_invariant.1 _ (Op.add (some ⟨2, OrderSide.SELL, 101, 5, 2⟩))
     (by decide),
   operations_preserve_invariant.2 _⟩

/-! ### The spread is never negative (C6) -/

theorem crosses_false_buy {o : Order} {p : ℚ} (hside : o.side = OrderSide.BUY)
    (h : crosses o p = false) : o.price < p := by
  unfold crosses at h
  rw [hside] at h
  simpa using h

theorem crosses_false_sell {o : Order} {p : ℚ} (hside : o.side = OrderSide.SELL)
    (h : crosses o p = false) : p < o.price := by
  unfold crosses at h
  rw [hside] at h
  simpa using h

theorem sorted_gt_head?_max {l : List ℚ} (h : l.Pairwise (· > ·)) {p : ℚ}
    (hp : l.head? = some p) : ∀ q ∈ l, q ≤ p := by
  cases l with
  | nil => simp at hp
  | cons x xs =>
    simp only [List.head?_cons, Option.some.injEq] at hp
    subst hp
    intro q hq
    rcases List.mem_cons.mp hq with rfl | h2
    · exact le_refl q
    · exact le_of_lt ((List.pairwise_cons.mp h).1 q h2)

theorem mem_keysOf {p : ℚ} {ls : List (ℚ × List Order)} (h : p ∈ keysOf ls) :
    ∃ lvl, (p, lvl) ∈ ls := by
  unfold keysOf at h
  obtain ⟨pl, hpl, hfst⟩ := List.mem_map.mp h
  refine ⟨pl.2, ?_⟩
  rw [← hfst]
  exact hpl

/-- A level keyed by the aggressor price that still holds a record with a
different id after the writeback must have existed before the aggressor was
placed. -/
theorem aggressor_level_origin {B0 : List (ℚ × List Order)} {o nx : Order}
    {lvl0 : List Order} {r : Order}
    (hnxid : nx.orderId = o.orderId)
    (hl0 : (o.price, lvl0) ∈ updateInLevels nx (addToLevels o B0))
    (hrin : r ∈ lvl0) (hrne : r.orderId ≠ o.orderId) :
    o.price ∈ keysOf B0 := by
  obtain ⟨pl0, hpl0, hkey0, hcase0⟩ := mem_updateInLevels hl0
  have hrin0 : r ∈ pl0.2 := by
    rcases hcase0 with ⟨heq, _⟩ | ⟨_, hmap⟩
    · rw [← heq]
      exact hrin
    · have hmap2 : lvl0 = pl0.2.map (fun x =>
          if x.orderId = nx.orderId then nx else x) := hmap
      rw [hmap2] at hrin
      obtain ⟨z, hz, hzr⟩ := List.mem_map.mp hrin
      by_cases hcz : z.orderId = nx.orderId
      · rw [if_pos hcz] at hzr
        exfalso
        apply hrne
        rw [← hzr]
        exact hnxid
      · rw [if_neg hcz] at hzr
        rw [← hzr]
        exact hz
  have hkey0b : pl0.1 = o.price := by
    rw [← hkey0]
  rcases mem_addToLevels hpl0 with holdB | hnewB | ⟨lvl1, hl1, hnewB⟩
  · have hm : pl0.1 ∈ keysOf B0 := List.mem_map_of_mem Prod.fst holdB
    rw [hkey0b] at hm
    exact hm
  · exfalso
    apply hrne
    rw [hnewB] at hrin0
    have hro : r = o := by simpa using hrin0
    rw [hro]
  · rw [hnewB] at hrin0
    rcases mem_insertByTimestamp.mp hrin0 with rfl | hrold1
    · exact absurd rfl hrne
    · exact List.mem_map_of_mem Prod.fst hl1

/-- After a BUY aggressor is placed into the bid ledger and matched, the
book still has no crossing resting prices. -/
theorem matchOrders_NoCross_buy {B0 A0 : List (ℚ × List Order)}
    {idx : List Order} {o : Order} (hside : o.side = OrderSide.BUY)
    (hpre : PreMatch ⟨idx, addToLevels o B0, A0⟩ o)
    (hka : keysSorted A0)
    (hnc : ∀ pb ∈ keysOf B0, ∀ pa ∈ keysOf A0, pb ≤ pa) :
    NoCross ((⟨idx, addToLevels o B0, A0⟩ : Book).matchOrders o).1 := by
  have hwfF := matchOrders_WF hpre
  rw [matchOrders_fst_buy _ o hside] at hwfF ⊢
  dsimp only at hwfF ⊢
  have hnxid : (sweep o A0).next.orderId = o.orderId := (sweep_next_fields o A0).1
  by_cases hq0 : (sweep o A0).next.quantity = 0
  · simp only [if_pos hq0] at hwfF ⊢
    obtain ⟨hkbF, hkaF, hnebF, hneaF, hidsF, hmainF, hbrecF, harecF⟩ := hwfF
    intro pb hpb pa hpa
    have hpaA0 : pa ∈ keysOf A0 := sweep_keys_sub o pa hpa
    have hpb2 : pb ∈ keysOf (addToLevels o B0) := by
      have h2 := (keysOf_removeFromLevels_sublist o.orderId o.price
        (updateInLevels (sweep o A0).next (addToLevels o B0))).subset hpb
      rw [keysOf_updateInLevels] at h2
      exact h2
    rcases (keysOf_addToLevels_mem o B0).mp hpb2 with hpbo | hpbold
    · subst hpbo
      obtain ⟨lvl, hlvl⟩ := mem_keysOf hpb
      have hlvlne := hnebF (o.price, lvl) hlvl
      obtain ⟨r, hr⟩ := List.exists_mem_of_ne_nil lvl hlvlne
      have hrec := hbrecF (o.price, lvl) hlvl r hr
      have hrne : r.orderId ≠ o.orderId := by
        intro hc
        have h4 := hrec.2.2
        rw [hc, lookupId_eraseId_self] at h4
        exact Option.noConfusion h4
      rcases mem_removeFromLevels hlvl with hA | ⟨lvl0, hl0, hkeyp, hfil⟩
      · exact hnc o.price (aggressor_level_origin hnxid hA hr hrne) pa hpaA0
      · have hl0b : (o.price, lvl0) ∈
            updateInLevels (sweep o A0).next (addToLevels o B0) := hl0
        have hfil2 : lvl = lvl0.filter (fun x => x.orderId ≠ o.orderId) := hfil
        rw [hfil2] at hr
        have hr0 : r ∈ lvl0 := (List.mem_filter.mp hr).1
        exact hnc o.price (aggressor_level_origin hnxid hl0b hr0 hrne) pa hpaA0
    · exact hnc pb hpbold pa hpaA0
  · simp only [if_neg hq0] at hwfF ⊢
    obtain ⟨hkbF, hkaF, hnebF, hneaF, hidsF, hmainF, hbrecF, harecF⟩ := hwfF
    intro pb hpb pa hpa
    have hpaA0 : pa ∈ keysOf A0 := sweep_keys_sub o pa hpa
    have hpb2 : pb ∈ keysOf (addToLevels o B0) := by
      rw [keysOf_updateInLevels] at hpb
      exact hpb
    rcases (keysOf_addToLevels_mem o B0).mp hpb2 with hpbo | hpbold
    · rcases sweep_stop hq0 with hnil | ⟨pq, lvl1, rest1, hlev, hcr⟩
      · rw [hnil] at hpa
        simp [keysOf] at hpa
      · have hlt : o.price < pq := crosses_false_buy hside hcr
        have hhead : (keysOf (sweep o A0).levels).head? = some pq := by
          rw [hlev]
          rfl
        have hmin := sorted_head?_min (sweep_keysSorted hka o) hhead
        have hge : pq ≤ pa := hmin.2 pa hpa
        rw [hpbo]
        exact le_trans (le_of_lt hlt) hge
    · exact hnc pb hpbold pa hpaA0

/-- After a SELL aggressor is placed into the ask ledger and matched, the
book still has no crossing resting prices. -/
theorem matchOrders_NoCross_sell {A0 Bb : List (ℚ × List Order)}
    {idx : List Order} {o : Order} (hside : o.side = OrderSide.SELL)
    (hpre : PreMatch ⟨idx, Bb, addToLevels o A0⟩ o)
    (hkb : keysSorted Bb)
    (hnc : ∀ pb ∈ keysOf Bb, ∀ pa ∈ keysOf A0, pb ≤ pa) :
    NoCross ((⟨idx, Bb, addToLevels o A0⟩ : Book).matchOrders o).1 := by
  have hwfF := matchOrders_WF hpre
  rw [matchOrders_fst_sell _ o hside] at hwfF ⊢
  dsimp only at hwfF ⊢
  have hnxid : (sweep o Bb.reverse).next.orderId = o.orderId :=
    (sweep_next_fields o Bb.reverse).1
  have hpbold : ∀ pb ∈ keysOf (sweep o Bb.reverse).levels.reverse,
      pb ∈ keysOf Bb := by
    intro pb hpb
    rw [keysOf_reverse] at hpb
    have h1 : pb ∈ keysOf (sweep o Bb.reverse).levels := List.mem_reverse.mp hpb
    have h2 := sweep_keys_sub o pb h1
    rw [keysOf_reverse] at h2
    exact List.mem_reverse.mp h2
  by_cases hq0 : (sweep o Bb.reverse).next.quantity = 0
  · simp only [if_pos hq0] at hwfF ⊢
    obtain ⟨hkbF, hkaF, hnebF, hneaF, hidsF, hmainF, hbrecF, harecF⟩ := hwfF
    intro pb hpb pa hpa
    have hpbB : pb ∈ keysOf Bb := hpbold pb hpb
    have hpa2 : pa ∈ keysOf (addToLevels o A0) := by
      have h2 := (keysOf_removeFromLevels_sublist o.orderId o.price
        (updateInLevels (sweep o Bb.reverse).next (addToLevels o A0))).subset hpa
      rw [keysOf_updateInLevels] at h2
      exact h2
    rcases (keysOf_addToLevels_mem o A0).mp hpa2 with hpao | hpaold
    · subst hpao
      obtain ⟨lvl, hlvl⟩ := mem_keysOf hpa
      have hlvlne := hneaF (o.price, lvl) hlvl
      obtain ⟨r, hr⟩ := List.exists_mem_of_ne_nil lvl hlvlne
      have hrec := harecF (o.price, lvl) hlvl r hr
      have hrne : r.orderId ≠ o.orderId := by
        intro hc
        have h4 := hrec.2.2
        rw [hc, lookupId_eraseId_self] at h4
        exact Option.noConfusion h4
      rcases mem_removeFromLevels hlvl with hA | ⟨lvl0, hl0, hkeyp, hfil⟩
      · exact hnc pb hpbB o.price (aggressor_level_origin hnxid hA hr hrne)
      · have hl0b : (o.price, lvl0) ∈
            updateInLevels (sweep o Bb.reverse).next (addToLevels o A0) := hl0
        have hfil2 : lvl = lvl0.filter (fun x => x.orderId ≠ o.orderId) := hfil
        rw [hfil2] at hr
        have hr0 : r ∈ lvl0 := (List.mem_filter.mp hr).1
        exact hnc pb hpbB o.price (aggressor_level_origin hnxid hl0b hr0 hrne)
    · exact hnc pb hpbB pa hpaold
  · simp only [if_neg hq0] at hwfF ⊢
    obtain ⟨hkbF, hkaF, hnebF, hneaF, hidsF, hmainF, hbrecF, harecF⟩ := hwfF
    intro pb hpb pa hpa
    have hpbB : pb ∈ keysOf Bb := hpbold pb hpb
    have hpa2 : pa ∈ keysOf (addToLevels o A0) := by
      rw [keysOf_updateInLevels] at hpa
      exact hpa
    rcases (keysOf_addToLevels_mem o A0).mp hpa2 with hpao | hpaold
    · rcases sweep_stop hq0 with hnil | ⟨pq, lvl1, rest1, hlev, hcr⟩
      · rw [hnil] at hpb
        simp [keysOf] at hpb
      · have hlt : pq < o.price := crosses_false_sell hside hcr
        have hdesc : (keysOf (sweep o Bb.reverse).levels).Pairwise (· > ·) := by
          obtain ⟨n, hn⟩ := sweep_keys_drop o Bb.reverse
          rw [hn, keysOf_reverse]
          have hrev : ((keysOf Bb).reverse).Pairwise (· > ·) :=
            List.pairwise_reverse.mpr hkb
          exact List.Pairwise.sublist (List.drop_sublist n _) hrev
        have hhead : (keysOf (sweep o Bb.reverse).levels).head? = some pq := by
          rw [hlev]
          rfl
        have hmem1 : pb ∈ keysOf (sweep o Bb.reverse).levels := by
          rw [keysOf_reverse] at hpb
          exact List.mem_reverse.mp hpb
        have hle : pb ≤ pq := sorted_gt_head?_max hdesc hhead pb hmem1
        rw [hpao]
        exact le_trans hle (le_of_lt hlt)
    · exact hnc pb hpbB pa hpaold

theorem applyOp_NoCross {b : Book} (hwf : WF b) (hnc : NoCross b) :
    ∀ op, NoCross (b.applyOp op) := by
  intro op
  cases op with
  | add o? =>
    match o? with
    | none => exact hnc
    | some o =>
      by_cases h1 : o.quantity = 0
      · simp only [Book.applyOp, Book.addOrder, if_pos h1]
        exact hnc
      · by_cases h2 : (lookupId b.orders o.orderId).isSome
        · simp only [Book.applyOp, Book.addOrder, if_neg h1, if_pos h2]
          exact hnc
        · have hfresh : lookupId b.orders o.orderId = none := by
            cases hl : lookupId b.orders o.orderId
            · rfl
            · rw [hl] at h2
              simp at h2
          simp only [Book.applyOp, Book.addOrder, if_neg h1, if_neg h2]
          have hpre := addOrder_PreMatch hwf hfresh
          cases hside : o.side with
          | BUY =>
            have hb2 : ({ b with orders := insertById o b.orders } : Book).addToPriceLevel o =
                ⟨insertById o b.orders, addToLevels o b.bids, b.asks⟩ := by
              unfold Book.addToPriceLevel
              rw [hside]
            rw [hb2] at hpre ⊢
            exact matchOrders_NoCross_buy hside hpre hwf.2.1 hnc
          | SELL =>
            have hb2 : ({ b with orders := insertById o b.orders } : Book).addToPriceLevel o =
                ⟨insertById o b.orders, b.bids, addToLevels o b.asks⟩ := by
              unfold Book.addToPriceLevel
              rw [hside]
            rw [hb2] at hpre ⊢
            exact matchOrders_NoCross_sell hside hpre hwf.1 hnc
  | cancel id =>
    cases hl : lookupId b.orders id with
    | none =>
      simp only [Book.applyOp, Book.cancelOrder, hl]
      exact hnc
    | some ord =>
      simp only [Book.applyOp, Book.cancelOrder, hl]
      cases hos : ord.side with
      | BUY =>
        have hb2 : ({ b.removeFromPriceLevel ord with
            orders := eraseId id (b.removeFromPriceLevel ord).orders } : Book) =
            ⟨eraseId id b.orders,
              removeFromLevels ord.orderId ord.price b.bids, b.asks⟩ := by
          unfold Book.removeFromPriceLevel
          rw [hos]
        rw [hb2]
        intro pb hpb pa hpa
        exact hnc pb ((keysOf_removeFromLevels_sublist ord.orderId ord.price
          b.bids).subset hpb) pa hpa
      | SELL =>
        have hb2 : ({ b.removeFromPriceLevel ord with
            orders := eraseId id (b.removeFromPriceLevel ord).orders } : Book) =
            ⟨eraseId id b.orders, b.bids,
              removeFromLevels ord.orderId ord.price b.asks⟩ := by
          unfold Book.removeFromPriceLevel
          rw [hos]
        rw [hb2]
        intro pb hpb pa hpa
        exact hnc pb hpb pa ((keysOf_removeFromLevels_sublist ord.orderId
          ord.price b.asks).subset hpa)
  | modify id p q now =>
    cases hl : lookupId b.orders id with
    | none =>
      simp only [Book.applyOp, Book.modifyOrder, hl]
      exact hnc
    | some ord =>
      have hpre := modifyOrder_PreMatch hwf hl p q now
      set o2 : Order := { ord with price := p, quantity := q, timestamp := now }
        with ho2def
      by_cases hos : ord.side = OrderSide.BUY
      · have ho2s : o2.side = OrderSide.BUY := hos
        have hb1eq : b.removeFromPriceLevel ord =
            ⟨b.orders, removeFromLevels ord.orderId ord.price b.bids, b.asks⟩ := by
          unfold Book.removeFromPriceLevel
          rw [hos]
        have hb3eq : (({ b.removeFromPriceLevel ord with
            orders := updateById o2 (b.removeFromPriceLevel ord).orders } : Book).addToPriceLevel o2) =
            ⟨updateById o2 b.orders,
              addToLevels o2 (removeFromLevels ord.orderId ord.price b.bids),
              b.asks⟩ := by
          rw [hb1eq]
          unfold Book.addToPriceLevel
          rw [ho2s]
        rw [hb3eq] at hpre
        have h := matchOrders_NoCross_buy ho2s hpre hwf.2.1 (by
          intro pb hpb pa hpa
          exact hnc pb ((keysOf_removeFromLevels_sublist ord.orderId ord.price
            b.bids).subset hpb) pa hpa)
        rw [← hb3eq] at h
        simp only [Book.applyOp, Book.modifyOrder, hl]
        exact h
      · have hos2 : ord.side = OrderSide.SELL := by
          cases h2 : ord.side
          · exact absurd h2 hos
          · rfl
        have ho2s : o2.side = OrderSide.SELL := hos2
        have hb1eq : b.removeFromPriceLevel ord =
            ⟨b.orders, b.bids, removeFromLevels ord.orderId ord.price b.asks⟩ := by
          unfold Book.removeFromPriceLevel
          rw [hos2]
        have hb3eq : (({ b.removeFromPriceLevel ord with
            orders := updateById o2 (b.removeFromPriceLevel ord).orders } : Book).addToPriceLevel o2) =
            ⟨updateById o2 b.orders, b.bids,
              addToLevels o2 (removeFromLevels ord.orderId ord.price b.asks)⟩ := by
          rw [hb1eq]
          unfold Book.addToPriceLevel
          rw [ho2s]
        rw [hb3eq] at hpre
        have h := matchOrders_NoCross_sell ho2s hpre hwf.1 (by
          intro pb hpb pa hpa
          exact hnc pb hpb pa ((keysOf_removeFromLevels_sublist ord.orderId
            ord.price b.asks).subset hpa))
        rw [← hb3eq] at h
        simp only [Book.applyOp, Book.modifyOrder, hl]
        exact h
  | clear =>
    intro pb hpb pa hpa
    have hpb2 : pb ∈ keysOf Book.empty.bids := hpb
    simp [Book.empty, keysOf] at hpb2

theorem foldl_applyOp_NoCross (l : List Op) :
    ∀ b : Book, WF b → NoCross b → NoCross (l.foldl Book.applyOp b) := by
  induction l with
  | nil =>
    intro b _ hnc
    exact hnc
  | cons op rest ih =>
    intro b hwf hnc
    exact ih _ (applyOp_WF hwf op) (applyOp_NoCross hwf hnc op)

theorem runOps_NoCross (ops : List Op) : NoCross (runOps ops) := by
  apply foldl_applyOp_NoCross ops Book.empty WF_empty
  intro pb hpb pa hpa
  simp [Book.empty, keysOf] at hpb

/-- C6: after any finite sequence of public calls from the empty book, if
both sides are non-empty then the best ask is at least the best bid: any
crossing prices are matched away before each call returns, so the spread
is never negative. -/
theorem spread_never_negative (ops : List Op) (bb ba : ℚ)
    (hb : (runOps ops).getBestBid = some bb)
    (ha : (runOps ops).getBestAsk = some ba) : bb ≤ ba := by
  have hwf := runOps_WF ops
  have hnc := runOps_NoCross ops
  have hb2 : (keysOf (runOps ops).bids).getLast? = some bb := hb
  have ha2 : (keysOf (runOps ops).asks).head? = some ba := ha
  exact hnc bb (sorted_getLast?_max hwf.1 hb2).1 ba
    (sorted_head?_min hwf.2.1 ha2).1

/-- Witness for C6 at a concrete two-sided book. -/
theorem spread_never_negative_witness :
    (runOps [Op.add (some ⟨1, OrderSide.BUY, 99, 10, 1⟩),
      Op.add (some ⟨2, OrderSide.SELL, 101, 5, 2⟩)]).getBestBid = some 99 ∧
    (runOps [Op.add (some ⟨1, OrderSide.BUY, 99, 10, 1⟩),
      Op.add (some ⟨2, OrderSide.SELL, 101, 5, 2⟩)]).getBestAsk = some 101 ∧
    (99 : ℚ) ≤ 101 :=
  ⟨by decide, by decide,
   spread_never_negative [Op.add (some ⟨1, OrderSide.BUY, 99, 10, 1⟩),
     Op.add (some ⟨2, OrderSide.SELL, 101, 5, 2⟩)] 99 101 (by decide) (by decide)⟩

/-! ### Zero-quantity modification acts as cancellation (C10) -/

theorem sweep_zero {o : Order} (h : o.quantity = 0)
    (ls : List (ℚ × List Order)) : sweep o ls = ⟨o, ls, [], [], none⟩ := by
  cases ls with
  | nil => exact sweep_nil o
  | cons pl rest =>
    obtain ⟨p, lvl⟩ := pl
    exact sweep_cons_zero o p lvl rest h

theorem WF_cnt_zero_of_lookup_none {b : Book} (hwf : WF b) {i : ℕ}
    (h : lookupId b.orders i = none) : cntBook i b = 0 := by
  obtain ⟨_, _, _, _, _, _, hbrec, harec⟩ := hwf
  by_contra hc
  have hsum : cntBook i b = cntLs i b.bids + cntLs i b.asks := rfl
  by_cases hb0 : 0 < cntLs i b.bids
  · obtain ⟨pl, hpl, r, hr, hrid⟩ := cntLs_pos_exists hb0
    have h3 := (hbrec pl hpl r hr).2.2
    rw [hrid, h] at h3
    exact Option.noConfusion h3
  · have ha0 : 0 < cntLs i b.asks := by omega
    obtain ⟨pl, hpl, r, hr, hrid⟩ := cntLs_pos_exists ha0
    have h3 := (harec pl hpl r hr).2.2
    rw [hrid, h] at h3
    exact Option.noConfusion h3

/-- C10: for an id present in the book, a modification to quantity zero is
accepted (returns true) and acts as a cancellation: the order disappears
from the index and from every price level, and the positive-quantity
invariant still holds for every order left in the book. -/
theorem modify_zero_quantity_cancels (b : Book) (id : ℕ) (p : ℚ) (now : ℕ)
    (ord : Order) (hwf : WF b) (hl : lookupId b.orders id = some ord) :
    (b.modifyOrder id p 0 now).1 = true ∧
    lookupId (b.modifyOrder id p 0 now).2.1.orders id = none ∧
    cntBook id (b.modifyOrder id p 0 now).2.1 = 0 ∧
    (∀ x ∈ (b.modifyOrder id p 0 now).2.1.orders, 0 < x.quantity) := by
  have hwfF : WF (b.modifyOrder id p 0 now).2.1 := modifyOrder_WF hwf
  obtain ⟨hoid, _⟩ := lookupId_eq_some hl
  have hlooknone : lookupId (b.modifyOrder id p 0 now).2.1.orders id = none := by
    simp only [Book.modifyOrder, hl]
    set o2 : Order := { ord with price := p, quantity := 0, timestamp := now }
      with ho2def
    have ho2q : o2.quantity = 0 := rfl
    have ho2id2 : o2.orderId = id := by
      rw [show o2.orderId = ord.orderId from rfl]
      exact hoid
    by_cases hos : ord.side = OrderSide.BUY
    · have ho2s : o2.side = OrderSide.BUY := hos
      rw [matchOrders_fst_buy _ o2 ho2s]
      dsimp only
      rw [sweep_zero ho2q]
      dsimp only
      rw [if_pos ho2q, ← ho2id2]
      exact lookupId_eraseId_self _ o2.orderId
    · have hos2 : ord.side = OrderSide.SELL := by
        cases h2 : ord.side
        · exact absurd h2 hos
        · rfl
      have ho2s : o2.side = OrderSide.SELL := hos2
      rw [matchOrders_fst_sell _ o2 ho2s]
      dsimp only
      rw [sweep_zero ho2q]
      dsimp only
      rw [if_pos ho2q, ← ho2id2]
      exact lookupId_eraseId_self _ o2.orderId
  have hcnt0 : cntBook id (b.modifyOrder id p 0 now).2.1 = 0 :=
    WF_cnt_zero_of_lookup_none hwfF hlooknone
  obtain ⟨_, _, _, _, _, hmainF, _, _⟩ := hwfF
  refine ⟨?_, hlooknone, hcnt0, fun x hx => (hmainF x hx).2.2⟩
  simp only [Book.modifyOrder, hl]

/-- Witness for C10: modifying the single resting order of a one-order
book to quantity zero removes it completely. -/
theorem modify_zero_quantity_cancels_witness :
    WF (runOps [Op.add (some ⟨1, OrderSide.BUY, 99, 10, 1⟩)]) ∧
    lookupId (runOps [Op.add (some ⟨1, OrderSide.BUY, 99, 10, 1⟩)]).orders 1 =
      some ⟨1, OrderSide.BUY, 99, 10, 1⟩ ∧
    ((runOps [Op.add (some ⟨1, OrderSide.BUY, 99, 10, 1⟩)]).modifyOrder
      1 100 0 7).1 = true ∧
    lookupId ((runOps [Op.add (some ⟨1, OrderSide.BUY, 99, 10, 1⟩)]).modifyOrder
      1 100 0 7).2.1.orders 1 = none := by
  have h := modify_zero_quantity_cancels
    (runOps [Op.add (some ⟨1, OrderSide.BUY, 99, 10, 1⟩)]) 1 100 7
    ⟨1, OrderSide.BUY, 99, 10, 1⟩ (by decide) (by decide)
  exact ⟨by decide, by decide, h.1, h.2.1⟩

end OrderBookModel
